import Mathlib

set_option linter.unusedVariables false

/-!
Verification of the GoReSym strings extraction module (strings_extract.go).

Go strings and byte slices are modelled as lists of byte values
(naturals below 256 in well-formed inputs), runes (Unicode code points)
as naturals, and Go uint64 arithmetic as naturals reduced modulo 2^64.

The module calls into the Go standard library (unicode, unicode/utf8,
strings, sort).  Those library functions are modelled here from the
library's published sources and documentation; each model carries a doc
comment saying exactly what it models.  The classification tables of the
unicode package (IsLetter, IsDigit, case mapping) are transcribed exactly
on the Latin-1 range, where the Go implementation uses its fixed
properties table; above Latin-1 the Go implementation consults the full
Unicode range tables, which are not transcribed (IsLetter and IsDigit are
modelled as false there, ToLower as the identity).  No theorem in this
development depends on the classification of code points above Latin-1.
-/

/-- Modulus of Go uint64 arithmetic. -/
def U64MOD : Nat := 18446744073709551616

/-- Modelled from the Go standard library: utf8.RuneError, the Unicode
replacement character U+FFFD. -/
def RuneErr : Nat := 0xFFFD

/-- Modelled from the Go standard library, utf8.DecodeRune: decode the first
UTF-8 encoded code point of a byte list, returning the code point and the
number of bytes consumed.  An empty input yields size 0; an invalid or
truncated encoding yields (RuneErr, 1). -/
def utf8DecodeRune : List Nat → Nat × Nat
  | [] => (RuneErr, 0)
  | c0 :: rest =>
    if c0 < 0x80 then (c0, 1)
    else if c0 < 0xC2 then (RuneErr, 1)
    else if c0 < 0xE0 then
      match rest with
      | c1 :: _ =>
        if 0x80 ≤ c1 ∧ c1 ≤ 0xBF then ((c0 - 0xC0) * 64 + (c1 - 0x80), 2)
        else (RuneErr, 1)
      | [] => (RuneErr, 1)
    else if c0 < 0xF0 then
      match rest with
      | c1 :: c2 :: _ =>
        if (if c0 = 0xE0 then 0xA0 ≤ c1 ∧ c1 ≤ 0xBF
            else if c0 = 0xED then 0x80 ≤ c1 ∧ c1 ≤ 0x9F
            else 0x80 ≤ c1 ∧ c1 ≤ 0xBF) ∧ 0x80 ≤ c2 ∧ c2 ≤ 0xBF then
          ((c0 - 0xE0) * 4096 + (c1 - 0x80) * 64 + (c2 - 0x80), 3)
        else (RuneErr, 1)
      | _ => (RuneErr, 1)
    else if c0 < 0xF5 then
      match rest with
      | c1 :: c2 :: c3 :: _ =>
        if (if c0 = 0xF0 then 0x90 ≤ c1 ∧ c1 ≤ 0xBF
            else if c0 = 0xF4 then 0x80 ≤ c1 ∧ c1 ≤ 0x8F
            else 0x80 ≤ c1 ∧ c1 ≤ 0xBF) ∧ (0x80 ≤ c2 ∧ c2 ≤ 0xBF) ∧
            (0x80 ≤ c3 ∧ c3 ≤ 0xBF) then
          ((c0 - 0xF0) * 262144 + (c1 - 0x80) * 4096 + (c2 - 0x80) * 64 + (c3 - 0x80), 4)
        else (RuneErr, 1)
      | _ => (RuneErr, 1)
    else (RuneErr, 1)

theorem utf8DecodeRune_size_pos (c : Nat) (rest : List Nat) :
    1 ≤ (utf8DecodeRune (c :: rest)).2 := by
  unfold utf8DecodeRune
  repeat' split
  all_goals simp_all

theorem utf8DecodeRune_size_le (c : Nat) (rest : List Nat) :
    (utf8DecodeRune (c :: rest)).2 ≤ 4 := by
  unfold utf8DecodeRune
  repeat' split
  all_goals simp_all

/-- Modelled from the Go standard library: conversion of a string to a rune
slice (and the semantics of range over a string): decode code points left to
right, each invalid byte yielding one RuneErr and advancing one byte. -/
def utf8Decode (s : List Nat) : List Nat :=
  match h : s with
  | [] => []
  | c :: rest =>
    let d := utf8DecodeRune (c :: rest)
    d.1 :: utf8Decode (s.drop d.2)
termination_by s.length
decreasing_by
  simp only [h, List.length_drop, List.length_cons]
  have := utf8DecodeRune_size_pos c rest
  omega

/-- Modelled from the Go standard library, utf8.AppendRune: the UTF-8
encoding of a code point; surrogates and out-of-range values encode as the
replacement character. -/
def utf8EncodeRune (r : Nat) : List Nat :=
  if r < 0x80 then [r]
  else if r < 0x800 then [0xC0 + r / 64, 0x80 + r % 64]
  else if (0xD800 ≤ r ∧ r ≤ 0xDFFF) ∨ 0x10FFFF < r then [0xEF, 0xBF, 0xBD]
  else if r < 0x10000 then [0xE0 + r / 4096, 0x80 + (r / 64) % 64, 0x80 + r % 64]
  else [0xF0 + r / 262144, 0x80 + (r / 4096) % 64, 0x80 + (r / 64) % 64, 0x80 + r % 64]

/-- Modelled from the Go standard library, utf8.RuneStart: whether a byte can
begin an encoded code point (it is not a continuation byte). -/
def runeStart (c : Nat) : Bool := !(0x80 ≤ c && c ≤ 0xBF)

/-- Modelled from the Go standard library, the backward scan inside
utf8.DecodeLastRune: starting at index start and moving down, find the first
index at least lim holding a non-continuation byte; if the scan exhausts, the
result is lim - 1 clamped at zero (natural subtraction clamps). -/
def lastStartScan (p : List Nat) (lim start : Nat) : Nat :=
  if start < lim then lim - 1
  else if runeStart (p.getD start 0) then start
  else if start = 0 then 0
  else lastStartScan p lim (start - 1)
termination_by start

/-- Modelled from the Go standard library, utf8.DecodeLastRune: decode the
last code point of a byte list. -/
def utf8DecodeLastRune (p : List Nat) : Nat × Nat :=
  match p with
  | [] => (RuneErr, 0)
  | _ :: _ =>
    let e := p.length
    let last := p.getD (e - 1) 0
    if last < 0x80 then (last, 1)
    else
      let lim := e - 4
      let start := if 2 ≤ e then lastStartScan p lim (e - 2) else 0
      let rs := utf8DecodeRune (p.drop start)
      if start + rs.2 = e then rs else (RuneErr, 1)

/-- Modelled from the Go standard library, unicode.IsSpace: the complete
White_Space table (Latin-1 properties plus the Zs, Zl, Zp range entries). -/
def unicodeIsSpace (r : Nat) : Bool :=
  r == 9 || r == 10 || r == 11 || r == 12 || r == 13 || r == 32 ||
  r == 0x85 || r == 0xA0 || r == 0x1680 || (0x2000 ≤ r && r ≤ 0x200A) ||
  r == 0x2028 || r == 0x2029 || r == 0x202F || r == 0x205F || r == 0x3000

/-- Modelled from the Go standard library, unicode.IsControl: true exactly on
the Latin-1 code points carrying the pC property (the C0 and C1 control
blocks and DEL); false above Latin-1, as in the Go implementation. -/
def unicodeIsControl (r : Nat) : Bool :=
  r < 0x20 || (0x7F ≤ r && r ≤ 0x9F)

/-- Modelled from the Go standard library, unicode.IsLetter, exactly on the
Latin-1 range (the pL entries of the Go properties table); above Latin-1 the
Go implementation consults the full Unicode Letter tables, not transcribed
here (modelled as false; no theorem depends on that range). -/
def unicodeIsLetter (r : Nat) : Bool :=
  (0x41 ≤ r && r ≤ 0x5A) || (0x61 ≤ r && r ≤ 0x7A) || r == 0xAA ||
  r == 0xB5 || r == 0xBA || (0xC0 ≤ r && r ≤ 0xD6) ||
  (0xD8 ≤ r && r ≤ 0xF6) || (0xF8 ≤ r && r ≤ 0xFF)

/-- Modelled from the Go standard library, unicode.IsDigit, exactly on the
Latin-1 range (the ASCII digits); the decimal-digit ranges above Latin-1 are
not transcribed (modelled as false; no theorem depends on that range). -/
def unicodeIsDigit (r : Nat) : Bool := 0x30 ≤ r && r ≤ 0x39

/-- Modelled from the Go standard library, unicode.ToLower, exactly on the
Latin-1 range; above Latin-1 the Go case tables are not transcribed
(modelled as the identity; no theorem depends on that range). -/
def unicodeToLower (r : Nat) : Nat :=
  if 0x41 ≤ r ∧ r ≤ 0x5A then r + 0x20
  else if (0xC0 ≤ r ∧ r ≤ 0xD6) ∨ (0xD8 ≤ r ∧ r ≤ 0xDE) then r + 0x20
  else r

/-- Modelled from the Go standard library, strings.ToLower: if the string is
pure ASCII, lower-case byte by byte; otherwise map unicode.ToLower over the
decoded code points (invalid bytes decoding to the replacement character) and
re-encode. -/
def stringsToLower (s : List Nat) : List Nat :=
  if s.all (fun c => c < 0x80) then
    s.map (fun c => if 0x41 ≤ c ∧ c ≤ 0x5A then c + 0x20 else c)
  else
    ((utf8Decode s).map unicodeToLower).flatMap utf8EncodeRune

/-- Modelled from the Go standard library, the left trim of
strings.TrimSpace: drop leading code points satisfying unicode.IsSpace. -/
def stringsTrimLeftSpace (s : List Nat) : List Nat :=
  match h : s with
  | [] => []
  | c :: rest =>
    let d := utf8DecodeRune (c :: rest)
    if unicodeIsSpace d.1 then stringsTrimLeftSpace (s.drop d.2) else s
termination_by s.length
decreasing_by
  simp only [h, List.length_drop, List.length_cons]
  have := utf8DecodeRune_size_pos c rest
  omega

theorem lastStartScan_le (p : List Nat) (lim : Nat) :
    ∀ start, lastStartScan p lim start ≤ max lim start := by
  intro start
  induction start using Nat.strong_induction_on with
  | _ start ih =>
    unfold lastStartScan
    split
    · omega
    · split
      · omega
      · split
        · omega
        · rename_i h0
          have := ih (start - 1) (by omega)
          omega

theorem utf8DecodeLastRune_size_pos (c : Nat) (rest : List Nat) :
    1 ≤ (utf8DecodeLastRune (c :: rest)).2 := by
  simp only [utf8DecodeLastRune]
  split
  · simp
  · split
    · have hle : lastStartScan (c :: rest) ((c :: rest).length - 4) ((c :: rest).length - 2) <
          (c :: rest).length := by
        have := lastStartScan_le (c :: rest) ((c :: rest).length - 4) ((c :: rest).length - 2)
        simp only [List.length_cons] at *
        omega
      rcases hd : List.drop
          (lastStartScan (c :: rest) ((c :: rest).length - 4) ((c :: rest).length - 2))
          (c :: rest) with _ | ⟨x, xs⟩
      · rw [List.drop_eq_nil_iff] at hd
        simp only [List.length_cons] at hd hle
        omega
      · split
        · exact utf8DecodeRune_size_pos x xs
        · simp
    · split
      · exact utf8DecodeRune_size_pos c rest
      · simp

/-- Modelled from the Go standard library, the right trim of
strings.TrimSpace: drop trailing code points satisfying unicode.IsSpace. -/
def stringsTrimRightSpace (s : List Nat) : List Nat :=
  match h : s with
  | [] => []
  | c :: rest =>
    if unicodeIsSpace (utf8DecodeLastRune (c :: rest)).1 then
      stringsTrimRightSpace ((c :: rest).take ((c :: rest).length - (utf8DecodeLastRune (c :: rest)).2))
    else s
termination_by s.length
decreasing_by
  simp only [h, List.length_take, List.length_cons]
  have := utf8DecodeLastRune_size_pos c rest
  omega

/-- Modelled from the Go standard library, strings.TrimSpace. -/
def stringsTrimSpace (s : List Nat) : List Nat :=
  stringsTrimRightSpace (stringsTrimLeftSpace s)

/-- The fixed punctuation set of isCommonPunctuation in strings_extract.go,
as byte/code point values. -/
def isCommonPunctuation (r : Nat) : Bool :=
  r == 46 || r == 44 || r == 58 || r == 59 || r == 33 || r == 63 || r == 39 ||
  r == 34 || r == 40 || r == 41 || r == 91 || r == 93 || r == 123 || r == 125 ||
  r == 45 || r == 95 || r == 47 || r == 92 || r == 43 || r == 61 || r == 42 ||
  r == 38 || r == 124 || r == 60 || r == 62 || r == 64 || r == 35 || r == 36 ||
  r == 37 || r == 94 || r == 126 || r == 96

/-- isRepeatedChar from strings_extract.go: byte strings of length at least 3
whose bytes all equal the first byte. -/
def isRepeatedChar (s : List Nat) : Bool :=
  if s.length < 3 then false
  else
    match s with
    | [] => false
    | first :: rest => rest.all (fun b => b == first)

/-- The fixed mnemonic table of looksLikeAssemblyCode in strings_extract.go:
mov, jmp, call, ret, lea, add, sub, xor, push, pop, cmp, test. -/
def asmHints : List (List Nat) :=
  [[109, 111, 118], [106, 109, 112], [99, 97, 108, 108], [114, 101, 116],
   [108, 101, 97], [97, 100, 100], [115, 117, 98], [120, 111, 114],
   [112, 117, 115, 104], [112, 111, 112], [99, 109, 112], [116, 101, 115, 116]]

/-- Modelled from the Go standard library, strings.Contains: the second list
occurs as a contiguous sublist of the first. -/
def stringsContains (s sub : List Nat) : Bool :=
  match s with
  | [] => List.isPrefixOf sub []
  | _ :: rest => List.isPrefixOf sub s || stringsContains rest sub

/-- The hex-like code point test of looksLikeAssemblyCode: an ASCII digit,
a lower-case hex letter, or the letter x. -/
def hexRune (r : Nat) : Bool := (48 ≤ r && r ≤ 57) || (97 ≤ r && r ≤ 102) || r == 120

/-- looksLikeAssemblyCode from strings_extract.go: flag the text when the
lower-cased bytes contain a mnemonic followed by a space or start with a
mnemonic, or when the count of hex-like code points (digits, a-f, x) exceeds
80 percent of the byte length of the lower-cased text. -/
def looksLikeAssemblyCode (s : List Nat) : Bool :=
  let lower := stringsToLower s
  if asmHints.any (fun h => stringsContains lower (h ++ [32]) || List.isPrefixOf h lower) then
    true
  else
    let hex := ((utf8Decode lower).filter hexRune).length
    if 0 < lower.length && 80 < hex * 100 / lower.length then true else false

/-- The per-code-point acceptance test of the composition check in
isLikelyString: letter, digit, space, or common punctuation. -/
def goodRune (r : Nat) : Bool :=
  unicodeIsLetter r || unicodeIsDigit r || r == 32 || isCommonPunctuation r

/-- isLikelyString from strings_extract.go: trim space; reject when empty,
when a repeated byte, when fewer than 70 percent (integer percentage) of the
code points are letters, digits, spaces or common punctuation, or when the
trimmed text looks like assembly code. -/
def isLikelyString (s : List Nat) : Bool :=
  let trimmed := stringsTrimSpace s
  if trimmed.length == 0 then false
  else if isRepeatedChar trimmed then false
  else
    let good := ((utf8Decode trimmed).filter goodRune).length
    if good * 100 / (utf8Decode trimmed).length < 70 then false
    else if looksLikeAssemblyCode trimmed then false
    else true

/-- localStringInfo from strings_extract.go: a discovered string with its
offset within the scanned buffer (Go stores uint64(start) where start is the
non-negative loop index, an exact conversion). -/
structure localStringInfo where
  Value : List Nat
  Address : Nat
deriving Repr, DecidableEq

/-- isPrintableASCII from strings_extract.go: visible ASCII and space. -/
def isPrintableASCII (b : Nat) : Bool := 32 ≤ b && b ≤ 126

/-- isPureASCII from strings_extract.go: no byte at or above 0x80. -/
def isPureASCII (s : List Nat) : Bool := s.all (fun c => c < 0x80)

/-- The scanning loop of extractASCIIStrings from strings_extract.go:
left-to-right over indices, tracking the start of the current printable run
(Go uses the sentinel -1, modelled as none); a run is closed at the first
non-printable byte or at end of buffer, and emitted when its length reaches
minLength and isLikelyString accepts it. -/
def asciiLoop (b : List Nat) (minLength : Nat) (i : Nat) (start : Option Nat)
    (res : List localStringInfo) : List localStringInfo :=
  if h : i < b.length then
    if isPrintableASCII (b.getD i 0) then
      asciiLoop b minLength (i + 1) (some (start.getD i)) res
    else
      match start with
      | none => asciiLoop b minLength (i + 1) none res
      | some s =>
        asciiLoop b minLength (i + 1) none
          (if minLength ≤ i - s ∧ isLikelyString ((b.drop s).take (i - s)) = true
           then res ++ [⟨(b.drop s).take (i - s), s⟩] else res)
  else
    match start with
    | none => res
    | some s =>
      if minLength ≤ b.length - s ∧ isLikelyString (b.drop s) = true
      then res ++ [⟨b.drop s, s⟩] else res
termination_by b.length - i

/-- extractASCIIStrings from strings_extract.go. -/
def extractASCIIStrings (b : List Nat) (minLength : Nat) : List localStringInfo :=
  asciiLoop b minLength 0 none []

theorem drop_decode_size_pos (b : List Nat) (j : Nat) (hj : j < b.length) :
    1 ≤ (utf8DecodeRune (b.drop j)).2 := by
  rcases hd : b.drop j with _ | ⟨x, xs⟩
  · rw [List.drop_eq_nil_iff] at hd
    exact absurd hj (by omega)
  · exact utf8DecodeRune_size_pos x xs

/-- The inner loop of extractUTF8Strings from strings_extract.go: from byte
position j, extend the run while code points decode validly (a decode error
of size one stops it) and are not newline, carriage return, horizontal tab,
or control code points; returns the end position and the code point count. -/
def utf8RunEnd (b : List Nat) (j : Nat) (printable : Nat) : Nat × Nat :=
  if h : j < b.length then
    if (utf8DecodeRune (b.drop j)).1 = RuneErr ∧ (utf8DecodeRune (b.drop j)).2 = 1 then
      (j, printable)
    else if (utf8DecodeRune (b.drop j)).1 = 10 ∨ (utf8DecodeRune (b.drop j)).1 = 13 ∨
        (utf8DecodeRune (b.drop j)).1 = 9 then
      (j, printable)
    else if unicodeIsControl (utf8DecodeRune (b.drop j)).1 then
      (j, printable)
    else
      utf8RunEnd b (j + (utf8DecodeRune (b.drop j)).2) (printable + 1)
  else (j, printable)
termination_by b.length - j
decreasing_by
  have h1 := drop_decode_size_pos b j h
  omega

theorem utf8RunEnd_ge (b : List Nat) : ∀ m j p, b.length - j = m →
    j ≤ (utf8RunEnd b j p).1 := by
  intro m
  induction m using Nat.strong_induction_on with
  | _ m ih =>
    intro j p hm
    rw [utf8RunEnd]
    split
    · rename_i hj
      have hs := drop_decode_size_pos b j hj
      split
      · simp
      · split
        · simp
        · split
          · simp
          · have h2 := ih (b.length - (j + (utf8DecodeRune (b.drop j)).2)) (by omega)
              (j + (utf8DecodeRune (b.drop j)).2) (p + 1) rfl
            omega
    · simp

/-- The outer loop of extractUTF8Strings from strings_extract.go: skip decode
errors one byte at a time; otherwise measure the run from position i, emit it
when it has at least minLength code points, is not pure ASCII and is a likely
string; resume one byte past the run (consuming the delimiter), or past the
single code point when the run is empty. -/
def utf8Loop (b : List Nat) (minLength : Nat) (i : Nat)
    (res : List localStringInfo) : List localStringInfo :=
  if h : i < b.length then
    if (utf8DecodeRune (b.drop i)).1 = RuneErr ∧ (utf8DecodeRune (b.drop i)).2 = 1 then
      utf8Loop b minLength (i + 1) res
    else
      if (utf8RunEnd b i 0).1 = i then
        utf8Loop b minLength (i + (utf8DecodeRune (b.drop i)).2)
          (if minLength ≤ (utf8RunEnd b i 0).2 ∧
              (!isPureASCII ((b.drop i).take ((utf8RunEnd b i 0).1 - i)) &&
               isLikelyString ((b.drop i).take ((utf8RunEnd b i 0).1 - i))) = true
           then res ++ [⟨(b.drop i).take ((utf8RunEnd b i 0).1 - i), i⟩] else res)
      else
        utf8Loop b minLength ((utf8RunEnd b i 0).1 + 1)
          (if minLength ≤ (utf8RunEnd b i 0).2 ∧
              (!isPureASCII ((b.drop i).take ((utf8RunEnd b i 0).1 - i)) &&
               isLikelyString ((b.drop i).take ((utf8RunEnd b i 0).1 - i))) = true
           then res ++ [⟨(b.drop i).take ((utf8RunEnd b i 0).1 - i), i⟩] else res)
  else res
termination_by b.length - i
decreasing_by
  · omega
  · have h1 := drop_decode_size_pos b i h
    omega
  · have h2 := utf8RunEnd_ge b (b.length - i) i 0 rfl
    rename_i hne
    omega

/-- extractUTF8Strings from strings_extract.go. -/
def extractUTF8Strings (b : List Nat) (minLength : Nat) : List localStringInfo :=
  utf8Loop b minLength 0 []

/-- extractPrintableStrings from strings_extract.go: the ASCII scan results
followed by the UTF-8 scan results. -/
def extractPrintableStrings (b : List Nat) (minLength : Nat) : List localStringInfo :=
  extractASCIIStrings b minLength ++ extractUTF8Strings b minLength

/-- StringInfo from strings_extract.go: a discovered string, its absolute
address (uint64) and its section label; strings are byte lists. -/
structure StringInfo where
  Value : List Nat
  Address : Nat
  Section : List Nat
deriving Repr, DecidableEq, Inhabited

/-- StringsResult from strings_extract.go. -/
structure StringsResult where
  Strings : List StringInfo
  Count : Nat
deriving Repr, DecidableEq

/-- The dedup key of deduplicateStrings: Section, a pipe byte, Value. -/
def dedupKey (s : StringInfo) : List Nat := s.Section ++ [124] ++ s.Value

/-- The loop of deduplicateStrings from strings_extract.go: walk the input in
order, keeping an entry when its key was not seen before (the Go map of seen
keys is modelled as the list of keys seen so far). -/
def dedupGo (seen : List (List Nat)) : List StringInfo → List StringInfo
  | [] => []
  | s :: rest =>
    if seen.contains (dedupKey s) then dedupGo seen rest
    else s :: dedupGo (dedupKey s :: seen) rest

/-- deduplicateStrings from strings_extract.go. -/
def deduplicateStrings (l : List StringInfo) : List StringInfo :=
  dedupGo [] l

/-- Element read used by the sort model; Go indexes the slice directly and
all indices are in bounds in reachable states. -/
def geta [Inhabited α] (l : List α) (i : Nat) : α := l.getD i default

/-- Modelled from the Go standard library sort package: the swap primitive
handed to pdqsort by sort.Slice (reflect.Swapper).  Go panics on an
out-of-bounds index; every index reached from the sort.Slice entry point is
in bounds, and the model leaves the list unchanged out of bounds. -/
def swapL [Inhabited α] (l : List α) (i j : Nat) : List α :=
  if i < l.length ∧ j < l.length then (l.set i (geta l j)).set j (geta l i) else l

/-- Modelled from the Go standard library sort package: the user less
function handed to pdqsort; extractStrings compares by ascending key (the
Address field), reading the current state of the slice. -/
def lessK (key : α → Nat) [Inhabited α] (l : List α) (i j : Nat) : Bool :=
  key (geta l i) < key (geta l j)

/-- Modelled from the Go standard library sort package, the sortedness hints
of choosePivot. -/
inductive SortHint where
  | unknown : SortHint
  | increasing : SortHint
  | decreasing : SortHint
deriving Repr, DecidableEq

/-- Modelled from the Go standard library, bits.Len: the number of bits
needed to represent n. -/
def bitsLen (n : Nat) : Nat := if n = 0 then 0 else Nat.log2 n + 1

/-- Modelled from the Go standard library sort package: one step of the
xorshift pseudo-random source used by breakPatterns (uint64 state). -/
def xorshiftNext (r : Nat) : Nat :=
  let r1 := (r ^^^ (r <<< 13)) % U64MOD
  let r2 := r1 ^^^ (r1 >>> 7)
  (r2 ^^^ (r2 <<< 17)) % U64MOD

/-- Modelled from the Go standard library sort package, the inner loop of
insertionSort: move the element at j left while it is less than its left
neighbour and j is above a. -/
def insertionSortInner (key : α → Nat) [Inhabited α] (l : List α) (a j : Nat) : List α :=
  if a < j ∧ lessK key l j (j - 1) = true then
    insertionSortInner key (swapL l j (j - 1)) a (j - 1)
  else l
termination_by j

/-- Modelled from the Go standard library sort package, the outer loop of
insertionSort over data[a:b]. -/
def insertionSortOuter (key : α → Nat) [Inhabited α] (l : List α) (a b i : Nat) : List α :=
  if i < b then insertionSortOuter key (insertionSortInner key l a i) a b (i + 1) else l
termination_by b - i

/-- Modelled from the Go standard library sort package, insertionSort on the
range data[a:b]. -/
def insertionSortRange (key : α → Nat) [Inhabited α] (l : List α) (a b : Nat) : List α :=
  insertionSortOuter key l a b (a + 1)

/-- Modelled from the Go standard library sort package, the child choice of
siftDown: the larger of the two children of root (the right one only when it
exists and compares larger). -/
def siftChild (key : α → Nat) [Inhabited α] (l : List α) (hi first root : Nat) : Nat :=
  if 2 * root + 2 < hi ∧
      lessK key l (first + (2 * root + 1)) (first + (2 * root + 2)) = true
  then 2 * root + 2 else 2 * root + 1

theorem siftChild_gt (key : α → Nat) [Inhabited α] (l : List α) (hi first root : Nat) :
    root < siftChild key l hi first root := by
  unfold siftChild
  split
  all_goals omega

theorem siftChild_lt (key : α → Nat) [Inhabited α] (l : List α) (hi first root : Nat)
    (h : 2 * root + 1 < hi) : siftChild key l hi first root < hi := by
  unfold siftChild
  split
  all_goals omega

/-- Modelled from the Go standard library sort package, siftDown: sift the
root of the heap over data[first:first+hi] rooted at first+root. -/
def siftDownGo (key : α → Nat) [Inhabited α] (l : List α) (hi first root : Nat) : List α :=
  if h : 2 * root + 1 < hi then
    if lessK key l (first + root) (first + siftChild key l hi first root) = true then
      siftDownGo key (swapL l (first + root) (first + siftChild key l hi first root))
        hi first (siftChild key l hi first root)
    else l
  else l
termination_by hi - root
decreasing_by
  have h1 := siftChild_gt key l hi first root
  have h2 := siftChild_lt key l hi first root h
  omega

/-- Modelled from the Go standard library sort package, the heap
construction loop of heapSort (index i descending to zero). -/
def heapBuild (key : α → Nat) [Inhabited α] (l : List α) (hi first i : Nat) : List α :=
  if i = 0 then siftDownGo key l hi first 0
  else heapBuild key (siftDownGo key l hi first i) hi first (i - 1)
termination_by i

/-- Modelled from the Go standard library sort package, the pop loop of
heapSort (index i descending to zero): swap the maximum to the end and
restore the heap on the prefix. -/
def heapPop (key : α → Nat) [Inhabited α] (l : List α) (first i : Nat) : List α :=
  if i = 0 then siftDownGo key (swapL l first (first + i)) i first 0
  else heapPop key (siftDownGo key (swapL l first (first + i)) i first 0) first (i - 1)
termination_by i

/-- Modelled from the Go standard library sort package, heapSort on the
range data[a:b]. -/
def heapSortRange (key : α → Nat) [Inhabited α] (l : List α) (a b : Nat) : List α :=
  heapPop key (heapBuild key l (b - a) a ((b - a - 1) / 2)) a (b - a - 1)

/-- Modelled from the Go standard library sort package, reverseRange on
data[a:b] (two moving indices swapping inward). -/
def reverseRangeGo (key : α → Nat) [Inhabited α] (l : List α) (i j : Nat) : List α :=
  if i < j then reverseRangeGo key (swapL l i j) (i + 1) (j - 1) else l
termination_by j - i

/-- Modelled from the Go standard library sort package, order2: order two
indices by the data they point at, counting a swap. -/
def order2K (key : α → Nat) [Inhabited α] (l : List α) (a b swaps : Nat) :
    Nat × Nat × Nat :=
  if lessK key l b a = true then (b, a, swaps + 1) else (a, b, swaps)

/-- Modelled from the Go standard library sort package, median: the index
holding the median of three, threading the swap counter. -/
def medianK (key : α → Nat) [Inhabited α] (l : List α) (a b c swaps : Nat) :
    Nat × Nat :=
  let r1 := order2K key l a b swaps
  let r2 := order2K key l r1.2.1 c r1.2.2
  let r3 := order2K key l r1.1 r2.1 r2.2.2
  (r3.2.1, r3.2.2)

/-- Modelled from the Go standard library sort package, medianAdjacent: the
median of an index and its two neighbours. -/
def medianAdjacentK (key : α → Nat) [Inhabited α] (l : List α) (a swaps : Nat) :
    Nat × Nat :=
  medianK key l (a - 1) a (a + 1) swaps

/-- Modelled from the Go standard library sort package: the hint derived
from the swap counter in choosePivot (zero swaps means increasing, the
maximum of twelve means decreasing). -/
def hintFromSwaps (swaps : Nat) : SortHint :=
  if swaps = 0 then SortHint.increasing
  else if swaps = 12 then SortHint.decreasing
  else SortHint.unknown

/-- Modelled from the Go standard library sort package, choosePivot over
data[a:b]: static pivot below length 8 (hint from zero swaps), median of
three below 50, Tukey ninther from 50 up. -/
def choosePivotK (key : α → Nat) [Inhabited α] (l : List α) (a b : Nat) :
    Nat × SortHint :=
  let len := b - a
  let i0 := a + len / 4 * 1
  let j0 := a + len / 4 * 2
  let k0 := a + len / 4 * 3
  if 8 ≤ len then
    if 50 ≤ len then
      let m1 := medianAdjacentK key l i0 0
      let m2 := medianAdjacentK key l j0 m1.2
      let m3 := medianAdjacentK key l k0 m2.2
      let mf := medianK key l m1.1 m2.1 m3.1 m3.2
      (mf.1, hintFromSwaps mf.2)
    else
      let mf := medianK key l i0 j0 k0 0
      (mf.1, hintFromSwaps mf.2)
  else (j0, hintFromSwaps 0)

/-- Modelled from the Go standard library sort package, one of the three
scattering swaps of breakPatterns. -/
def breakOne (key : α → Nat) [Inhabited α] (l : List α) (a len idx i random : Nat) :
    List α × Nat :=
  let rn := xorshiftNext random
  let other0 := rn &&& (2 ^ bitsLen len - 1)
  let other := if len ≤ other0 then other0 - len else other0
  (swapL l (idx - 1 + i) (a + other), rn)

/-- Modelled from the Go standard library sort package, breakPatterns over
data[a:b]: for lengths of at least 8, swap three positions near the middle
with pseudo-random positions (xorshift seeded with the length). -/
def breakPatternsK (key : α → Nat) [Inhabited α] (l : List α) (a b : Nat) : List α :=
  let len := b - a
  if 8 ≤ len then
    let idx := a + len / 4 * 2 - 1
    let s0 := breakOne key l a len idx 0 (len % U64MOD)
    let s1 := breakOne key s0.1 a len idx 1 s0.2
    let s2 := breakOne key s1.1 a len idx 2 s1.2
    s2.1
  else l

/-- Modelled from the Go standard library sort package, the advance of the
left index inside partition: move i right over elements less than the pivot
at a, while i stays at or below j. -/
def partAdvI (key : α → Nat) [Inhabited α] (l : List α) (a i j : Nat) : Nat :=
  if i ≤ j ∧ lessK key l i a = true then partAdvI key l a (i + 1) j else i
termination_by j + 1 - i

/-- Modelled from the Go standard library sort package, the advance of the
right index inside partition: move j left over elements at or above the
pivot at a, while j stays at or above i.  The Go index j is an int and can
only reach minus one when i is zero, which no caller reaches (partition
starts i at a plus one); the model stops at zero there. -/
def partAdvJ (key : α → Nat) [Inhabited α] (l : List α) (a i j : Nat) : Nat :=
  if i ≤ j ∧ lessK key l j a = false then
    if j = 0 then 0 else partAdvJ key l a i (j - 1)
  else j
termination_by j

theorem partAdvI_ge (key : α → Nat) [Inhabited α] (l : List α) (a : Nat) :
    ∀ m i j, j + 1 - i = m → i ≤ partAdvI key l a i j := by
  intro m
  induction m using Nat.strong_induction_on with
  | _ m ih =>
    intro i j hm
    rw [partAdvI]
    split
    · rename_i hc
      have := ih (j + 1 - (i + 1)) (by omega) (i + 1) j rfl
      omega
    · omega

theorem partAdvI_le (key : α → Nat) [Inhabited α] (l : List α) (a : Nat) :
    ∀ m i j, j + 1 - i = m → i ≤ j + 1 → partAdvI key l a i j ≤ j + 1 := by
  intro m
  induction m using Nat.strong_induction_on with
  | _ m ih =>
    intro i j hm hle
    rw [partAdvI]
    split
    · rename_i hc
      exact ih (j + 1 - (i + 1)) (by omega) (i + 1) j rfl (by omega)
    · omega

theorem partAdvJ_le (key : α → Nat) [Inhabited α] (l : List α) (a : Nat) :
    ∀ i j, partAdvJ key l a i j ≤ j := by
  intro i j
  induction j using Nat.strong_induction_on with
  | _ j ih =>
    rw [partAdvJ]
    split
    · split
      · omega
      · rename_i hc h0
        have := ih (j - 1) (by omega)
        omega
    · omega

theorem partAdvJ_ge (key : α → Nat) [Inhabited α] (l : List α) (a : Nat) :
    ∀ j i, 1 ≤ i → i - 1 ≤ j → i - 1 ≤ partAdvJ key l a i j := by
  intro j
  induction j using Nat.strong_induction_on with
  | _ j ih =>
    intro i hi hij
    rw [partAdvJ]
    split
    · rename_i hc
      split
      · omega
      · rename_i h0
        exact ih (j - 1) (by omega) i hi (by omega)
    · omega

/-- Modelled from the Go standard library sort package, the steady loop of
partition: advance both indices, stop when they cross, otherwise swap and
step both inward. -/
def partitionLoopK (key : α → Nat) [Inhabited α] (l : List α) (a i j : Nat) :
    Nat × List α :=
  if hij : partAdvJ key l a (partAdvI key l a i j) j < partAdvI key l a i j then
    (partAdvJ key l a (partAdvI key l a i j) j, l)
  else
    partitionLoopK key
      (swapL l (partAdvI key l a i j) (partAdvJ key l a (partAdvI key l a i j) j))
      a (partAdvI key l a i j + 1) (partAdvJ key l a (partAdvI key l a i j) j - 1)
termination_by j + 1 - i
decreasing_by
  have h1 := partAdvI_ge key l a (j + 1 - i) i j rfl
  have h2 := partAdvJ_le key l a (partAdvI key l a i j) j
  omega

theorem partitionLoopK_fst_le (key : α → Nat) [Inhabited α] :
    ∀ m (l : List α) a i j, j + 1 - i = m → (partitionLoopK key l a i j).1 ≤ j := by
  intro m
  induction m using Nat.strong_induction_on with
  | _ m ih =>
    intro l a i j hm
    rw [partitionLoopK]
    have h1 := partAdvI_ge key l a (j + 1 - i) i j rfl
    have h2 := partAdvJ_le key l a (partAdvI key l a i j) j
    split
    · simpa using h2
    · rename_i hc
      have h3 := ih ((partAdvJ key l a (partAdvI key l a i j) j - 1) + 1 -
          (partAdvI key l a i j + 1)) (by omega)
        (swapL l (partAdvI key l a i j) (partAdvJ key l a (partAdvI key l a i j) j))
        a (partAdvI key l a i j + 1) (partAdvJ key l a (partAdvI key l a i j) j - 1) rfl
      omega

theorem partitionLoopK_fst_ge (key : α → Nat) [Inhabited α] :
    ∀ m (l : List α) a i j, j + 1 - i = m → a + 1 ≤ i → a ≤ j →
      a ≤ (partitionLoopK key l a i j).1 := by
  intro m
  induction m using Nat.strong_induction_on with
  | _ m ih =>
    intro l a i j hm hi hj
    rw [partitionLoopK]
    have h1 := partAdvI_ge key l a (j + 1 - i) i j rfl
    have h2 := partAdvJ_le key l a (partAdvI key l a i j) j
    have h3 : a ≤ partAdvJ key l a (partAdvI key l a i j) j := by
      by_cases hcase : partAdvI key l a i j ≤ j
      · have := partAdvJ_ge key l a j (partAdvI key l a i j) (by omega) (by omega)
        omega
      · rw [partAdvJ]
        rw [if_neg]
        · exact hj
        · intro hcon
          exact hcase hcon.1
    split
    · simpa using h3
    · rename_i hc
      have h4 := ih ((partAdvJ key l a (partAdvI key l a i j) j - 1) + 1 -
          (partAdvI key l a i j + 1)) (by omega)
        (swapL l (partAdvI key l a i j) (partAdvJ key l a (partAdvI key l a i j) j))
        a (partAdvI key l a i j + 1) (partAdvJ key l a (partAdvI key l a i j) j - 1)
        rfl (by omega) (by omega)
      omega

/-- Modelled from the Go standard library sort package, partition of
data[a:b] around the pivot index: the pivot is first swapped to a; the
result is the final pivot position, whether the range was already
partitioned, and the permuted data. -/
def partitionK (key : α → Nat) [Inhabited α] (l : List α) (a b pivot : Nat) :
    Nat × Bool × List α :=
  let l0 := swapL l a pivot
  let i1 := partAdvI key l0 a (a + 1) (b - 1)
  let j1 := partAdvJ key l0 a i1 (b - 1)
  if j1 < i1 then (j1, true, swapL l0 j1 a)
  else
    let pl := partitionLoopK key (swapL l0 i1 j1) a (i1 + 1) (j1 - 1)
    (pl.1, false, swapL pl.2 pl.1 a)

theorem partitionK_fst_le (key : α → Nat) [Inhabited α] (l : List α)
    (a b pivot : Nat) (hab : a + 1 ≤ b) : (partitionK key l a b pivot).1 ≤ b - 1 := by
  simp only [partitionK]
  split
  · have h2 := partAdvJ_le key (swapL l a pivot) a
      (partAdvI key (swapL l a pivot) a (a + 1) (b - 1)) (b - 1)
    simpa using h2
  · rename_i hc
    have h1 := partAdvI_ge key (swapL l a pivot) a (b - 1 + 1 - (a + 1)) (a + 1) (b - 1) rfl
    have h2 := partAdvJ_le key (swapL l a pivot) a
      (partAdvI key (swapL l a pivot) a (a + 1) (b - 1)) (b - 1)
    have h3 := partitionLoopK_fst_le key
      ((partAdvJ key (swapL l a pivot) a (partAdvI key (swapL l a pivot) a (a + 1) (b - 1)) (b - 1) - 1) + 1 -
        (partAdvI key (swapL l a pivot) a (a + 1) (b - 1) + 1))
      (swapL (swapL l a pivot) (partAdvI key (swapL l a pivot) a (a + 1) (b - 1))
        (partAdvJ key (swapL l a pivot) a (partAdvI key (swapL l a pivot) a (a + 1) (b - 1)) (b - 1)))
      a (partAdvI key (swapL l a pivot) a (a + 1) (b - 1) + 1)
      (partAdvJ key (swapL l a pivot) a (partAdvI key (swapL l a pivot) a (a + 1) (b - 1)) (b - 1) - 1) rfl
    simp only []
    omega

theorem partitionK_fst_ge (key : α → Nat) [Inhabited α] (l : List α)
    (a b pivot : Nat) (hab : a + 1 ≤ b) : a ≤ (partitionK key l a b pivot).1 := by
  simp only [partitionK]
  have h1 := partAdvI_ge key (swapL l a pivot) a (b - 1 + 1 - (a + 1)) (a + 1) (b - 1) rfl
  have h3 : a ≤ partAdvJ key (swapL l a pivot) a
      (partAdvI key (swapL l a pivot) a (a + 1) (b - 1)) (b - 1) := by
    by_cases hcase : partAdvI key (swapL l a pivot) a (a + 1) (b - 1) ≤ b - 1
    · have := partAdvJ_ge key (swapL l a pivot) a (b - 1)
        (partAdvI key (swapL l a pivot) a (a + 1) (b - 1)) (by omega) (by omega)
      omega
    · rw [partAdvJ, if_neg]
      · omega
      · intro hcon
        exact hcase hcon.1
  split
  · simpa using h3
  · rename_i hc
    have h4 := partitionLoopK_fst_ge key
      ((partAdvJ key (swapL l a pivot) a (partAdvI key (swapL l a pivot) a (a + 1) (b - 1)) (b - 1) - 1) + 1 -
        (partAdvI key (swapL l a pivot) a (a + 1) (b - 1) + 1))
      (swapL (swapL l a pivot) (partAdvI key (swapL l a pivot) a (a + 1) (b - 1))
        (partAdvJ key (swapL l a pivot) a (partAdvI key (swapL l a pivot) a (a + 1) (b - 1)) (b - 1)))
      a (partAdvI key (swapL l a pivot) a (a + 1) (b - 1) + 1)
      (partAdvJ key (swapL l a pivot) a (partAdvI key (swapL l a pivot) a (a + 1) (b - 1)) (b - 1) - 1)
      rfl (by omega) (by omega)
    simp only []
    omega

/-- Modelled from the Go standard library sort package, the advance of the
left index inside partitionEqual: move i right over elements not greater
than the pivot at a. -/
def peqAdvI (key : α → Nat) [Inhabited α] (l : List α) (a i j : Nat) : Nat :=
  if i ≤ j ∧ lessK key l a i = false then peqAdvI key l a (i + 1) j else i
termination_by j + 1 - i

/-- Modelled from the Go standard library sort package, the advance of the
right index inside partitionEqual: move j left over elements greater than
the pivot at a (with the same unreachable int caveat as partAdvJ). -/
def peqAdvJ (key : α → Nat) [Inhabited α] (l : List α) (a i j : Nat) : Nat :=
  if i ≤ j ∧ lessK key l a j = true then
    if j = 0 then 0 else peqAdvJ key l a i (j - 1)
  else j
termination_by j

theorem peqAdvI_ge (key : α → Nat) [Inhabited α] (l : List α) (a : Nat) :
    ∀ m i j, j + 1 - i = m → i ≤ peqAdvI key l a i j := by
  intro m
  induction m using Nat.strong_induction_on with
  | _ m ih =>
    intro i j hm
    rw [peqAdvI]
    split
    · rename_i hc
      have := ih (j + 1 - (i + 1)) (by omega) (i + 1) j rfl
      omega
    · omega

theorem peqAdvJ_le (key : α → Nat) [Inhabited α] (l : List α) (a : Nat) :
    ∀ i j, peqAdvJ key l a i j ≤ j := by
  intro i j
  induction j using Nat.strong_induction_on with
  | _ j ih =>
    rw [peqAdvJ]
    split
    · split
      · omega
      · rename_i hc h0
        have := ih (j - 1) (by omega)
        omega
    · omega

/-- Modelled from the Go standard library sort package, the loop of
partitionEqual: advance both indices, stop when they cross (returning the
left index), otherwise swap and step both inward. -/
def partitionEqualLoopK (key : α → Nat) [Inhabited α] (l : List α) (a i j : Nat) :
    Nat × List α :=
  if hij : peqAdvJ key l a (peqAdvI key l a i j) j < peqAdvI key l a i j then
    (peqAdvI key l a i j, l)
  else
    partitionEqualLoopK key
      (swapL l (peqAdvI key l a i j) (peqAdvJ key l a (peqAdvI key l a i j) j))
      a (peqAdvI key l a i j + 1) (peqAdvJ key l a (peqAdvI key l a i j) j - 1)
termination_by j + 1 - i
decreasing_by
  have h1 := peqAdvI_ge key l a (j + 1 - i) i j rfl
  have h2 := peqAdvJ_le key l a (peqAdvI key l a i j) j
  omega

theorem partitionEqualLoopK_fst_ge (key : α → Nat) [Inhabited α] :
    ∀ m (l : List α) a i j, j + 1 - i = m → i ≤ (partitionEqualLoopK key l a i j).1 := by
  intro m
  induction m using Nat.strong_induction_on with
  | _ m ih =>
    intro l a i j hm
    rw [partitionEqualLoopK]
    have h1 := peqAdvI_ge key l a (j + 1 - i) i j rfl
    have h2 := peqAdvJ_le key l a (peqAdvI key l a i j) j
    split
    · simpa using h1
    · rename_i hc
      have h3 := ih ((peqAdvJ key l a (peqAdvI key l a i j) j - 1) + 1 -
          (peqAdvI key l a i j + 1)) (by omega)
        (swapL l (peqAdvI key l a i j) (peqAdvJ key l a (peqAdvI key l a i j) j))
        a (peqAdvI key l a i j + 1) (peqAdvJ key l a (peqAdvI key l a i j) j - 1) rfl
      omega

/-- Modelled from the Go standard library sort package, partitionEqual over
data[a:b]: gather elements equal to the pivot (swapped to a) at the front,
returning the first index past the equal prefix and the permuted data. -/
def partitionEqualK (key : α → Nat) [Inhabited α] (l : List α) (a b pivot : Nat) :
    Nat × List α :=
  partitionEqualLoopK key (swapL l a pivot) a (a + 1) (b - 1)

theorem partitionEqualK_fst_ge (key : α → Nat) [Inhabited α] (l : List α)
    (a b pivot : Nat) : a + 1 ≤ (partitionEqualK key l a b pivot).1 :=
  partitionEqualLoopK_fst_ge key ((b - 1) + 1 - (a + 1)) (swapL l a pivot) a (a + 1) (b - 1) rfl

/-- Modelled from the Go standard library sort package, the scan of
partialInsertionSort: advance i while adjacent pairs are in order. -/
def pisScan (key : α → Nat) [Inhabited α] (l : List α) (b i : Nat) : Nat :=
  if i < b ∧ lessK key l i (i - 1) = false then pisScan key l b (i + 1) else i
termination_by b - i

/-- Modelled from the Go standard library sort package, the left shift of
partialInsertionSort: bubble the element at j left while it is less than its
left neighbour and j is at least one. -/
def pisLeftShift (key : α → Nat) [Inhabited α] (l : List α) (j : Nat) : List α :=
  if 1 ≤ j ∧ lessK key l j (j - 1) = true then
    pisLeftShift key (swapL l j (j - 1)) (j - 1)
  else l
termination_by j

/-- Modelled from the Go standard library sort package, the right shift of
partialInsertionSort: bubble the element at j right while it is less than
its left neighbour, up to b. -/
def pisRightShift (key : α → Nat) [Inhabited α] (l : List α) (b j : Nat) : List α :=
  if j < b ∧ lessK key l j (j - 1) = true then
    pisRightShift key (swapL l j (j - 1)) b (j + 1)
  else l
termination_by b - j

/-- The guarded left shift of partialInsertionSort (only when at least two
elements sit left of i in the range). -/
def pisLeftShiftIf (key : α → Nat) [Inhabited α] (l : List α) (a i : Nat) : List α :=
  if 2 ≤ i - a then pisLeftShift key l (i - 1) else l

/-- The guarded right shift of partialInsertionSort (only when at least two
elements sit right of i in the range). -/
def pisRightShiftIf (key : α → Nat) [Inhabited α] (l : List α) (b i : Nat) : List α :=
  if 2 ≤ b - i then pisRightShift key l b (i + 1) else l

/-- Modelled from the Go standard library sort package, the bounded loop of
partialInsertionSort (at most five steps): scan for an inversion; if none the
range is sorted; on short ranges give up without shifting; otherwise swap
the inverted pair and shift it in both directions. -/
def pisLoop (key : α → Nat) [Inhabited α] (l : List α) (a b i steps : Nat) :
    Bool × List α :=
  if steps = 0 then (false, l)
  else
    if pisScan key l b i = b then (true, l)
    else if b - a < 50 then (false, l)
    else
      pisLoop key
        (pisRightShiftIf key
          (pisLeftShiftIf key
            (swapL l (pisScan key l b i) (pisScan key l b i - 1)) a (pisScan key l b i)) b
          (pisScan key l b i))
        a b (pisScan key l b i) (steps - 1)
termination_by steps

/-- Modelled from the Go standard library sort package,
partialInsertionSort over data[a:b]: partially sort, reporting whether the
range ended sorted. -/
def partialInsertionSortK (key : α → Nat) [Inhabited α] (l : List α) (a b : Nat) :
    Bool × List α :=
  pisLoop key l a b (a + 1) 5

/-- Modelled from the Go standard library sort package: the straight-line
preamble of one pdqsort loop iteration (for ranges above twelve with a
non-zero limit): breakPatterns and limit decrement when the previous
partition was unbalanced, pivot and hint choice, reversal on a decreasing
hint, and the partialInsertionSort shortcut on a likely-sorted range.
Returns the sorted-already flag, the (possibly permuted) data, the
remaining limit and the pivot index. -/
def pdqPrep (key : α → Nat) [Inhabited α] (l : List α) (a b limit : Nat)
    (wasBalanced wasPartitioned : Bool) : Bool × List α × Nat × Nat :=
  let l0 := if wasBalanced then l else breakPatternsK key l a b
  let limit1 := if wasBalanced then limit else limit - 1
  let cp := choosePivotK key l0 a b
  let l1 := if cp.2 = SortHint.decreasing then reverseRangeGo key l0 a (b - 1) else l0
  let pivot1 := if cp.2 = SortHint.decreasing then (b - 1) - (cp.1 - a) else cp.1
  let hint1 := if cp.2 = SortHint.decreasing then SortHint.increasing else cp.2
  let pis := if wasBalanced = true ∧ wasPartitioned = true ∧ hint1 = SortHint.increasing
             then partialInsertionSortK key l1 a b else (false, l1)
  (pis.1, pis.2, limit1, pivot1)

/-- Modelled from the Go standard library sort package, pdqsort over
data[a:b] with the given recursion depth limit: one recursive call of this
function models one iteration of the Go loop; wasBalanced and
wasPartitioned are the loop-carried locals, true at entry of every Go call.
Ranges of at most twelve elements use insertion sort; an exhausted limit
falls back to heapsort; the iteration preamble is pdqPrep; a pivot not
above its left neighbour (a former pivot) triggers partitionEqual,
continuing past the equal prefix; otherwise the range is partitioned and
the shorter side is sorted recursively (a fresh call, flags true) while the
loop continues on the longer side with updated flags. -/
def pdqsortLoop (key : α → Nat) [Inhabited α] (l : List α) (a b limit : Nat)
    (wasBalanced wasPartitioned : Bool) : List α :=
  if hlen : b - a ≤ 12 then insertionSortRange key l a b
  else if limit = 0 then heapSortRange key l a b
  else
    if (pdqPrep key l a b limit wasBalanced wasPartitioned).1 = true then
      (pdqPrep key l a b limit wasBalanced wasPartitioned).2.1
    else
      if 0 < a ∧ lessK key (pdqPrep key l a b limit wasBalanced wasPartitioned).2.1 (a - 1)
          (pdqPrep key l a b limit wasBalanced wasPartitioned).2.2.2 = false then
        pdqsortLoop key
          (partitionEqualK key (pdqPrep key l a b limit wasBalanced wasPartitioned).2.1 a b
            (pdqPrep key l a b limit wasBalanced wasPartitioned).2.2.2).2
          (partitionEqualK key (pdqPrep key l a b limit wasBalanced wasPartitioned).2.1 a b
            (pdqPrep key l a b limit wasBalanced wasPartitioned).2.2.2).1
          b (pdqPrep key l a b limit wasBalanced wasPartitioned).2.2.1
          wasBalanced wasPartitioned
      else
        if (partitionK key (pdqPrep key l a b limit wasBalanced wasPartitioned).2.1 a b
              (pdqPrep key l a b limit wasBalanced wasPartitioned).2.2.2).1 - a <
            b - (partitionK key (pdqPrep key l a b limit wasBalanced wasPartitioned).2.1 a b
              (pdqPrep key l a b limit wasBalanced wasPartitioned).2.2.2).1 then
          pdqsortLoop key
            (pdqsortLoop key
              (partitionK key (pdqPrep key l a b limit wasBalanced wasPartitioned).2.1 a b
                (pdqPrep key l a b limit wasBalanced wasPartitioned).2.2.2).2.2
              a
              (partitionK key (pdqPrep key l a b limit wasBalanced wasPartitioned).2.1 a b
                (pdqPrep key l a b limit wasBalanced wasPartitioned).2.2.2).1
              (pdqPrep key l a b limit wasBalanced wasPartitioned).2.2.1 true true)
            ((partitionK key (pdqPrep key l a b limit wasBalanced wasPartitioned).2.1 a b
              (pdqPrep key l a b limit wasBalanced wasPartitioned).2.2.2).1 + 1)
            b (pdqPrep key l a b limit wasBalanced wasPartitioned).2.2.1
            (decide ((b - a) / 8 ≤
              min ((partitionK key (pdqPrep key l a b limit wasBalanced wasPartitioned).2.1 a b
                     (pdqPrep key l a b limit wasBalanced wasPartitioned).2.2.2).1 - a)
                  (b - (partitionK key (pdqPrep key l a b limit wasBalanced wasPartitioned).2.1 a b
                     (pdqPrep key l a b limit wasBalanced wasPartitioned).2.2.2).1)))
            (partitionK key (pdqPrep key l a b limit wasBalanced wasPartitioned).2.1 a b
              (pdqPrep key l a b limit wasBalanced wasPartitioned).2.2.2).2.1
        else
          pdqsortLoop key
            (pdqsortLoop key
              (partitionK key (pdqPrep key l a b limit wasBalanced wasPartitioned).2.1 a b
                (pdqPrep key l a b limit wasBalanced wasPartitioned).2.2.2).2.2
              ((partitionK key (pdqPrep key l a b limit wasBalanced wasPartitioned).2.1 a b
                (pdqPrep key l a b limit wasBalanced wasPartitioned).2.2.2).1 + 1)
              b (pdqPrep key l a b limit wasBalanced wasPartitioned).2.2.1 true true)
            a
            (partitionK key (pdqPrep key l a b limit wasBalanced wasPartitioned).2.1 a b
              (pdqPrep key l a b limit wasBalanced wasPartitioned).2.2.2).1
            (pdqPrep key l a b limit wasBalanced wasPartitioned).2.2.1
            (decide ((b - a) / 8 ≤
              min ((partitionK key (pdqPrep key l a b limit wasBalanced wasPartitioned).2.1 a b
                     (pdqPrep key l a b limit wasBalanced wasPartitioned).2.2.2).1 - a)
                  (b - (partitionK key (pdqPrep key l a b limit wasBalanced wasPartitioned).2.1 a b
                     (pdqPrep key l a b limit wasBalanced wasPartitioned).2.2.2).1)))
            (partitionK key (pdqPrep key l a b limit wasBalanced wasPartitioned).2.1 a b
              (pdqPrep key l a b limit wasBalanced wasPartitioned).2.2.2).2.1
termination_by b - a
decreasing_by
  · have h1 := partitionEqualK_fst_ge key
      (pdqPrep key l a b limit wasBalanced wasPartitioned).2.1 a b
      (pdqPrep key l a b limit wasBalanced wasPartitioned).2.2.2
    omega
  · have h1 := partitionK_fst_le key
      (pdqPrep key l a b limit wasBalanced wasPartitioned).2.1 a b
      (pdqPrep key l a b limit wasBalanced wasPartitioned).2.2.2 (by omega)
    have h2 := partitionK_fst_ge key
      (pdqPrep key l a b limit wasBalanced wasPartitioned).2.1 a b
      (pdqPrep key l a b limit wasBalanced wasPartitioned).2.2.2 (by omega)
    omega
  · have h1 := partitionK_fst_le key
      (pdqPrep key l a b limit wasBalanced wasPartitioned).2.1 a b
      (pdqPrep key l a b limit wasBalanced wasPartitioned).2.2.2 (by omega)
    have h2 := partitionK_fst_ge key
      (pdqPrep key l a b limit wasBalanced wasPartitioned).2.1 a b
      (pdqPrep key l a b limit wasBalanced wasPartitioned).2.2.2 (by omega)
    omega
  · have h1 := partitionK_fst_le key
      (pdqPrep key l a b limit wasBalanced wasPartitioned).2.1 a b
      (pdqPrep key l a b limit wasBalanced wasPartitioned).2.2.2 (by omega)
    have h2 := partitionK_fst_ge key
      (pdqPrep key l a b limit wasBalanced wasPartitioned).2.1 a b
      (pdqPrep key l a b limit wasBalanced wasPartitioned).2.2.2 (by omega)
    omega
  · have h1 := partitionK_fst_le key
      (pdqPrep key l a b limit wasBalanced wasPartitioned).2.1 a b
      (pdqPrep key l a b limit wasBalanced wasPartitioned).2.2.2 (by omega)
    have h2 := partitionK_fst_ge key
      (pdqPrep key l a b limit wasBalanced wasPartitioned).2.1 a b
      (pdqPrep key l a b limit wasBalanced wasPartitioned).2.2.2 (by omega)
    omega

/-- Modelled from the Go standard library, sort.Slice as called by
extractStrings: pdqsort over the whole slice with depth limit bits.Len of
the length, comparing by the key (the Address field). -/
def sortSliceK (key : α → Nat) [Inhabited α] (l : List α) : List α :=
  pdqsortLoop key l 0 l.length (bitsLen l.length) true true

/-- The collaborator interface of extractStrings (objfile.File): the Text,
RData and RelRData accessors each return a base address (uint64) and a byte
buffer, or fail; none models a non-nil Go error. -/
structure ObjFile where
  Text : Option (Nat × List Nat)
  RData : Option (Nat × List Nat)
  RelRData : Option (Nat × List Nat)
deriving Repr, DecidableEq

/-- The fixed section label .text. -/
def sectText : List Nat := [46, 116, 101, 120, 116]

/-- The fixed section label .rodata. -/
def sectRodata : List Nat := [46, 114, 111, 100, 97, 116, 97]

/-- The fixed section label .data.rel.ro. -/
def sectDataRelRo : List Nat :=
  [46, 100, 97, 116, 97, 46, 114, 101, 108, 46, 114, 111]

/-- The pull helper of extractStrings from strings_extract.go (the .rodata
and .data.rel.ro blocks inline the same logic): skip the section on error
or empty data, otherwise append every extracted string rebased by uint64
addition of the section base. -/
def pull (results : List StringInfo) (sectionName : List Nat)
    (dataFn : Option (Nat × List Nat)) (minLength : Nat) : List StringInfo :=
  match dataFn with
  | none => results
  | some (start, data) =>
    if data.length = 0 then results
    else
      results ++ (extractPrintableStrings data minLength).map
        (fun s => ⟨s.Value, (start + s.Address) % U64MOD, sectionName⟩)

/-- extractStrings from strings_extract.go: pull the three sections in
order, deduplicate, sort by ascending Address with sort.Slice, and return
the result with the count set to the final length and a nil error (modelled
as none). -/
def extractStrings (file : ObjFile) (minLength : Nat) : StringsResult × Option Unit :=
  (StringsResult.mk
    (sortSliceK StringInfo.Address (deduplicateStrings (pull (pull (pull []
      sectText file.Text minLength) sectRodata file.RData minLength)
      sectDataRelRo file.RelRData minLength)))
    (sortSliceK StringInfo.Address (deduplicateStrings (pull (pull (pull []
      sectText file.Text minLength) sectRodata file.RData minLength)
      sectDataRelRo file.RelRData minLength))).length,
   none)

theorem stringsContains_iff (s sub : List Nat) :
    stringsContains s sub = true ↔ sub <:+: s := by
  induction s with
  | nil =>
    simp only [stringsContains, List.isPrefixOf_iff_prefix, List.infix_nil, List.prefix_nil]
  | cons c rest ih =>
    simp only [stringsContains, Bool.or_eq_true, ih, List.isPrefixOf_iff_prefix]
    rw [List.infix_cons_iff]

/-- C3: for a candidate whose trimmed text is non-empty, not a repeated
byte, and not assembly-like, the classifier accepts exactly when the
qualifying code points reach seventy percent (integer percentage) of all
code points of the trimmed text. -/
theorem isLikelyString_threshold (s : List Nat)
    (h1 : stringsTrimSpace s ≠ [])
    (h2 : isRepeatedChar (stringsTrimSpace s) = false)
    (h3 : looksLikeAssemblyCode (stringsTrimSpace s) = false) :
    isLikelyString s = true ↔
      70 ≤ ((utf8Decode (stringsTrimSpace s)).filter goodRune).length * 100 /
        (utf8Decode (stringsTrimSpace s)).length := by
  have hne : ¬ ((((stringsTrimSpace s).length == 0) : Bool) = true) := by
    simp only [beq_iff_eq, List.length_eq_zero]
    exact h1
  have hnr : ¬ (isRepeatedChar (stringsTrimSpace s) = true) := by
    simp [h2]
  have hna : ¬ (looksLikeAssemblyCode (stringsTrimSpace s) = true) := by
    simp [h3]
  simp only [isLikelyString]
  rw [if_neg hne, if_neg hnr]
  split
  · rename_i hlt
    simp only [Bool.false_eq_true, false_iff]
    omega
  · rename_i hge
    simp only [true_iff]
    omega

unseal utf8Decode stringsTrimLeftSpace stringsTrimRightSpace lastStartScan in
/-- Witness for C3: a ten code point candidate with exactly seven
qualifying code points (seventy percent) is accepted; a thirteen code point
candidate with nine qualifying code points (integer percentage 69) is
rejected.  The multiplication sign code point 0xD7 is the non-qualifying
filler. -/
theorem isLikelyString_threshold_witness :
    isLikelyString [97, 97, 97, 97, 97, 97, 97, 195, 151, 195, 151, 195, 151] = true ∧
    isLikelyString [97, 97, 97, 97, 97, 97, 97, 97, 97,
      195, 151, 195, 151, 195, 151, 195, 151] = false := by
  constructor
  · exact (isLikelyString_threshold _ (by decide) (by decide) (by decide)).mpr (by decide)
  · cases hb : isLikelyString [97, 97, 97, 97, 97, 97, 97, 97, 97,
      195, 151, 195, 151, 195, 151, 195, 151]
    · rfl
    · exact absurd ((isLikelyString_threshold _ (by decide) (by decide) (by decide)).mp hb)
        (by decide)

/-- C4 (amended): when the trimmed text is a repeated byte (length at least
three, every byte identical), the classifier rejects; the repetition filter
of isRepeatedChar compares bytes. -/
theorem isLikelyString_repeated_byte (s : List Nat) (c n : Nat)
    (h1 : stringsTrimSpace s = List.replicate n c) (h2 : 3 ≤ n) :
    isLikelyString s = false := by
  have hrep : isRepeatedChar (stringsTrimSpace s) = true := by
    rw [h1]
    simp only [isRepeatedChar, List.length_replicate]
    rw [if_neg (by omega)]
    cases n with
    | zero => omega
    | succ m =>
      rw [List.replicate_succ]
      simp only [List.all_eq_true, beq_iff_eq]
      intro b hb
      exact List.eq_of_mem_replicate hb
  have hne : ¬ ((((stringsTrimSpace s).length == 0) : Bool) = true) := by
    rw [h1]
    simp only [beq_iff_eq, List.length_replicate]
    omega
  simp only [isLikelyString]
  rw [if_neg hne, if_pos hrep]

unseal utf8Decode stringsTrimLeftSpace stringsTrimRightSpace lastStartScan in
/-- Counterexample to C4 as stated: three identical copies of the two byte
encoding of the letter é form a trimmed text of exactly three identical
code points (233, 233, 233), yet the classifier accepts it: the repetition
filter compares bytes, and the bytes alternate. -/
theorem isLikelyString_repeated_char_counterexample :
    stringsTrimSpace [195, 169, 195, 169, 195, 169] = [195, 169, 195, 169, 195, 169] ∧
    utf8Decode [195, 169, 195, 169, 195, 169] = [233, 233, 233] ∧
    isLikelyString [195, 169, 195, 169, 195, 169] = true := by
  exact ⟨by decide, by decide, by decide⟩

unseal utf8Decode stringsTrimLeftSpace stringsTrimRightSpace lastStartScan in
/-- Witness for the amended C4: the all-a input of length eight is
rejected. -/
theorem isLikelyString_repeated_byte_witness :
    isLikelyString [97, 97, 97, 97, 97, 97, 97, 97] = false :=
  isLikelyString_repeated_byte _ 97 8 (by decide) (by decide)

/-- Stated from the words of claim C5 (for comparison with the code): the
hex-density signal counted over code points — the count of hex-like
characters exceeds eighty percent of the code point count of the
lower-cased text. -/
def specLooksLikeAssembly (s : List Nat) : Bool :=
  let lower := stringsToLower s
  asmHints.any (fun h => stringsContains lower (h ++ [32]) || List.isPrefixOf h lower) ||
  (0 < (utf8Decode lower).length &&
   80 < ((utf8Decode lower).filter hexRune).length * 100 / (utf8Decode lower).length)

unseal utf8Decode stringsTrimLeftSpace stringsTrimRightSpace lastStartScan in
/-- Counterexample to C5 as stated: on the input aaaaaé the hex-like code
points (the five letters a) are 83 percent of the six code points of the
lower-cased text, so the percentage over characters claimed by C5 flags it,
but the code divides by the byte length (seven) giving 71 percent and does
not flag it. -/
theorem looksLikeAssemblyCode_counterexample :
    looksLikeAssemblyCode [97, 97, 97, 97, 97, 195, 169] = false ∧
    specLooksLikeAssembly [97, 97, 97, 97, 97, 195, 169] = true := by
  exact ⟨by decide, by decide⟩

unseal utf8Decode in
/-- C5 (amended): the assembly detector flags exactly when the lower-cased
text starts with one of the twelve mnemonics or contains one followed by a
space, or the hex-like code points exceed eighty percent of the UTF-8 byte
length of the lower-cased text (equal to the character count only for pure
ASCII); in particular mov eax, ebx is flagged by the mnemonic signal and
0x1a2b3c4d5e6f by the hex-density signal. -/
theorem looksLikeAssemblyCode_iff :
    (∀ s : List Nat, looksLikeAssemblyCode s = true ↔
      ((∃ h ∈ asmHints, h <+: stringsToLower s ∨ (h ++ [32]) <:+: stringsToLower s) ∨
       (0 < (stringsToLower s).length ∧
        80 < ((utf8Decode (stringsToLower s)).filter hexRune).length * 100 /
          (stringsToLower s).length))) ∧
    asmHints.any (fun h =>
      stringsContains (stringsToLower [109, 111, 118, 32, 101, 97, 120, 44, 32, 101, 98, 120]) (h ++ [32]) ||
      List.isPrefixOf h (stringsToLower [109, 111, 118, 32, 101, 97, 120, 44, 32, 101, 98, 120])) = true ∧
    looksLikeAssemblyCode [109, 111, 118, 32, 101, 97, 120, 44, 32, 101, 98, 120] = true ∧
    80 < ((utf8Decode (stringsToLower [48, 120, 49, 97, 50, 98, 51, 99, 52, 100, 53, 101, 54, 102])).filter
        hexRune).length * 100 /
      (stringsToLower [48, 120, 49, 97, 50, 98, 51, 99, 52, 100, 53, 101, 54, 102]).length ∧
    looksLikeAssemblyCode [48, 120, 49, 97, 50, 98, 51, 99, 52, 100, 53, 101, 54, 102] = true := by
  refine ⟨?_, by decide, by decide, by decide, by decide⟩
  intro s
  simp only [looksLikeAssemblyCode]
  split
  · rename_i hmn
    simp only [true_iff]
    left
    simp only [List.any_eq_true, Bool.or_eq_true] at hmn
    obtain ⟨h, hh, hc⟩ := hmn
    refine ⟨h, hh, ?_⟩
    cases hc with
    | inl hc => right; exact (stringsContains_iff _ _).mp hc
    | inr hc => left; exact List.isPrefixOf_iff_prefix.mp hc
  · rename_i hmn
    split
    · rename_i hhex
      simp only [true_iff]
      right
      simp only [Bool.and_eq_true, decide_eq_true_eq] at hhex
      exact hhex
    · rename_i hhex
      simp only [Bool.false_eq_true, false_iff]
      intro hcon
      cases hcon with
      | inl hex =>
        apply hmn
        simp only [List.any_eq_true, Bool.or_eq_true]
        obtain ⟨h, hh, hc⟩ := hex
        refine ⟨h, hh, ?_⟩
        cases hc with
        | inl hc => right; exact List.isPrefixOf_iff_prefix.mpr hc
        | inr hc => left; exact (stringsContains_iff _ _).mpr hc
      | inr hex =>
        apply hhex
        simp only [Bool.and_eq_true, decide_eq_true_eq]
        exact hex

/-- C9: the core entry point never fails: the error component is always
none; an accessor error and an empty buffer are interchangeable skip
conditions contributing zero entries; and with every section unavailable
the result is a valid empty report with count zero. -/
theorem extractStrings_error_handling :
    (∀ file n, (extractStrings file n).2 = none) ∧
    (∀ rd rr b n, extractStrings ⟨some (b, []), rd, rr⟩ n = extractStrings ⟨none, rd, rr⟩ n) ∧
    (∀ t rr b n, extractStrings ⟨t, some (b, []), rr⟩ n = extractStrings ⟨t, none, rr⟩ n) ∧
    (∀ t rd b n, extractStrings ⟨t, rd, some (b, [])⟩ n = extractStrings ⟨t, rd, none⟩ n) ∧
    (∀ n, (extractStrings ⟨none, none, none⟩ n).1 = ⟨[], 0⟩) := by
  refine ⟨fun file n => rfl, fun rd rr b n => rfl, fun t rr b n => rfl,
    fun t rd b n => rfl, fun n => ?_⟩
  simp only [extractStrings, pull, deduplicateStrings, dedupGo, sortSliceK, bitsLen]
  rw [pdqsortLoop]
  simp [insertionSortRange, insertionSortOuter]

theorem getD_cons_set_perm [Inhabited α] :
    ∀ (j : Nat) (l : List α) (v : α), j < l.length →
      List.Perm (l.getD j default :: l.set j v) (v :: l) := by
  intro j
  induction j with
  | zero =>
    intro l v hj
    cases l with
    | nil => simp at hj
    | cons y t => simpa using List.Perm.swap v y t
  | succ m ih =>
    intro l v hj
    cases l with
    | nil => simp at hj
    | cons y t =>
      simp only [List.getD_cons_succ, List.set_cons_succ]
      exact (List.Perm.swap y (t.getD m default) (t.set m v)).trans
        (((ih t v (by simpa using hj)).cons y).trans (List.Perm.swap v y t))

theorem set_set_perm [Inhabited α] :
    ∀ (i : Nat) (l : List α) (j : Nat), i < l.length → j < l.length →
      List.Perm ((l.set i (l.getD j default)).set j (l.getD i default)) l := by
  intro i
  induction i with
  | zero =>
    intro l j hi hj
    cases l with
    | nil => simp at hi
    | cons y t =>
      cases j with
      | zero => simp
      | succ m =>
        simp only [List.getD_cons_succ, List.getD_cons_zero, List.set_cons_zero,
          List.set_cons_succ]
        exact getD_cons_set_perm m t y (by simpa using hj)
  | succ k ih =>
    intro l j hi hj
    cases l with
    | nil => simp at hi
    | cons y t =>
      cases j with
      | zero =>
        simp only [List.getD_cons_zero, List.getD_cons_succ, List.set_cons_succ,
          List.set_cons_zero]
        exact getD_cons_set_perm k t y (by simpa using hi)
      | succ m =>
        simp only [List.getD_cons_succ, List.set_cons_succ]
        exact (ih t m (by simpa using hi) (by simpa using hj)).cons y

theorem swapL_perm [Inhabited α] (l : List α) (i j : Nat) :
    List.Perm (swapL l i j) l := by
  unfold swapL geta
  split
  · rename_i hb
    exact set_set_perm i l j hb.1 hb.2
  · exact List.Perm.refl l

theorem insertionSortInner_perm (key : α → Nat) [Inhabited α] (a : Nat) :
    ∀ j (l : List α), List.Perm (insertionSortInner key l a j) l := by
  intro j
  induction j using Nat.strong_induction_on with
  | _ j ih =>
    intro l
    rw [insertionSortInner]
    split
    · rename_i hc
      exact (ih (j - 1) (by omega) (swapL l j (j - 1))).trans (swapL_perm l j (j - 1))
    · exact List.Perm.refl l

theorem insertionSortOuter_perm (key : α → Nat) [Inhabited α] (a b : Nat) :
    ∀ m i (l : List α), b - i = m → List.Perm (insertionSortOuter key l a b i) l := by
  intro m
  induction m using Nat.strong_induction_on with
  | _ m ih =>
    intro i l hm
    rw [insertionSortOuter]
    split
    · rename_i hc
      exact (ih (b - (i + 1)) (by omega) (i + 1) (insertionSortInner key l a i) rfl).trans
        (insertionSortInner_perm key a i l)
    · exact List.Perm.refl l

theorem insertionSortRange_perm (key : α → Nat) [Inhabited α] (l : List α) (a b : Nat) :
    List.Perm (insertionSortRange key l a b) l :=
  insertionSortOuter_perm key a b (b - (a + 1)) (a + 1) l rfl

theorem siftDownGo_perm (key : α → Nat) [Inhabited α] (hi first : Nat) :
    ∀ m root (l : List α), hi - root = m → List.Perm (siftDownGo key l hi first root) l := by
  intro m
  induction m using Nat.strong_induction_on with
  | _ m ih =>
    intro root l hm
    rw [siftDownGo]
    split
    · rename_i hc
      split
      · have h1 := siftChild_gt key l hi first root
        have h2 := siftChild_lt key l hi first root hc
        exact (ih (hi - siftChild key l hi first root) (by omega)
          (siftChild key l hi first root)
          (swapL l (first + root) (first + siftChild key l hi first root)) rfl).trans
          (swapL_perm l (first + root) (first + siftChild key l hi first root))
      · exact List.Perm.refl l
    · exact List.Perm.refl l

theorem heapBuild_perm (key : α → Nat) [Inhabited α] (hi first : Nat) :
    ∀ i (l : List α), List.Perm (heapBuild key l hi first i) l := by
  intro i
  induction i using Nat.strong_induction_on with
  | _ i ih =>
    intro l
    rw [heapBuild]
    split
    · exact siftDownGo_perm key hi first (hi - 0) 0 l rfl
    · rename_i h0
      exact (ih (i - 1) (by omega) (siftDownGo key l hi first i)).trans
        (siftDownGo_perm key hi first (hi - i) i l rfl)

theorem heapPop_perm (key : α → Nat) [Inhabited α] (first : Nat) :
    ∀ i (l : List α), List.Perm (heapPop key l first i) l := by
  intro i
  induction i using Nat.strong_induction_on with
  | _ i ih =>
    intro l
    rw [heapPop]
    split
    · exact (siftDownGo_perm key i first (i - 0) 0 _ rfl).trans
        (swapL_perm l first (first + i))
    · rename_i h0
      exact (ih (i - 1) (by omega) _).trans
        ((siftDownGo_perm key i first (i - 0) 0 _ rfl).trans (swapL_perm l first (first + i)))

theorem heapSortRange_perm (key : α → Nat) [Inhabited α] (l : List α) (a b : Nat) :
    List.Perm (heapSortRange key l a b) l :=
  (heapPop_perm key a (b - a - 1) _).trans (heapBuild_perm key (b - a) a ((b - a - 1) / 2) l)

theorem reverseRangeGo_perm (key : α → Nat) [Inhabited α] :
    ∀ m i j (l : List α), j - i = m → List.Perm (reverseRangeGo key l i j) l := by
  intro m
  induction m using Nat.strong_induction_on with
  | _ m ih =>
    intro i j l hm
    rw [reverseRangeGo]
    split
    · rename_i hc
      exact (ih (j - 1 - (i + 1)) (by omega) (i + 1) (j - 1) (swapL l i j) rfl).trans
        (swapL_perm l i j)
    · exact List.Perm.refl l

theorem breakOne_perm (key : α → Nat) [Inhabited α] (l : List α)
    (a len idx i random : Nat) : List.Perm (breakOne key l a len idx i random).1 l := by
  unfold breakOne
  exact swapL_perm l _ _

theorem breakPatternsK_perm (key : α → Nat) [Inhabited α] (l : List α) (a b : Nat) :
    List.Perm (breakPatternsK key l a b) l := by
  simp only [breakPatternsK]
  split
  · exact (breakOne_perm key _ _ _ _ _ _).trans
      ((breakOne_perm key _ _ _ _ _ _).trans (breakOne_perm key _ _ _ _ _ _))
  · exact List.Perm.refl l

theorem pisLeftShift_perm (key : α → Nat) [Inhabited α] :
    ∀ j (l : List α), List.Perm (pisLeftShift key l j) l := by
  intro j
  induction j using Nat.strong_induction_on with
  | _ j ih =>
    intro l
    rw [pisLeftShift]
    split
    · rename_i hc
      exact (ih (j - 1) (by omega) (swapL l j (j - 1))).trans (swapL_perm l j (j - 1))
    · exact List.Perm.refl l

theorem pisRightShift_perm (key : α → Nat) [Inhabited α] (b : Nat) :
    ∀ m j (l : List α), b - j = m → List.Perm (pisRightShift key l b j) l := by
  intro m
  induction m using Nat.strong_induction_on with
  | _ m ih =>
    intro j l hm
    rw [pisRightShift]
    split
    · rename_i hc
      exact (ih (b - (j + 1)) (by omega) (j + 1) (swapL l j (j - 1)) rfl).trans
        (swapL_perm l j (j - 1))
    · exact List.Perm.refl l

theorem pisLeftShiftIf_perm (key : α → Nat) [Inhabited α] (l : List α) (a i : Nat) :
    List.Perm (pisLeftShiftIf key l a i) l := by
  unfold pisLeftShiftIf
  split
  · exact pisLeftShift_perm key (i - 1) l
  · exact List.Perm.refl l

theorem pisRightShiftIf_perm (key : α → Nat) [Inhabited α] (l : List α) (b i : Nat) :
    List.Perm (pisRightShiftIf key l b i) l := by
  unfold pisRightShiftIf
  split
  · exact pisRightShift_perm key b (b - (i + 1)) (i + 1) l rfl
  · exact List.Perm.refl l

theorem pisLoop_perm (key : α → Nat) [Inhabited α] (a b : Nat) :
    ∀ steps i (l : List α), List.Perm (pisLoop key l a b i steps).2 l := by
  intro steps
  induction steps using Nat.strong_induction_on with
  | _ steps ih =>
    intro i l
    rw [pisLoop]
    split
    · exact List.Perm.refl l
    · rename_i h0
      split
      · exact List.Perm.refl l
      · split
        · exact List.Perm.refl l
        · exact (ih (steps - 1) (by omega) (pisScan key l b i) _).trans
            ((pisRightShiftIf_perm key _ b _).trans
              ((pisLeftShiftIf_perm key _ a _).trans
                (swapL_perm l (pisScan key l b i) (pisScan key l b i - 1))))

theorem partialInsertionSortK_perm (key : α → Nat) [Inhabited α] (l : List α)
    (a b : Nat) : List.Perm (partialInsertionSortK key l a b).2 l :=
  pisLoop_perm key a b 5 (a + 1) l

theorem partitionLoopK_snd_perm (key : α → Nat) [Inhabited α] (a : Nat) :
    ∀ m (l : List α) i j, j + 1 - i = m → List.Perm (partitionLoopK key l a i j).2 l := by
  intro m
  induction m using Nat.strong_induction_on with
  | _ m ih =>
    intro l i j hm
    rw [partitionLoopK]
    split
    · exact List.Perm.refl l
    · rename_i hc
      have h1 := partAdvI_ge key l a (j + 1 - i) i j rfl
      have h2 := partAdvJ_le key l a (partAdvI key l a i j) j
      exact (ih ((partAdvJ key l a (partAdvI key l a i j) j - 1) + 1 -
          (partAdvI key l a i j + 1)) (by omega) _ _ _ rfl).trans
        (swapL_perm l (partAdvI key l a i j) (partAdvJ key l a (partAdvI key l a i j) j))

theorem partitionK_snd_perm (key : α → Nat) [Inhabited α] (l : List α)
    (a b pivot : Nat) : List.Perm (partitionK key l a b pivot).2.2 l := by
  simp only [partitionK]
  split
  · exact (swapL_perm _ _ _).trans (swapL_perm l a pivot)
  · exact (swapL_perm _ _ _).trans
      ((partitionLoopK_snd_perm key a _ _ _ _ rfl).trans
        ((swapL_perm _ _ _).trans (swapL_perm l a pivot)))

theorem partitionEqualLoopK_snd_perm (key : α → Nat) [Inhabited α] (a : Nat) :
    ∀ m (l : List α) i j, j + 1 - i = m →
      List.Perm (partitionEqualLoopK key l a i j).2 l := by
  intro m
  induction m using Nat.strong_induction_on with
  | _ m ih =>
    intro l i j hm
    rw [partitionEqualLoopK]
    split
    · exact List.Perm.refl l
    · rename_i hc
      have h1 := peqAdvI_ge key l a (j + 1 - i) i j rfl
      have h2 := peqAdvJ_le key l a (peqAdvI key l a i j) j
      exact (ih ((peqAdvJ key l a (peqAdvI key l a i j) j - 1) + 1 -
          (peqAdvI key l a i j + 1)) (by omega) _ _ _ rfl).trans
        (swapL_perm l (peqAdvI key l a i j) (peqAdvJ key l a (peqAdvI key l a i j) j))

theorem partitionEqualK_snd_perm (key : α → Nat) [Inhabited α] (l : List α)
    (a b pivot : Nat) : List.Perm (partitionEqualK key l a b pivot).2 l := by
  simp only [partitionEqualK]
  exact (partitionEqualLoopK_snd_perm key a _ _ _ _ rfl).trans (swapL_perm l a pivot)

theorem pdqPrep_snd_perm (key : α → Nat) [Inhabited α] (l : List α)
    (a b limit : Nat) (wb wp : Bool) :
    List.Perm (pdqPrep key l a b limit wb wp).2.1 l := by
  cases wb <;> cases wp <;>
    simp only [pdqPrep, Bool.false_eq_true, false_and, and_false, if_false,
      ite_false, ite_true, if_true] <;>
    repeat' split
  all_goals
    first
    | exact List.Perm.refl l
    | exact breakPatternsK_perm key l a b
    | exact reverseRangeGo_perm key (b - 1 - a) a (b - 1) _ rfl
    | exact (reverseRangeGo_perm key (b - 1 - a) a (b - 1) _ rfl).trans
        (breakPatternsK_perm key l a b)
    | exact (partialInsertionSortK_perm key _ a b).trans
        (reverseRangeGo_perm key (b - 1 - a) a (b - 1) _ rfl)
    | exact (partialInsertionSortK_perm key _ a b).trans
        ((reverseRangeGo_perm key (b - 1 - a) a (b - 1) _ rfl).trans
          (breakPatternsK_perm key l a b))
    | exact (partialInsertionSortK_perm key _ a b).trans (List.Perm.refl l)

theorem pdqsortLoop_perm (key : α → Nat) [Inhabited α] :
    ∀ m (l : List α) a b limit wb wp, b - a = m →
      List.Perm (pdqsortLoop key l a b limit wb wp) l := by
  intro m
  induction m using Nat.strong_induction_on with
  | _ m ih =>
    intro l a b limit wb wp hm
    rw [pdqsortLoop]
    split
    · exact insertionSortRange_perm key l a b
    · rename_i hlen
      split
      · exact heapSortRange_perm key l a b
      · rename_i hlim
        split
        · exact pdqPrep_snd_perm key l a b limit wb wp
        · split
          · rename_i hflag hpeq
            have h1 := partitionEqualK_fst_ge key
              (pdqPrep key l a b limit wb wp).2.1 a b
              (pdqPrep key l a b limit wb wp).2.2.2
            exact (ih (b - (partitionEqualK key (pdqPrep key l a b limit wb wp).2.1 a b
                (pdqPrep key l a b limit wb wp).2.2.2).1) (by omega) _ _ _ _ _ _ rfl).trans
              ((partitionEqualK_snd_perm key _ a b _).trans
                (pdqPrep_snd_perm key l a b limit wb wp))
          · rename_i hflag hpeq
            have h1 := partitionK_fst_le key
              (pdqPrep key l a b limit wb wp).2.1 a b
              (pdqPrep key l a b limit wb wp).2.2.2 (by omega)
            have h2 := partitionK_fst_ge key
              (pdqPrep key l a b limit wb wp).2.1 a b
              (pdqPrep key l a b limit wb wp).2.2.2 (by omega)
            split
            · exact (ih (b - ((partitionK key (pdqPrep key l a b limit wb wp).2.1 a b
                  (pdqPrep key l a b limit wb wp).2.2.2).1 + 1)) (by omega) _ _ _ _ _ _ rfl).trans
                ((ih ((partitionK key (pdqPrep key l a b limit wb wp).2.1 a b
                    (pdqPrep key l a b limit wb wp).2.2.2).1 - a) (by omega) _ _ _ _ _ _ rfl).trans
                  ((partitionK_snd_perm key _ a b _).trans
                    (pdqPrep_snd_perm key l a b limit wb wp)))
            · exact (ih ((partitionK key (pdqPrep key l a b limit wb wp).2.1 a b
                  (pdqPrep key l a b limit wb wp).2.2.2).1 - a) (by omega) _ _ _ _ _ _ rfl).trans
                ((ih (b - ((partitionK key (pdqPrep key l a b limit wb wp).2.1 a b
                    (pdqPrep key l a b limit wb wp).2.2.2).1 + 1)) (by omega) _ _ _ _ _ _ rfl).trans
                  ((partitionK_snd_perm key _ a b _).trans
                    (pdqPrep_snd_perm key l a b limit wb wp)))

theorem sortSliceK_perm (key : α → Nat) [Inhabited α] (l : List α) :
    List.Perm (sortSliceK key l) l :=
  pdqsortLoop_perm key (l.length - 0) l 0 l.length (bitsLen l.length) true true rfl

theorem contains_mem (l : List (List Nat)) (k : List Nat) :
    l.contains k = true ↔ k ∈ l := by
  constructor
  · exact List.mem_of_elem_eq_true
  · exact List.elem_eq_true_of_mem

theorem dedupGo_sublist : ∀ (l : List StringInfo) (seen : List (List Nat)),
    List.Sublist (dedupGo seen l) l := by
  intro l
  induction l with
  | nil => intro seen; simp [dedupGo]
  | cons s rest ih =>
    intro seen
    simp only [dedupGo]
    split
    · exact (ih seen).trans (List.sublist_cons_self s rest)
    · exact (ih (dedupKey s :: seen)).cons₂ s

theorem dedupGo_keys_nodup : ∀ (l : List StringInfo) (seen : List (List Nat)),
    ((dedupGo seen l).map dedupKey).Nodup ∧
    ∀ k ∈ (dedupGo seen l).map dedupKey, k ∉ seen := by
  intro l
  induction l with
  | nil => intro seen; simp [dedupGo]
  | cons s rest ih =>
    intro seen
    simp only [dedupGo]
    split
    · exact ih seen
    · rename_i hns
      obtain ⟨ih1, ih2⟩ := ih (dedupKey s :: seen)
      constructor
      · simp only [List.map_cons, List.nodup_cons]
        refine ⟨fun hmem => ?_, ih1⟩
        have := ih2 _ hmem
        simp at this
      · intro k hk
        simp only [List.map_cons, List.mem_cons] at hk
        cases hk with
        | inl hk =>
          subst hk
          intro hcon
          rw [contains_mem] at hns
          exact hns hcon
        | inr hk =>
          have := ih2 _ hk
          intro hcon
          exact this (List.mem_cons_of_mem _ hcon)

theorem dedupGo_covers : ∀ (l : List StringInfo) (seen : List (List Nat)) (x : StringInfo),
    x ∈ l → dedupKey x ∈ seen ∨ ∃ y ∈ dedupGo seen l, dedupKey y = dedupKey x := by
  intro l
  induction l with
  | nil => intro seen x hx; simp at hx
  | cons s rest ih =>
    intro seen x hx
    simp only [dedupGo]
    rcases List.mem_cons.mp hx with hx | hx
    · subst hx
      split
      · rename_i hs
        rw [contains_mem] at hs
        left
        exact hs
      · right
        exact ⟨x, List.mem_cons_self x _, rfl⟩
    · split
      · exact ih seen x hx
      · rcases ih (dedupKey s :: seen) x hx with h | ⟨y, hy, hk⟩
        · rcases List.mem_cons.mp h with h | h
          · right
            exact ⟨s, List.mem_cons_self s _, h.symm⟩
          · left
            exact h
        · right
          exact ⟨y, List.mem_cons_of_mem s hy, hk⟩

theorem dedupGo_first : ∀ (l : List StringInfo) (seen : List (List Nat)) (x : StringInfo),
    x ∈ dedupGo seen l →
      dedupKey x ∉ seen ∧ ∃ p q, l = p ++ x :: q ∧ ∀ z ∈ p, dedupKey z ≠ dedupKey x := by
  intro l
  induction l with
  | nil => intro seen x hx; simp [dedupGo] at hx
  | cons s rest ih =>
    intro seen x hx
    simp only [dedupGo] at hx
    split at hx
    · rename_i hs
      rw [contains_mem] at hs
      obtain ⟨hnot, p, q, heq, hall⟩ := ih seen x hx
      refine ⟨hnot, s :: p, q, by rw [heq]; rfl, ?_⟩
      intro z hz
      rcases List.mem_cons.mp hz with hz | hz
      · subst hz
        intro hcon
        rw [hcon] at hs
        exact hnot hs
      · exact hall z hz
    · rename_i hs
      rw [contains_mem] at hs
      rcases List.mem_cons.mp hx with hx | hx
      · subst hx
        exact ⟨hs, [], rest, rfl, by simp⟩
      · obtain ⟨hnot, p, q, heq, hall⟩ := ih (dedupKey s :: seen) x hx
        simp only [List.mem_cons, not_or] at hnot
        refine ⟨hnot.2, s :: p, q, by rw [heq]; rfl, ?_⟩
        intro z hz
        rcases List.mem_cons.mp hz with hz | hz
        · subst hz
          exact fun hcon => hnot.1 hcon.symm
        · exact hall z hz

theorem dedupKey_pair_iff (x y : StringInfo)
    (hx : x.Section = sectText ∨ x.Section = sectRodata ∨ x.Section = sectDataRelRo)
    (hy : y.Section = sectText ∨ y.Section = sectRodata ∨ y.Section = sectDataRelRo) :
    dedupKey x = dedupKey y ↔ (x.Section = y.Section ∧ x.Value = y.Value) := by
  constructor
  · intro h
    rcases hx with hx | hx | hx <;> rcases hy with hy | hy | hy <;>
      simp only [dedupKey, hx, hy, sectText, sectRodata, sectDataRelRo,
        List.cons_append, List.nil_append, List.cons.injEq, true_and] at h <;>
      simp_all
  · intro h
    simp only [dedupKey, h.1, h.2]

/-- C1: deduplication keeps a subsequence of the input (first occurrences in
input order): the output of deduplicateStrings is a sublist of the input
with pairwise distinct keys; every input key survives; every kept entry is
the first entry of the input carrying its key; on the three fixed section
labels the key identifies exactly the (section, value) pair; and every
final report has count equal to the length of its strings and no two
entries with identical (section, value). -/
theorem deduplicateStrings_spec :
    (∀ l : List StringInfo, List.Sublist (deduplicateStrings l) l) ∧
    (∀ l : List StringInfo, ((deduplicateStrings l).map dedupKey).Nodup) ∧
    (∀ l : List StringInfo, ∀ x ∈ l, ∃ y ∈ deduplicateStrings l, dedupKey y = dedupKey x) ∧
    (∀ l : List StringInfo, ∀ x ∈ deduplicateStrings l,
        ∃ p q, l = p ++ x :: q ∧ ∀ z ∈ p, dedupKey z ≠ dedupKey x) ∧
    (∀ x y : StringInfo,
        (x.Section = sectText ∨ x.Section = sectRodata ∨ x.Section = sectDataRelRo) →
        (y.Section = sectText ∨ y.Section = sectRodata ∨ y.Section = sectDataRelRo) →
        (dedupKey x = dedupKey y ↔ x.Section = y.Section ∧ x.Value = y.Value)) ∧
    (∀ file n, (extractStrings file n).1.Count = (extractStrings file n).1.Strings.length ∧
        List.Pairwise (fun x y : StringInfo => ¬ (x.Section = y.Section ∧ x.Value = y.Value))
          (extractStrings file n).1.Strings) := by
  refine ⟨fun l => dedupGo_sublist l [],
    fun l => (dedupGo_keys_nodup l []).1,
    fun l x hx => ?_,
    fun l x hx => (dedupGo_first l [] x hx).2,
    dedupKey_pair_iff,
    fun file n => ⟨rfl, ?_⟩⟩
  · rcases dedupGo_covers l [] x hx with h | h
    · simp at h
    · exact h
  · have hperm : List.Perm (extractStrings file n).1.Strings
        (deduplicateStrings (pull (pull (pull [] sectText file.Text n)
          sectRodata file.RData n) sectDataRelRo file.RelRData n)) :=
      sortSliceK_perm StringInfo.Address _
    have hn : ((deduplicateStrings (pull (pull (pull [] sectText file.Text n)
        sectRodata file.RData n) sectDataRelRo file.RelRData n)).map dedupKey).Nodup :=
      (dedupGo_keys_nodup _ []).1
    have hn2 : (((extractStrings file n).1.Strings).map dedupKey).Nodup :=
      ((hperm.map dedupKey).nodup_iff).mpr hn
    have hp : List.Pairwise (fun a b : StringInfo => dedupKey a ≠ dedupKey b)
        (extractStrings file n).1.Strings := by
      rw [List.Nodup, List.pairwise_map] at hn2
      exact hn2
    refine hp.imp ?_
    intro a b hab hcon
    exact hab (by simp only [dedupKey, hcon.1, hcon.2])

/-- Witness for C1: on a three entry list whose first and third entries
carry the same (section, value) pair, deduplication keeps an entry with the
first key. -/
theorem deduplicateStrings_spec_witness :
    ∃ y ∈ deduplicateStrings
      [⟨[97], 5, sectText⟩, ⟨[98], 6, sectText⟩, ⟨[97], 7, sectText⟩],
      dedupKey y = dedupKey ⟨[97], 5, sectText⟩ :=
  deduplicateStrings_spec.2.2.1
    [⟨[97], 5, sectText⟩, ⟨[98], 6, sectText⟩, ⟨[97], 7, sectText⟩]
    ⟨[97], 5, sectText⟩ (by decide)

theorem pull_mem (results : List StringInfo) (sect : List Nat)
    (dataFn : Option (Nat × List Nat)) (n : Nat) (e : StringInfo)
    (he : e ∈ pull results sect dataFn n) :
    e ∈ results ∨ ∃ base data s, dataFn = some (base, data) ∧
      s ∈ extractPrintableStrings data n ∧
      e = ⟨s.Value, (base + s.Address) % U64MOD, sect⟩ := by
  cases dataFn with
  | none =>
    left
    simpa [pull] using he
  | some bd =>
    obtain ⟨base, data⟩ := bd
    simp only [pull] at he
    split at he
    · left
      exact he
    · rcases List.mem_append.mp he with h | h
      · left
        exact h
      · right
        rcases List.mem_map.mp h with ⟨s, hs, hes⟩
        exact ⟨base, data, s, rfl, hs, hes.symm⟩

/-- C10: every address in a report arises from a section whose accessor
succeeded, as the uint64 sum (modulo 2 to the 64) of the section base and
the local offset of a scanned run; when the exact sum fits in 64 bits the
stored address is the exact sum. -/
theorem extractStrings_address (file : ObjFile) (n : Nat) (e : StringInfo)
    (he : e ∈ (extractStrings file n).1.Strings) :
    ∃ base data off v,
      ((file.Text = some (base, data) ∧ e.Section = sectText) ∨
       (file.RData = some (base, data) ∧ e.Section = sectRodata) ∨
       (file.RelRData = some (base, data) ∧ e.Section = sectDataRelRo)) ∧
      localStringInfo.mk v off ∈ extractPrintableStrings data n ∧
      e.Value = v ∧
      e.Address = (base + off) % U64MOD ∧
      (base + off < U64MOD → e.Address = base + off) := by
  have hp : e ∈ deduplicateStrings (pull (pull (pull [] sectText file.Text n)
      sectRodata file.RData n) sectDataRelRo file.RelRData n) :=
    (sortSliceK_perm StringInfo.Address _).subset he
  have hd := (dedupGo_sublist _ []).subset hp
  rcases pull_mem _ _ _ _ _ hd with h2 | ⟨base, data, s, hacc, hs, hes⟩
  · rcases pull_mem _ _ _ _ _ h2 with h1 | ⟨base, data, s, hacc, hs, hes⟩
    · rcases pull_mem _ _ _ _ _ h1 with h0 | ⟨base, data, s, hacc, hs, hes⟩
      · simp at h0
      · subst hes
        exact ⟨base, data, s.Address, s.Value, Or.inl ⟨hacc, rfl⟩, hs, rfl, rfl,
          fun hlt => Nat.mod_eq_of_lt hlt⟩
    · subst hes
      exact ⟨base, data, s.Address, s.Value, Or.inr (Or.inl ⟨hacc, rfl⟩), hs, rfl, rfl,
        fun hlt => Nat.mod_eq_of_lt hlt⟩
  · subst hes
    exact ⟨base, data, s.Address, s.Value, Or.inr (Or.inr ⟨hacc, rfl⟩), hs, rfl, rfl,
      fun hlt => Nat.mod_eq_of_lt hlt⟩

unseal utf8Decode stringsTrimLeftSpace stringsTrimRightSpace lastStartScan asciiLoop
  utf8RunEnd utf8Loop insertionSortInner insertionSortOuter pdqsortLoop in
/-- Witness for C10: a single section at base 4096 with one four byte run
yields the entry at address 4096, and the theorem recovers its origin. -/
theorem extractStrings_address_witness :
    ∃ base data off v,
      (((ObjFile.mk (some (4096, [72, 105, 33, 33])) none none).Text = some (base, data) ∧
        (StringInfo.mk [72, 105, 33, 33] 4096 sectText).Section = sectText) ∨
       ((ObjFile.mk (some (4096, [72, 105, 33, 33])) none none).RData = some (base, data) ∧
        (StringInfo.mk [72, 105, 33, 33] 4096 sectText).Section = sectRodata) ∨
       ((ObjFile.mk (some (4096, [72, 105, 33, 33])) none none).RelRData = some (base, data) ∧
        (StringInfo.mk [72, 105, 33, 33] 4096 sectText).Section = sectDataRelRo)) ∧
      localStringInfo.mk v off ∈ extractPrintableStrings data 3 ∧
      (StringInfo.mk [72, 105, 33, 33] 4096 sectText).Value = v ∧
      (StringInfo.mk [72, 105, 33, 33] 4096 sectText).Address = (base + off) % U64MOD ∧
      (base + off < U64MOD →
        (StringInfo.mk [72, 105, 33, 33] 4096 sectText).Address = base + off) :=
  extractStrings_address (ObjFile.mk (some (4096, [72, 105, 33, 33])) none none) 3
    (StringInfo.mk [72, 105, 33, 33] 4096 sectText) (by decide)

/-- Modelled from the spec (section 4.1, scan_ascii): the same single
left-to-right pass as the loop of extractASCIIStrings, but emitting every
closed run of length at least minLength without classification (the spec
assigns classification to the caller). -/
def scanAsciiLoop (b : List Nat) (minLength : Nat) (i : Nat) (start : Option Nat)
    (res : List localStringInfo) : List localStringInfo :=
  if h : i < b.length then
    if isPrintableASCII (b.getD i 0) then
      scanAsciiLoop b minLength (i + 1) (some (start.getD i)) res
    else
      match start with
      | none => scanAsciiLoop b minLength (i + 1) none res
      | some s =>
        scanAsciiLoop b minLength (i + 1) none
          (if minLength ≤ i - s then res ++ [⟨(b.drop s).take (i - s), s⟩] else res)
  else
    match start with
    | none => res
    | some s => if minLength ≤ b.length - s then res ++ [⟨b.drop s, s⟩] else res
termination_by b.length - i

/-- Modelled from the spec (section 4.1): the ASCII run scanner without
classification. -/
def scanAsciiSpec (b : List Nat) (minLength : Nat) : List localStringInfo :=
  scanAsciiLoop b minLength 0 none []

theorem asciiLoop_acc (b : List Nat) (n : Nat) :
    ∀ m i start res, b.length - i = m →
      asciiLoop b n i start res = res ++ asciiLoop b n i start [] := by
  intro m
  induction m using Nat.strong_induction_on with
  | _ m ih =>
    intro i start res hm
    cases start with
    | none =>
      conv_lhs => rw [asciiLoop.eq_def]
      conv_rhs => rw [asciiLoop.eq_def]
      dsimp only
      split
      · split
        · exact ih (b.length - (i + 1)) (by omega) (i + 1) (some i) res rfl
        · exact ih (b.length - (i + 1)) (by omega) (i + 1) none res rfl
      · simp
    | some s =>
      conv_lhs => rw [asciiLoop.eq_def]
      conv_rhs => rw [asciiLoop.eq_def]
      dsimp only
      split
      · split
        · exact ih (b.length - (i + 1)) (by omega) (i + 1) (some s) res rfl
        · rw [ih (b.length - (i + 1)) (by omega) (i + 1) none
            (if n ≤ i - s ∧ isLikelyString ((b.drop s).take (i - s)) = true
             then res ++ [localStringInfo.mk ((b.drop s).take (i - s)) s] else res) rfl]
          rw [ih (b.length - (i + 1)) (by omega) (i + 1) none
            (if n ≤ i - s ∧ isLikelyString ((b.drop s).take (i - s)) = true
             then [] ++ [localStringInfo.mk ((b.drop s).take (i - s)) s] else []) rfl]
          split
          · simp
          · simp
      · split
        · simp
        · simp

theorem scanAsciiLoop_acc (b : List Nat) (n : Nat) :
    ∀ m i start res, b.length - i = m →
      scanAsciiLoop b n i start res = res ++ scanAsciiLoop b n i start [] := by
  intro m
  induction m using Nat.strong_induction_on with
  | _ m ih =>
    intro i start res hm
    cases start with
    | none =>
      conv_lhs => rw [scanAsciiLoop.eq_def]
      conv_rhs => rw [scanAsciiLoop.eq_def]
      dsimp only
      split
      · split
        · exact ih (b.length - (i + 1)) (by omega) (i + 1) (some i) res rfl
        · exact ih (b.length - (i + 1)) (by omega) (i + 1) none res rfl
      · simp
    | some s =>
      conv_lhs => rw [scanAsciiLoop.eq_def]
      conv_rhs => rw [scanAsciiLoop.eq_def]
      dsimp only
      split
      · split
        · exact ih (b.length - (i + 1)) (by omega) (i + 1) (some s) res rfl
        · rw [ih (b.length - (i + 1)) (by omega) (i + 1) none
            (if n ≤ i - s then res ++ [localStringInfo.mk ((b.drop s).take (i - s)) s] else res) rfl]
          rw [ih (b.length - (i + 1)) (by omega) (i + 1) none
            (if n ≤ i - s then [] ++ [localStringInfo.mk ((b.drop s).take (i - s)) s] else []) rfl]
          split
          · simp
          · simp
      · split
        · simp
        · simp

theorem asciiLoop_eq_filter (b : List Nat) (n : Nat) :
    ∀ m i start, b.length - i = m →
      asciiLoop b n i start [] =
        (scanAsciiLoop b n i start []).filter (fun r => isLikelyString r.Value) := by
  intro m
  induction m using Nat.strong_induction_on with
  | _ m ih =>
    intro i start hm
    cases start with
    | none =>
      conv_lhs => rw [asciiLoop.eq_def]
      conv_rhs => rw [scanAsciiLoop.eq_def]
      dsimp only
      split
      · split
        · exact ih (b.length - (i + 1)) (by omega) (i + 1) (some i) rfl
        · exact ih (b.length - (i + 1)) (by omega) (i + 1) none rfl
      · simp
    | some s =>
      conv_lhs => rw [asciiLoop.eq_def]
      conv_rhs => rw [scanAsciiLoop.eq_def]
      dsimp only
      split
      · split
        · exact ih (b.length - (i + 1)) (by omega) (i + 1) (some s) rfl
        · rw [asciiLoop_acc b n (b.length - (i + 1)) (i + 1) none
            (if n ≤ i - s ∧ isLikelyString ((b.drop s).take (i - s)) = true
             then [] ++ [localStringInfo.mk ((b.drop s).take (i - s)) s] else []) rfl]
          rw [scanAsciiLoop_acc b n (b.length - (i + 1)) (i + 1) none
            (if n ≤ i - s then [] ++ [localStringInfo.mk ((b.drop s).take (i - s)) s]
             else []) rfl]
          rw [List.filter_append]
          rw [ih (b.length - (i + 1)) (by omega) (i + 1) none rfl]
          congr 1
          by_cases hc1 : n ≤ i - s
          · by_cases hc2 : isLikelyString ((b.drop s).take (i - s)) = true
            · rw [if_pos ⟨hc1, hc2⟩, if_pos hc1]
              simp [List.filter, hc2]
            · rw [if_neg (fun hcon => hc2 hcon.2), if_pos hc1]
              simp only [List.nil_append, List.filter]
              rw [Bool.not_eq_true] at hc2
              rw [hc2]
          · rw [if_neg (fun hcon => hc1 hcon.1), if_neg hc1]
            simp
      · by_cases hc1 : n ≤ b.length - s
        · by_cases hc2 : isLikelyString (b.drop s) = true
          · rw [if_pos ⟨hc1, hc2⟩, if_pos hc1]
            simp [List.filter, hc2]
          · rw [if_neg (fun hcon => hc2 hcon.2), if_pos hc1]
            simp only [List.nil_append, List.filter]
            rw [Bool.not_eq_true] at hc2
            rw [hc2]
        · rw [if_neg (fun hcon => hc1 hcon.1), if_neg hc1]
          simp

/-- The loop of extractASCIIStrings equals the classification filter of the
spec scanner. -/
theorem extractASCIIStrings_eq_filter (b : List Nat) (n : Nat) :
    extractASCIIStrings b n =
      (scanAsciiSpec b n).filter (fun r => isLikelyString r.Value) :=
  asciiLoop_eq_filter b n (b.length - 0) 0 none rfl

/-- The loop invariant of the ASCII scanners: with no open run the previous
byte (if any) is non-printable; with an open run from s, all bytes from s to
the cursor are printable and the byte before s (if any) is not. -/
def asciiInv (b : List Nat) (i : Nat) (start : Option Nat) : Prop :=
  match start with
  | none => i = 0 ∨ (0 < i ∧ isPrintableASCII (b.getD (i - 1) 0) = false)
  | some s => s < i ∧ (∀ k, s ≤ k → k < i → isPrintableASCII (b.getD k 0) = true) ∧
      (s = 0 ∨ isPrintableASCII (b.getD (s - 1) 0) = false)

/-- A maximal printable run of b at [s, e) of length at least n: non-empty,
every byte printable, delimited by the buffer bounds or non-printable
bytes. -/
def maxRunAt (b : List Nat) (n s e : Nat) : Prop :=
  s < e ∧ e ≤ b.length ∧ n ≤ e - s ∧
  (∀ k, s ≤ k → k < e → isPrintableASCII (b.getD k 0) = true) ∧
  (e = b.length ∨ isPrintableASCII (b.getD e 0) = false) ∧
  (s = 0 ∨ isPrintableASCII (b.getD (s - 1) 0) = false)

theorem scanAsciiLoop_sound (b : List Nat) (n : Nat) :
    ∀ m i start res r, b.length - i = m → i ≤ b.length →
      asciiInv b i start → r ∈ scanAsciiLoop b n i start res →
      r ∈ res ∨ ∃ s e, maxRunAt b n s e ∧
        r = localStringInfo.mk ((b.drop s).take (e - s)) s := by
  intro m
  induction m using Nat.strong_induction_on with
  | _ m ih =>
    intro i start res r hm hle hinv hr
    cases start with
    | none =>
      rw [scanAsciiLoop.eq_def] at hr
      dsimp only at hr
      split at hr
      · rename_i hi
        split at hr
        · rename_i hpr
          refine ih (b.length - (i + 1)) (by omega) (i + 1) (some i) res r rfl
            (by omega) ?_ hr
          refine ⟨by omega, ?_, ?_⟩
          · intro k hk1 hk2
            have : k = i := by omega
            subst this
            exact hpr
          · rcases hinv with h | h
            · left; exact h
            · right; exact h.2
        · rename_i hpr
          refine ih (b.length - (i + 1)) (by omega) (i + 1) none res r rfl (by omega) ?_ hr
          right
          constructor
          · omega
          · simp only [Nat.add_sub_cancel]
            rw [Bool.not_eq_true] at hpr
            exact hpr
      · left
        exact hr
    | some s =>
      rw [scanAsciiLoop.eq_def] at hr
      dsimp only at hr
      obtain ⟨hsi, hall, hbound⟩ := hinv
      split at hr
      · rename_i hi
        split at hr
        · rename_i hpr
          refine ih (b.length - (i + 1)) (by omega) (i + 1) (some s) res r rfl
            (by omega) ⟨by omega, ?_, hbound⟩ hr
          intro k hk1 hk2
          rcases Nat.lt_or_ge k i with hk | hk
          · exact hall k hk1 hk
          · have : k = i := by omega
            subst this
            exact hpr
        · rename_i hpr
          rcases ih (b.length - (i + 1)) (by omega) (i + 1) none _ r rfl (by omega)
            (by right
                constructor
                · omega
                · simp only [Nat.add_sub_cancel]
                  rw [Bool.not_eq_true] at hpr
                  exact hpr) hr with h | h
          · split at h
            · rename_i hcond
              rcases List.mem_append.mp h with h | h
              · left; exact h
              · right
                refine ⟨s, i, ⟨hsi, by omega, hcond, hall,
                  Or.inr (by rw [Bool.not_eq_true] at hpr; exact hpr), hbound⟩, ?_⟩
                simpa using h
            · left; exact h
          · right; exact h
      · rename_i hi
        split at hr
        · rename_i hc
          rcases List.mem_append.mp hr with h | h
          · left; exact h
          · right
            refine ⟨s, b.length, ⟨by omega, le_refl _, hc, ?_, Or.inl rfl, hbound⟩, ?_⟩
            · intro k hk1 hk2
              exact hall k hk1 (by omega)
            · have : (b.drop s).take (b.length - s) = b.drop s := by
                apply List.take_of_length_le
                simp
              rw [this]
              simpa using h
        · left; exact hr

theorem scanAsciiLoop_complete (b : List Nat) (n : Nat) (s e : Nat)
    (hrun : maxRunAt b n s e) :
    ∀ m i start res, b.length - i = m → i ≤ b.length → asciiInv b i start →
      (i ≤ s ∨ (start = some s ∧ s < i ∧ i ≤ e)) →
      localStringInfo.mk ((b.drop s).take (e - s)) s ∈ scanAsciiLoop b n i start res := by
  obtain ⟨hse, hel, hn, hall, hright, hleft⟩ := hrun
  intro m
  induction m using Nat.strong_induction_on with
  | _ m ih =>
    intro i start res hm hle hinv hpos
    rcases hpos with hpos | ⟨hst, hpos1, hpos2⟩
    · -- before the run
      rcases Nat.lt_or_ge i s with his | his
      · -- strictly before: step forward whatever the byte
        have hi : i < b.length := by omega
        rw [scanAsciiLoop.eq_def]
        rw [dif_pos hi]
        cases start with
        | none =>
          split
          · rename_i hpr
            refine ih (b.length - (i + 1)) (by omega) (i + 1) (some i) res rfl (by omega)
              ⟨by omega, ?_, ?_⟩ (Or.inl (by omega))
            · intro k hk1 hk2
              have : k = i := by omega
              subst this
              exact hpr
            · rcases hinv with h | h
              · left; exact h
              · right; exact h.2
          · rename_i hpr
            refine ih (b.length - (i + 1)) (by omega) (i + 1) none res rfl (by omega)
              ?_ (Or.inl (by omega))
            right
            refine ⟨by omega, ?_⟩
            simp only [Nat.add_sub_cancel]
            rw [Bool.not_eq_true] at hpr
            exact hpr
        | some s0 =>
          obtain ⟨hs0, hall0, hb0⟩ := hinv
          split
          · rename_i hpr
            refine ih (b.length - (i + 1)) (by omega) (i + 1) (some s0) res rfl (by omega)
              ⟨by omega, ?_, hb0⟩ (Or.inl (by omega))
            intro k hk1 hk2
            rcases Nat.lt_or_ge k i with hk | hk
            · exact hall0 k hk1 hk
            · have : k = i := by omega
              subst this
              exact hpr
          · rename_i hpr
            refine ih (b.length - (i + 1)) (by omega) (i + 1) none _ rfl (by omega)
              ?_ (Or.inl (by omega))
            right
            refine ⟨by omega, ?_⟩
            simp only [Nat.add_sub_cancel]
            rw [Bool.not_eq_true] at hpr
            exact hpr
      · -- i = s: the run begins here
        have his2 : i = s := by omega
        subst his2
        have hi : i < b.length := by omega
        have hpr : isPrintableASCII (b.getD i 0) = true := hall i (le_refl i) hse
        rw [scanAsciiLoop.eq_def]
        rw [dif_pos hi, if_pos hpr]
        cases start with
        | none =>
          refine ih (b.length - (i + 1)) (by omega) (i + 1) (some i) res rfl (by omega)
            ⟨by omega, ?_, hleft⟩ (Or.inr ⟨rfl, by omega, by omega⟩)
          intro k hk1 hk2
          have : k = i := by omega
          subst this
          exact hpr
        | some s0 =>
          obtain ⟨hs0, hall0, hb0⟩ := hinv
          exfalso
          rcases hleft with h0 | h0
          · omega
          · have : isPrintableASCII (b.getD (i - 1) 0) = true := hall0 (i - 1) (by omega) (by omega)
            rw [h0] at this
            cases this
    · -- inside the run, start = some s
      subst hst
      rcases Nat.lt_or_ge i e with hie | hie
      · -- extend the run
        have hi : i < b.length := by omega
        have hpr : isPrintableASCII (b.getD i 0) = true := hall i (by omega) hie
        rw [scanAsciiLoop.eq_def]
        dsimp only
        rw [dif_pos hi, if_pos hpr]
        obtain ⟨hs0, hall0, hb0⟩ := hinv
        exact ih (b.length - (i + 1)) (by omega) (i + 1) (some s) res rfl (by omega)
          ⟨by omega, fun k hk1 hk2 => (by
            rcases Nat.lt_or_ge k i with hk | hk
            · exact hall0 k hk1 hk
            · have : k = i := by omega
              subst this
              exact hpr), hb0⟩ (Or.inr ⟨rfl, by omega, by omega⟩)
      · -- i = e: the run closes here
        have hie2 : i = e := by omega
        subst hie2
        rw [scanAsciiLoop.eq_def]
        dsimp only
        rcases Nat.lt_or_ge i b.length with hi | hi
        · -- closing byte inside the buffer: it is non-printable
          have hnp : isPrintableASCII (b.getD i 0) = false := by
            rcases hright with h | h
            · omega
            · exact h
          rw [dif_pos hi]
          rw [if_neg (by rw [hnp]; simp)]
          rw [scanAsciiLoop_acc b n (b.length - (i + 1)) (i + 1) none _ rfl]
          rw [if_pos hn]
          exact List.mem_append_left _ (List.mem_append_right res (by simp))
        · -- end of buffer
          have hib : i = b.length := by omega
          rw [dif_neg (by omega)]
          rw [if_pos (by omega : n ≤ b.length - s)]
          have heq : (b.drop s).take (i - s) = b.drop s := by
            rw [hib]
            apply List.take_of_length_le
            simp
          rw [heq]
          exact List.mem_append_right res (by simp)

unseal asciiLoop scanAsciiLoop utf8Loop utf8RunEnd utf8Decode stringsTrimLeftSpace
  stringsTrimRightSpace lastStartScan in
/-- Counterexample to C6 as stated: the buffer of four a bytes holds one
maximal printable run of length four (at least the minimum length one), and
the spec scanner emits it, but extractASCIIStrings emits nothing: the code
applies isLikelyString inside the scan and the repeated byte run fails it. -/
theorem extractASCIIStrings_counterexample :
    maxRunAt [97, 97, 97, 97] 1 0 4 ∧
    scanAsciiSpec [97, 97, 97, 97] 1 = [localStringInfo.mk [97, 97, 97, 97] 0] ∧
    extractASCIIStrings [97, 97, 97, 97] 1 = [] := by
  refine ⟨⟨by omega, by decide, by omega, ?_, ?_, ?_⟩, by decide, by decide⟩
  · intro k h1 h2
    interval_cases k <;> decide
  · left
    decide
  · left
    rfl

/-- C6 (amended): the ASCII scanner emits one candidate for each maximal
run of bytes in the printable range whose length reaches the minimum and
which passes the classifier, with offset equal to the run start, including
a run still open at end of buffer; classification happens inside the scan
(the code output equals the classification filter of the spec scanner,
whose emissions are exactly the maximal runs of sufficient length). -/
theorem extractASCIIStrings_spec :
    (∀ b n, extractASCIIStrings b n =
      (scanAsciiSpec b n).filter (fun r => isLikelyString r.Value)) ∧
    (∀ b n r, r ∈ scanAsciiSpec b n →
      ∃ s e, maxRunAt b n s e ∧ r = localStringInfo.mk ((b.drop s).take (e - s)) s) ∧
    (∀ b n s e, maxRunAt b n s e →
      localStringInfo.mk ((b.drop s).take (e - s)) s ∈ scanAsciiSpec b n) ∧
    (∀ b n r, r ∈ extractASCIIStrings b n → isLikelyString r.Value = true) := by
  refine ⟨fun b n => extractASCIIStrings_eq_filter b n, fun b n r hr => ?_,
    fun b n s e hrun => ?_, fun b n r hr => ?_⟩
  · rcases scanAsciiLoop_sound b n (b.length - 0) 0 none [] r rfl (by omega)
      (Or.inl rfl) hr with h | h
    · simp at h
    · exact h
  · exact scanAsciiLoop_complete b n s e hrun (b.length - 0) 0 none [] rfl (by omega)
      (Or.inl rfl) (Or.inl (by omega))
  · rw [extractASCIIStrings_eq_filter] at hr
    exact (List.mem_filter.mp hr).2

/-- Witness for the amended C6: the buffer 0, a, a, 0 has the maximal run
at offsets one to three, and the spec scanner emits it. -/
theorem extractASCIIStrings_spec_witness :
    localStringInfo.mk (([0, 97, 97, 0].drop 1).take (3 - 1)) 1 ∈
      scanAsciiSpec [0, 97, 97, 0] 2 :=
  extractASCIIStrings_spec.2.2.1 [0, 97, 97, 0] 2 1 3
    ⟨by omega, by decide, by omega,
     by intro k h1 h2; interval_cases k <;> decide,
     by right; decide, by right; decide⟩

theorem utf8DecodeRune_shape (c0 : Nat) (r : List Nat) :
    ((utf8DecodeRune (c0 :: r)).1 = RuneErr ∧ (utf8DecodeRune (c0 :: r)).2 = 1) ∨
    ((∀ y, utf8DecodeRune ((c0 :: r).take (utf8DecodeRune (c0 :: r)).2 ++ y) =
        utf8DecodeRune (c0 :: r)) ∧
     ((utf8DecodeRune (c0 :: r)).2 = 1 →
        (utf8DecodeRune (c0 :: r)).1 = c0 ∧ c0 < 0x80) ∧
     (2 ≤ (utf8DecodeRune (c0 :: r)).2 → 0x80 ≤ (utf8DecodeRune (c0 :: r)).1)) := by
  by_cases h1 : c0 < 0x80
  · right
    have hd : utf8DecodeRune (c0 :: r) = (c0, 1) := by simp [utf8DecodeRune, h1]
    rw [hd]
    refine ⟨?_, fun _ => ⟨rfl, h1⟩, by omega⟩
    intro y
    have ht : (c0 :: r).take 1 ++ y = c0 :: y := rfl
    rw [ht]
    simp [utf8DecodeRune, h1]
  · by_cases h2 : c0 < 0xC2
    · left; simp [utf8DecodeRune, h1, h2]
    · by_cases h3 : c0 < 0xE0
      · rcases r with _ | ⟨c1, t⟩
        · left; simp [utf8DecodeRune, h1, h2, h3]
        · by_cases h4 : 0x80 ≤ c1 ∧ c1 ≤ 0xBF
          · right
            have hd : utf8DecodeRune (c0 :: c1 :: t) =
                ((c0 - 0xC0) * 64 + (c1 - 0x80), 2) := by
              simp [utf8DecodeRune, h1, h2, h3, h4]
            rw [hd]
            refine ⟨?_, by omega, fun _ => by omega⟩
            intro y
            have ht : (c0 :: c1 :: t).take 2 ++ y = c0 :: c1 :: y := rfl
            rw [ht]
            simp [utf8DecodeRune, h1, h2, h3, h4]
          · left; simp [utf8DecodeRune, h1, h2, h3, h4]
      · by_cases h5 : c0 < 0xF0
        · rcases r with _ | ⟨c1, _ | ⟨c2, t⟩⟩
          · left; simp [utf8DecodeRune, h1, h2, h3, h5]
          · left; simp [utf8DecodeRune, h1, h2, h3, h5]
          · by_cases h6 : (if c0 = 0xE0 then 0xA0 ≤ c1 ∧ c1 ≤ 0xBF
                else if c0 = 0xED then 0x80 ≤ c1 ∧ c1 ≤ 0x9F
                else 0x80 ≤ c1 ∧ c1 ≤ 0xBF) ∧ 0x80 ≤ c2 ∧ c2 ≤ 0xBF
            · right
              have hd : utf8DecodeRune (c0 :: c1 :: c2 :: t) =
                  ((c0 - 0xE0) * 4096 + (c1 - 0x80) * 64 + (c2 - 0x80), 3) := by
                simp [utf8DecodeRune, h1, h2, h3, h5, h6]
              rw [hd]
              obtain ⟨h6a, h6b, h6c⟩ := h6
              refine ⟨?_, by omega, fun _ => by split at h6a <;> omega⟩
              intro y
              have ht : (c0 :: c1 :: c2 :: t).take 3 ++ y = c0 :: c1 :: c2 :: y := rfl
              rw [ht]
              simp only [utf8DecodeRune, if_neg h1, if_neg h2, if_neg h3, if_pos h5]
              rw [if_pos ⟨h6a, h6b, h6c⟩]
            · left; simp [utf8DecodeRune, h1, h2, h3, h5, h6]
        · by_cases h7 : c0 < 0xF5
          · rcases r with _ | ⟨c1, _ | ⟨c2, _ | ⟨c3, t⟩⟩⟩
            · left; simp [utf8DecodeRune, h1, h2, h3, h5, h7]
            · left; simp [utf8DecodeRune, h1, h2, h3, h5, h7]
            · left; simp [utf8DecodeRune, h1, h2, h3, h5, h7]
            · by_cases h8 : (if c0 = 0xF0 then 0x90 ≤ c1 ∧ c1 ≤ 0xBF
                  else if c0 = 0xF4 then 0x80 ≤ c1 ∧ c1 ≤ 0x8F
                  else 0x80 ≤ c1 ∧ c1 ≤ 0xBF) ∧ (0x80 ≤ c2 ∧ c2 ≤ 0xBF) ∧
                  (0x80 ≤ c3 ∧ c3 ≤ 0xBF)
              · right
                have hd : utf8DecodeRune (c0 :: c1 :: c2 :: c3 :: t) =
                    ((c0 - 0xF0) * 262144 + (c1 - 0x80) * 4096 + (c2 - 0x80) * 64 +
                      (c3 - 0x80), 4) := by
                  simp [utf8DecodeRune, h1, h2, h3, h5, h7, h8]
                rw [hd]
                obtain ⟨h8a, h8b, h8c⟩ := h8
                refine ⟨?_, by omega, fun _ => by split at h8a <;> omega⟩
                intro y
                have ht : (c0 :: c1 :: c2 :: c3 :: t).take 4 ++ y =
                    c0 :: c1 :: c2 :: c3 :: y := rfl
                rw [ht]
                simp only [utf8DecodeRune, if_neg h1, if_neg h2, if_neg h3, if_neg h5,
                  if_pos h7]
                rw [if_pos ⟨h8a, h8b, h8c⟩]
              · left; simp [utf8DecodeRune, h1, h2, h3, h5, h7, h8]
          · left; simp [utf8DecodeRune, h1, h2, h3, h5, h7]

theorem utf8DecodeRune_size_le_length (l : List Nat) :
    (utf8DecodeRune l).2 ≤ l.length := by
  rcases l with _ | ⟨c0, rest⟩
  · simp [utf8DecodeRune]
  · unfold utf8DecodeRune
    repeat' split
    all_goals simp_all

theorem utf8RunEnd_step (b : List Nat) (j p : Nat) (hj : j < b.length)
    (he : ¬((utf8DecodeRune (b.drop j)).1 = RuneErr ∧ (utf8DecodeRune (b.drop j)).2 = 1))
    (hd : ¬((utf8DecodeRune (b.drop j)).1 = 10 ∨ (utf8DecodeRune (b.drop j)).1 = 13 ∨
      (utf8DecodeRune (b.drop j)).1 = 9))
    (hc : ¬(unicodeIsControl (utf8DecodeRune (b.drop j)).1 = true)) :
    utf8RunEnd b j p = utf8RunEnd b (j + (utf8DecodeRune (b.drop j)).2) (p + 1) := by
  conv_lhs => rw [utf8RunEnd]
  rw [dif_pos hj, if_neg he, if_neg hd, if_neg hc]

theorem utf8RunEnd_stop (b : List Nat) (j p : Nat)
    (h : j < b.length →
      ((utf8DecodeRune (b.drop j)).1 = RuneErr ∧ (utf8DecodeRune (b.drop j)).2 = 1) ∨
      ((utf8DecodeRune (b.drop j)).1 = 10 ∨ (utf8DecodeRune (b.drop j)).1 = 13 ∨
        (utf8DecodeRune (b.drop j)).1 = 9) ∨
      unicodeIsControl (utf8DecodeRune (b.drop j)).1 = true) :
    utf8RunEnd b j p = (j, p) := by
  rw [utf8RunEnd]
  split
  · rename_i hj
    by_cases he : (utf8DecodeRune (b.drop j)).1 = RuneErr ∧ (utf8DecodeRune (b.drop j)).2 = 1
    · rw [if_pos he]
    · rw [if_neg he]
      by_cases hd : (utf8DecodeRune (b.drop j)).1 = 10 ∨ (utf8DecodeRune (b.drop j)).1 = 13 ∨
          (utf8DecodeRune (b.drop j)).1 = 9
      · rw [if_pos hd]
      · rw [if_neg hd]
        have hc : unicodeIsControl (utf8DecodeRune (b.drop j)).1 = true := by
          rcases h hj with h1 | h2 | h3
          · exact absurd h1 he
          · exact absurd h2 hd
          · exact h3
        rw [if_pos hc]
  · rfl

theorem utf8RunEnd_shift (b : List Nat) : ∀ m j p, b.length - j = m →
    (utf8RunEnd b j p).1 = (utf8RunEnd b j 0).1 ∧
    (utf8RunEnd b j p).2 = p + (utf8RunEnd b j 0).2 := by
  intro m
  induction m using Nat.strong_induction_on with
  | _ m ih =>
    intro j p hm
    by_cases hj : j < b.length
    · by_cases he : (utf8DecodeRune (b.drop j)).1 = RuneErr ∧
          (utf8DecodeRune (b.drop j)).2 = 1
      · rw [utf8RunEnd_stop b j p (fun _ => Or.inl he),
          utf8RunEnd_stop b j 0 (fun _ => Or.inl he)]
        simp
      · by_cases hd : (utf8DecodeRune (b.drop j)).1 = 10 ∨
            (utf8DecodeRune (b.drop j)).1 = 13 ∨ (utf8DecodeRune (b.drop j)).1 = 9
        · rw [utf8RunEnd_stop b j p (fun _ => Or.inr (Or.inl hd)),
            utf8RunEnd_stop b j 0 (fun _ => Or.inr (Or.inl hd))]
          simp
        · by_cases hc : unicodeIsControl (utf8DecodeRune (b.drop j)).1 = true
          · rw [utf8RunEnd_stop b j p (fun _ => Or.inr (Or.inr hc)),
              utf8RunEnd_stop b j 0 (fun _ => Or.inr (Or.inr hc))]
            simp
          · rw [utf8RunEnd_step b j p hj he hd hc, utf8RunEnd_step b j 0 hj he hd hc]
            have hs := drop_decode_size_pos b j hj
            have i1 := ih (b.length - (j + (utf8DecodeRune (b.drop j)).2)) (by omega)
              (j + (utf8DecodeRune (b.drop j)).2) (p + 1) rfl
            have i2 := ih (b.length - (j + (utf8DecodeRune (b.drop j)).2)) (by omega)
              (j + (utf8DecodeRune (b.drop j)).2) (0 + 1) rfl
            exact ⟨i1.1.trans i2.1.symm, by omega⟩
    · rw [utf8RunEnd_stop b j p (fun h => absurd h hj),
        utf8RunEnd_stop b j 0 (fun h => absurd h hj)]
      simp

theorem utf8RunEnd_le (b : List Nat) : ∀ m j p, b.length - j = m → j ≤ b.length →
    (utf8RunEnd b j p).1 ≤ b.length := by
  intro m
  induction m using Nat.strong_induction_on with
  | _ m ih =>
    intro j p hm hle
    rw [utf8RunEnd]
    split
    · rename_i hj
      have hs := drop_decode_size_pos b j hj
      have hsl := utf8DecodeRune_size_le_length (b.drop j)
      rw [List.length_drop] at hsl
      split
      · exact hle
      · split
        · exact hle
        · split
          · exact hle
          · exact ih (b.length - (j + (utf8DecodeRune (b.drop j)).2)) (by omega)
              (j + (utf8DecodeRune (b.drop j)).2) (p + 1) rfl (by omega)
    · exact hle

theorem utf8Decode_nil : utf8Decode [] = [] := by
  rw [utf8Decode]

theorem utf8Decode_cons (x : Nat) (xs : List Nat) :
    utf8Decode (x :: xs) = (utf8DecodeRune (x :: xs)).1 ::
      utf8Decode ((x :: xs).drop (utf8DecodeRune (x :: xs)).2) := by
  conv_lhs => rw [utf8Decode]

theorem utf8RunEnd_walk (b : List Nat) : ∀ m j, b.length - j = m →
    (utf8Decode ((b.drop j).take ((utf8RunEnd b j 0).1 - j))).length =
      (utf8RunEnd b j 0).2 ∧
    (∀ r ∈ utf8Decode ((b.drop j).take ((utf8RunEnd b j 0).1 - j)),
      unicodeIsControl r = false ∧ ¬(r = 10 ∨ r = 13 ∨ r = 9)) ∧
    (isPureASCII ((b.drop j).take ((utf8RunEnd b j 0).1 - j)) = false →
      ∃ r ∈ utf8Decode ((b.drop j).take ((utf8RunEnd b j 0).1 - j)), 0x80 ≤ r) := by
  intro m
  induction m using Nat.strong_induction_on with
  | _ m ih =>
    intro j hm
    by_cases hstop : ¬(j < b.length) ∨
        ((utf8DecodeRune (b.drop j)).1 = RuneErr ∧ (utf8DecodeRune (b.drop j)).2 = 1) ∨
        ((utf8DecodeRune (b.drop j)).1 = 10 ∨ (utf8DecodeRune (b.drop j)).1 = 13 ∨
          (utf8DecodeRune (b.drop j)).1 = 9) ∨
        unicodeIsControl (utf8DecodeRune (b.drop j)).1 = true
    · have hstop' : utf8RunEnd b j 0 = (j, 0) := by
        rcases hstop with h | h
        · exact utf8RunEnd_stop b j 0 (fun hh => absurd hh h)
        · exact utf8RunEnd_stop b j 0 (fun _ => h)
      rw [hstop']
      simp [utf8Decode_nil, isPureASCII]
    · have hj : j < b.length := by
        by_contra h
        exact hstop (Or.inl h)
      have he : ¬((utf8DecodeRune (b.drop j)).1 = RuneErr ∧
          (utf8DecodeRune (b.drop j)).2 = 1) :=
        fun h => hstop (Or.inr (Or.inl h))
      have hd : ¬((utf8DecodeRune (b.drop j)).1 = 10 ∨
          (utf8DecodeRune (b.drop j)).1 = 13 ∨ (utf8DecodeRune (b.drop j)).1 = 9) :=
        fun h => hstop (Or.inr (Or.inr (Or.inl h)))
      have hc : ¬(unicodeIsControl (utf8DecodeRune (b.drop j)).1 = true) :=
        fun h => hstop (Or.inr (Or.inr (Or.inr h)))
      have hs : 1 ≤ (utf8DecodeRune (b.drop j)).2 := drop_decode_size_pos b j hj
      rw [utf8RunEnd_step b j 0 hj he hd hc]
      simp only [Nat.zero_add]
      have hsh := utf8RunEnd_shift b
        (b.length - (j + (utf8DecodeRune (b.drop j)).2))
        (j + (utf8DecodeRune (b.drop j)).2) 1 rfl
      rw [hsh.1, hsh.2]
      have hszle : (utf8DecodeRune (b.drop j)).2 ≤ b.length - j := by
        have h1 := utf8DecodeRune_size_le_length (b.drop j)
        rwa [List.length_drop] at h1
      have hge : j + (utf8DecodeRune (b.drop j)).2 ≤
          (utf8RunEnd b (j + (utf8DecodeRune (b.drop j)).2) 0).1 :=
        utf8RunEnd_ge b (b.length - (j + (utf8DecodeRune (b.drop j)).2))
          (j + (utf8DecodeRune (b.drop j)).2) 0 rfl
      have hsplit : (b.drop j).take
            ((utf8RunEnd b (j + (utf8DecodeRune (b.drop j)).2) 0).1 - j) =
          (b.drop j).take (utf8DecodeRune (b.drop j)).2 ++
          (b.drop (j + (utf8DecodeRune (b.drop j)).2)).take
            ((utf8RunEnd b (j + (utf8DecodeRune (b.drop j)).2) 0).1 -
              (j + (utf8DecodeRune (b.drop j)).2)) := by
        have h1 : (utf8RunEnd b (j + (utf8DecodeRune (b.drop j)).2) 0).1 - j =
            (utf8DecodeRune (b.drop j)).2 +
            ((utf8RunEnd b (j + (utf8DecodeRune (b.drop j)).2) 0).1 -
              (j + (utf8DecodeRune (b.drop j)).2)) := by omega
        rw [h1, List.take_add]
        congr 1
        rw [List.drop_drop, Nat.add_comm]
      obtain ⟨c0, rr, hbd⟩ : ∃ c0 rr, b.drop j = c0 :: rr := by
        rcases hbd : b.drop j with _ | ⟨x, xs⟩
        · exfalso
          have h1 := congrArg List.length hbd
          rw [List.length_drop] at h1
          simp at h1
          omega
        · exact ⟨x, xs, rfl⟩
      have hshape := utf8DecodeRune_shape c0 rr
      rw [← hbd] at hshape
      rcases hshape with herr | ⟨hpre, hone, htwo⟩
      · exact absurd herr he
      have hdec : utf8DecodeRune ((b.drop j).take
            ((utf8RunEnd b (j + (utf8DecodeRune (b.drop j)).2) 0).1 - j)) =
          utf8DecodeRune (b.drop j) := by
        rw [hsplit]
        exact hpre _
      have hlen2 : ((b.drop j).take (utf8DecodeRune (b.drop j)).2).length =
          (utf8DecodeRune (b.drop j)).2 := by
        rw [List.length_take, List.length_drop]
        omega
      have hdrop : ((b.drop j).take
            ((utf8RunEnd b (j + (utf8DecodeRune (b.drop j)).2) 0).1 - j)).drop
            (utf8DecodeRune (b.drop j)).2 =
          (b.drop (j + (utf8DecodeRune (b.drop j)).2)).take
            ((utf8RunEnd b (j + (utf8DecodeRune (b.drop j)).2) 0).1 -
              (j + (utf8DecodeRune (b.drop j)).2)) := by
        rw [hsplit]
        exact List.drop_left' hlen2
      have hdecomp : utf8Decode ((b.drop j).take
            ((utf8RunEnd b (j + (utf8DecodeRune (b.drop j)).2) 0).1 - j)) =
          (utf8DecodeRune (b.drop j)).1 ::
          utf8Decode ((b.drop (j + (utf8DecodeRune (b.drop j)).2)).take
            ((utf8RunEnd b (j + (utf8DecodeRune (b.drop j)).2) 0).1 -
              (j + (utf8DecodeRune (b.drop j)).2))) := by
        obtain ⟨x, xs, hsl⟩ : ∃ x xs, (b.drop j).take
            ((utf8RunEnd b (j + (utf8DecodeRune (b.drop j)).2) 0).1 - j) = x :: xs := by
          rcases hsl : (b.drop j).take
              ((utf8RunEnd b (j + (utf8DecodeRune (b.drop j)).2) 0).1 - j) with _ | ⟨x, xs⟩
          · exfalso
            have h1 := congrArg List.length hsl
            rw [List.length_take, List.length_drop] at h1
            simp at h1
            omega
          · exact ⟨x, xs, rfl⟩
        rw [hsl, utf8Decode_cons, ← hsl, hdec, hdrop]
      have ihr := ih (b.length - (j + (utf8DecodeRune (b.drop j)).2)) (by omega)
        (j + (utf8DecodeRune (b.drop j)).2) rfl
      refine ⟨?_, ?_, ?_⟩
      · rw [hdecomp, List.length_cons, ihr.1]
        omega
      · rw [hdecomp]
        intro r hr
        rcases List.mem_cons.mp hr with hr0 | hrt
        · subst hr0
          refine ⟨?_, hd⟩
          rw [Bool.not_eq_true] at hc
          exact hc
        · exact ihr.2.1 r hrt
      · intro hpure
        by_cases hr0 : 0x80 ≤ (utf8DecodeRune (b.drop j)).1
        · exact ⟨(utf8DecodeRune (b.drop j)).1,
            by rw [hdecomp]; exact List.mem_cons_self _ _, hr0⟩
        · have hsz1 : (utf8DecodeRune (b.drop j)).2 = 1 := by
            by_contra hne
            exact hr0 (htwo (by omega))
          have hc0 := hone hsz1
          have hchunk : (b.drop j).take (utf8DecodeRune (b.drop j)).2 = [c0] := by
            rw [hsz1, hbd]
            rfl
          have hrest : isPureASCII ((b.drop (j + (utf8DecodeRune (b.drop j)).2)).take
              ((utf8RunEnd b (j + (utf8DecodeRune (b.drop j)).2) 0).1 -
                (j + (utf8DecodeRune (b.drop j)).2))) = false := by
            rw [hsplit, hchunk, isPureASCII, List.all_append] at hpure
            have hc0lt : c0 < 0x80 := hc0.2
            simp only [List.all_cons, List.all_nil, decide_eq_true_eq] at hpure
            rw [isPureASCII]
            simp only [hc0lt, decide_True, Bool.true_and, Bool.and_true] at hpure
            exact hpure
          obtain ⟨r, hrmem, hrge⟩ := ihr.2.2 hrest
          exact ⟨r, by rw [hdecomp]; exact List.mem_cons_of_mem _ hrmem, hrge⟩

theorem utf8Loop_sound (b : List Nat) (n : Nat) : ∀ m i res, b.length - i = m →
    ∀ r ∈ utf8Loop b n i res, r ∈ res ∨
      ∃ j, r = localStringInfo.mk ((b.drop j).take ((utf8RunEnd b j 0).1 - j)) j ∧
        n ≤ (utf8RunEnd b j 0).2 ∧
        isPureASCII ((b.drop j).take ((utf8RunEnd b j 0).1 - j)) = false ∧
        isLikelyString ((b.drop j).take ((utf8RunEnd b j 0).1 - j)) = true := by
  intro m
  induction m using Nat.strong_induction_on with
  | _ m ih =>
    intro i res hm r hr
    rw [utf8Loop] at hr
    split at hr
    · rename_i hi
      split at hr
      · exact ih (b.length - (i + 1)) (by omega) (i + 1) res rfl r hr
      · rename_i herr
        have hs : 1 ≤ (utf8DecodeRune (b.drop i)).2 := drop_decode_size_pos b i hi
        have hge : i ≤ (utf8RunEnd b i 0).1 :=
          utf8RunEnd_ge b (b.length - i) i 0 rfl
        split at hr
        all_goals (
          rename_i hji
          have h2 := by
            first
            | exact ih (b.length - (i + (utf8DecodeRune (b.drop i)).2)) (by omega)
                (i + (utf8DecodeRune (b.drop i)).2) _ rfl r hr
            | exact ih (b.length - ((utf8RunEnd b i 0).1 + 1)) (by omega)
                ((utf8RunEnd b i 0).1 + 1) _ rfl r hr
          rcases h2 with h2 | h2
          · split at h2
            · rename_i hcond
              rcases List.mem_append.mp h2 with h3 | h3
              · exact Or.inl h3
              · right
                refine ⟨i, List.mem_singleton.mp h3, hcond.1, ?_, ?_⟩
                · have hb := hcond.2
                  rw [Bool.and_eq_true] at hb
                  rw [← Bool.not_eq_true']
                  exact hb.1
                · have hb := hcond.2
                  rw [Bool.and_eq_true] at hb
                  exact hb.2
            · exact Or.inl h2
          · exact Or.inr h2)
    · exact Or.inl hr

theorem slice_mem_getD (b : List Nat) (s e : Nat) (he : e ≤ b.length) (c : Nat)
    (hc : c ∈ (b.drop s).take (e - s)) : ∃ k, s ≤ k ∧ k < e ∧ b.getD k 0 = c := by
  obtain ⟨idx, hidx, hgc⟩ := List.mem_iff_getElem.mp hc
  have hlen : idx < e - s ∧ idx < b.length - s := by
    have h1 := hidx
    rw [List.length_take, List.length_drop] at h1
    omega
  refine ⟨s + idx, by omega, by omega, ?_⟩
  rw [List.getElem_take, List.getElem_drop] at hgc
  rw [← hgc, List.getD_eq_getElem]

theorem asciiRun_pure (b : List Nat) (s e : Nat) (he : e ≤ b.length)
    (hall : ∀ k, s ≤ k → k < e → isPrintableASCII (b.getD k 0) = true) :
    isPureASCII ((b.drop s).take (e - s)) = true := by
  rw [isPureASCII, List.all_eq_true]
  intro c hc
  obtain ⟨k, hk1, hk2, hk3⟩ := slice_mem_getD b s e he c hc
  have h1 := hall k hk1 hk2
  rw [hk3, isPrintableASCII] at h1
  simp only [Bool.and_eq_true, decide_eq_true_eq] at h1
  simp only [decide_eq_true_eq]
  omega

theorem extractASCIIStrings_pure (b : List Nat) (n : Nat) (q : localStringInfo)
    (hq : q ∈ extractASCIIStrings b n) : isPureASCII q.Value = true := by
  rw [extractASCIIStrings_eq_filter] at hq
  have hq2 := List.mem_of_mem_filter hq
  rcases scanAsciiLoop_sound b n (b.length - 0) 0 none [] q rfl (by omega)
      (Or.inl rfl) hq2 with h | ⟨s, e, hrun, hval⟩
  · simp at h
  · rw [hval]
    exact asciiRun_pure b s e hrun.2.1 hrun.2.2.2.1

theorem utf8Decode_pure : ∀ (v : List Nat), isPureASCII v = true → utf8Decode v = v := by
  intro v
  induction v with
  | nil => intro _; exact utf8Decode_nil
  | cons c rest ihr =>
    intro h
    have hc : c < 0x80 ∧ isPureASCII rest = true := by
      rw [isPureASCII, List.all_cons, Bool.and_eq_true] at h
      refine ⟨?_, h.2⟩
      have h1 := h.1
      simpa using h1
    have hd : utf8DecodeRune (c :: rest) = (c, 1) := by
      simp [utf8DecodeRune, hc.1]
    rw [utf8Decode_cons, hd]
    simp only [List.drop_succ_cons, List.drop_zero]
    rw [ihr hc.2]

theorem take_self_length (l : List α) (n : Nat) : l.take ((l.take n).length) = l.take n := by
  rw [List.length_take]
  rcases Nat.le_total n l.length with h | h
  · rw [Nat.min_eq_left h]
  · rw [Nat.min_eq_right h, List.take_length, List.take_of_length_le h]

/-- C7: every entry emitted by the UTF-8 scan path has at least minLength
decoded code points, contains at least one code point at or above 0x80 (not a
single-byte code point), contains no control code point — in particular no
newline, carriage return or horizontal tab, which terminate runs — and its
Address is the byte offset of the run start, the value being the slice of the
buffer there; consequently no UTF-8-path entry shares its value with any
ASCII-path entry. -/
theorem extractUTF8Strings_spec (b : List Nat) (n : Nat) (r : localStringInfo)
    (hr : r ∈ extractUTF8Strings b n) :
    n ≤ (utf8Decode r.Value).length ∧
    (∃ c ∈ utf8Decode r.Value, 0x80 ≤ c) ∧
    (∀ c ∈ utf8Decode r.Value, unicodeIsControl c = false ∧ c ≠ 10 ∧ c ≠ 13 ∧ c ≠ 9) ∧
    r.Value = (b.drop r.Address).take r.Value.length ∧
    (∀ q ∈ extractASCIIStrings b n, q.Value ≠ r.Value) := by
  rcases utf8Loop_sound b n (b.length - 0) 0 [] rfl r hr with
    h | ⟨j, hval, hcount, hpure, hlikely⟩
  · simp at h
  · have hV : r.Value = (b.drop j).take ((utf8RunEnd b j 0).1 - j) := by rw [hval]
    have hA : r.Address = j := by rw [hval]
    have walk := utf8RunEnd_walk b (b.length - j) j rfl
    refine ⟨?_, ?_, ?_, ?_, ?_⟩
    · rw [hV, walk.1]
      exact hcount
    · rw [hV]
      exact walk.2.2 hpure
    · rw [hV]
      intro c hcmem
      obtain ⟨h1, h2⟩ := walk.2.1 c hcmem
      exact ⟨h1, fun hh => h2 (Or.inl hh), fun hh => h2 (Or.inr (Or.inl hh)),
        fun hh => h2 (Or.inr (Or.inr hh))⟩
    · rw [hV, hA]
      exact (take_self_length _ _).symm
    · intro q hq hcon
      have hp := extractASCIIStrings_pure b n q hq
      rw [hcon, hV] at hp
      rw [hp] at hpure
      exact Bool.noConfusion hpure

unseal asciiLoop scanAsciiLoop utf8Loop utf8RunEnd utf8Decode stringsTrimLeftSpace
  stringsTrimRightSpace lastStartScan in
/-- Witness for C7: on the six-byte buffer of three e-acute characters with
minimum length three, the UTF-8 scanner emits the whole buffer at offset zero
and the theorem's conclusions evaluate on it. -/
theorem extractUTF8Strings_spec_witness :
    localStringInfo.mk [195, 169, 195, 169, 195, 169] 0 ∈
      extractUTF8Strings [195, 169, 195, 169, 195, 169] 3 ∧
    3 ≤ (utf8Decode [195, 169, 195, 169, 195, 169]).length ∧
    (∃ c ∈ utf8Decode [195, 169, 195, 169, 195, 169], 0x80 ≤ c) ∧
    (∀ q ∈ extractASCIIStrings [195, 169, 195, 169, 195, 169] 3,
      q.Value ≠ [195, 169, 195, 169, 195, 169]) :=
  ⟨by decide,
   (extractUTF8Strings_spec [195, 169, 195, 169, 195, 169] 3
      (localStringInfo.mk [195, 169, 195, 169, 195, 169] 0) (by decide)).1,
   (extractUTF8Strings_spec [195, 169, 195, 169, 195, 169] 3
      (localStringInfo.mk [195, 169, 195, 169, 195, 169] 0) (by decide)).2.1,
   (extractUTF8Strings_spec [195, 169, 195, 169, 195, 169] 3
      (localStringInfo.mk [195, 169, 195, 169, 195, 169] 0) (by decide)).2.2.2.2⟩

theorem extractPrintableStrings_min_length (data : List Nat) (n : Nat)
    (s : localStringInfo) (hs : s ∈ extractPrintableStrings data n) :
    n ≤ (utf8Decode s.Value).length := by
  rcases List.mem_append.mp hs with h | h
  · rw [extractASCIIStrings_eq_filter] at h
    have h2 := List.mem_of_mem_filter h
    rcases scanAsciiLoop_sound data n (data.length - 0) 0 none [] s rfl (by omega)
        (Or.inl rfl) h2 with hmem | ⟨s2, e2, hrun, hval⟩
    · simp at hmem
    · have hV : s.Value = (data.drop s2).take (e2 - s2) := by rw [hval]
      have hpure : isPureASCII s.Value = true := by
        rw [hV]
        exact asciiRun_pure data s2 e2 hrun.2.1 hrun.2.2.2.1
      rw [utf8Decode_pure _ hpure, hV, List.length_take, List.length_drop]
      obtain ⟨hlt, hle, hn, _⟩ := hrun
      omega
  · exact (extractUTF8Strings_spec data n s h).1

/-- C8: every entry of the final report has at least minLength decoded code
points in its value; and a pure-ASCII value decodes one code point per byte,
so its character count equals its byte length. -/
theorem extractStrings_min_length (file : ObjFile) (n : Nat) (e : StringInfo)
    (he : e ∈ (extractStrings file n).1.Strings) :
    n ≤ (utf8Decode e.Value).length ∧
    (isPureASCII e.Value = true → (utf8Decode e.Value).length = e.Value.length) := by
  have hp : e ∈ deduplicateStrings (pull (pull (pull [] sectText file.Text n)
      sectRodata file.RData n) sectDataRelRo file.RelRData n) :=
    (sortSliceK_perm StringInfo.Address _).subset he
  have hd := (dedupGo_sublist _ []).subset hp
  have hsv : ∃ data s, s ∈ extractPrintableStrings data n ∧
      e.Value = localStringInfo.Value s := by
    rcases pull_mem _ _ _ _ _ hd with h2 | ⟨base, data, s, hacc, hs, hes⟩
    · rcases pull_mem _ _ _ _ _ h2 with h1 | ⟨base, data, s, hacc, hs, hes⟩
      · rcases pull_mem _ _ _ _ _ h1 with h0 | ⟨base, data, s, hacc, hs, hes⟩
        · simp at h0
        · exact ⟨data, s, hs, by rw [hes]⟩
      · exact ⟨data, s, hs, by rw [hes]⟩
    · exact ⟨data, s, hs, by rw [hes]⟩
  obtain ⟨data, s, hs, hV⟩ := hsv
  constructor
  · rw [hV]
    exact extractPrintableStrings_min_length data n s hs
  · intro hpa
    rw [utf8Decode_pure _ hpa]

unseal utf8Decode stringsTrimLeftSpace stringsTrimRightSpace lastStartScan asciiLoop
  utf8RunEnd utf8Loop insertionSortInner insertionSortOuter pdqsortLoop in
/-- Witness for C8: the four byte run Hi!! extracted from a single section at
base 4096 with minimum length three has four decoded code points, and being
pure ASCII its character count equals its byte length. -/
theorem extractStrings_min_length_witness :
    StringInfo.mk [72, 105, 33, 33] 4096 sectText ∈
      (extractStrings (ObjFile.mk (some (4096, [72, 105, 33, 33])) none none) 3).1.Strings ∧
    3 ≤ (utf8Decode [72, 105, 33, 33]).length ∧
    (isPureASCII [72, 105, 33, 33] = true →
      (utf8Decode [72, 105, 33, 33]).length = ([72, 105, 33, 33] : List Nat).length) :=
  ⟨by decide,
   (extractStrings_min_length (ObjFile.mk (some (4096, [72, 105, 33, 33])) none none) 3
      (StringInfo.mk [72, 105, 33, 33] 4096 sectText) (by decide)).1,
   (extractStrings_min_length (ObjFile.mk (some (4096, [72, 105, 33, 33])) none none) 3
      (StringInfo.mk [72, 105, 33, 33] 4096 sectText) (by decide)).2⟩

/-- The range [a, b) of l is sorted by key. -/
def sortedRange (key : α → Nat) [Inhabited α] (l : List α) (a b : Nat) : Prop :=
  ∀ i j, a ≤ i → i ≤ j → j < b → key (geta l i) ≤ key (geta l j)

theorem sortedRange_of_adjacent (key : α → Nat) [Inhabited α] (l : List α) (a b : Nat)
    (h : ∀ k, a < k → k < b → key (geta l (k - 1)) ≤ key (geta l k)) :
    sortedRange key l a b := by
  intro i j hai hij hjb
  induction j with
  | zero =>
    have hji : i = 0 := by omega
    rw [hji]
  | succ j2 ihj =>
    rcases Nat.lt_or_ge i (j2 + 1) with hlt | hge
    · have h1 := ihj (by omega) (by omega)
      have h2 := h (j2 + 1) (by omega) hjb
      simp only [Nat.add_sub_cancel] at h2
      omega
    · have hji : i = j2 + 1 := by omega
      rw [hji]

theorem sortedRange_small (key : α → Nat) [Inhabited α] (l : List α) (a b : Nat)
    (h : b ≤ a + 1) : sortedRange key l a b := by
  intro i j hai hij hjb
  have hji : i = j := by omega
  rw [hji]

theorem sortedRange_mono (key : α → Nat) [Inhabited α] (l : List α) (a b a2 b2 : Nat)
    (h : sortedRange key l a b) (ha : a ≤ a2) (hb : b2 ≤ b) :
    sortedRange key l a2 b2 := by
  intro i j hai hij hjb
  exact h i j (by omega) hij (by omega)

theorem geta_set_ne [Inhabited α] (l : List α) (i k : Nat) (x : α) (h : k ≠ i) :
    geta (l.set i x) k = geta l k := by
  unfold geta
  rcases Nat.lt_or_ge k l.length with hk | hk
  · rw [List.getD_eq_getElem _ _ (by simpa using hk), List.getD_eq_getElem _ _ hk,
      List.getElem_set_ne (by omega)]
  · rw [List.getD_eq_default _ _ (by simpa using hk), List.getD_eq_default _ _ hk]

theorem geta_set_self [Inhabited α] (l : List α) (i : Nat) (x : α) (h : i < l.length) :
    geta (l.set i x) i = x := by
  unfold geta
  rw [List.getD_eq_getElem _ _ (by simpa using h), List.getElem_set_self]

theorem geta_swapL_ne [Inhabited α] (l : List α) (i j k : Nat) (hi : k ≠ i) (hj : k ≠ j) :
    geta (swapL l i j) k = geta l k := by
  unfold swapL
  split
  · rw [geta_set_ne _ _ _ _ hj, geta_set_ne _ _ _ _ hi]
  · rfl

theorem geta_swapL_left [Inhabited α] (l : List α) (i j : Nat)
    (hi : i < l.length) (hj : j < l.length) :
    geta (swapL l i j) i = geta l j := by
  unfold swapL
  rw [if_pos ⟨hi, hj⟩]
  rcases eq_or_ne i j with he | hne
  · rw [he, geta_set_self _ _ _ (by simpa using hj)]
  · rw [geta_set_ne _ _ _ _ hne, geta_set_self _ _ _ hi]

theorem geta_swapL_right [Inhabited α] (l : List α) (i j : Nat)
    (hi : i < l.length) (hj : j < l.length) :
    geta (swapL l i j) j = geta l i := by
  unfold swapL
  rw [if_pos ⟨hi, hj⟩, geta_set_self _ _ _ (by simpa using hj)]

theorem length_swapL [Inhabited α] (l : List α) (i j : Nat) :
    (swapL l i j).length = l.length := by
  unfold swapL
  split
  · simp
  · rfl

/-- The slice of l covering positions [a, b). -/
def segSlice (l : List α) (a b : Nat) : List α := (l.drop a).take (b - a)

theorem geta_eq_getElem [Inhabited α] (l : List α) (i : Nat) (h : i < l.length) :
    geta l i = l[i] := by
  unfold geta
  exact List.getD_eq_getElem l default h

theorem segSlice_decomp (x : List α) (a b : Nat) (hab : a ≤ b) :
    x.take a ++ segSlice x a b ++ x.drop b = x := by
  unfold segSlice
  rw [List.append_assoc]
  have h1 : x.drop b = (x.drop a).drop (b - a) := by
    rw [List.drop_drop]
    congr 1
    omega
  rw [h1, List.take_append_drop, List.take_append_drop]

theorem segSlice_perm [Inhabited α] (l l2 : List α) (a b : Nat)
    (hp : l.Perm l2) (hab : a ≤ b)
    (hf : ∀ k, k < a ∨ b ≤ k → geta l2 k = geta l k) :
    (segSlice l a b).Perm (segSlice l2 a b) := by
  have hlen := hp.length_eq
  have hpre : l2.take a = l.take a := by
    apply List.ext_getElem
    · simp [hlen]
    · intro i h1 h2
      rw [List.getElem_take, List.getElem_take]
      have h3 : i < a := by
        rw [List.length_take] at h1
        omega
      have h4 := hf i (Or.inl h3)
      rw [geta_eq_getElem l2 i (by rw [List.length_take] at h1; omega),
        geta_eq_getElem l i (by rw [List.length_take] at h2; omega)] at h4
      exact h4
  have hpost : l2.drop b = l.drop b := by
    apply List.ext_getElem
    · simp [hlen]
    · intro i h1 h2
      rw [List.getElem_drop, List.getElem_drop]
      have h4 := hf (b + i) (Or.inr (by omega))
      rw [geta_eq_getElem l2 (b + i) (by rw [List.length_drop] at h1; omega),
        geta_eq_getElem l (b + i) (by rw [List.length_drop] at h2; omega)] at h4
      exact h4
  have hd1 := segSlice_decomp l a b hab
  have hd2 := segSlice_decomp l2 a b hab
  have hp2 : (l.take a ++ (segSlice l a b ++ l.drop b)).Perm
      (l.take a ++ (segSlice l2 a b ++ l.drop b)) := by
    rw [← List.append_assoc, ← List.append_assoc, hd1, ← hpre, ← hpost, hd2]
    exact hp
  have hp3 := (List.perm_append_left_iff (l.take a)).mp hp2
  exact (List.perm_append_right_iff (l.drop b)).mp hp3

theorem geta_mem_segSlice [Inhabited α] (l : List α) (a b k : Nat)
    (hak : a ≤ k) (hkb : k < b) (hbl : b ≤ l.length) :
    geta l k ∈ segSlice l a b := by
  unfold segSlice
  have hlen : k - a < ((l.drop a).take (b - a)).length := by
    rw [List.length_take, List.length_drop]
    omega
  have hval : ((l.drop a).take (b - a)).get (Fin.mk (k - a) hlen) = geta l k := by
    rw [List.get_eq_getElem]
    dsimp only
    rw [List.getElem_take, List.getElem_drop, geta_eq_getElem l k (by omega)]
    congr 1
    omega
  rw [← hval]
  exact List.get_mem _ _ _

theorem segSlice_mem_geta [Inhabited α] (l : List α) (a b : Nat) (x : α)
    (hx : x ∈ segSlice l a b) : ∃ k, a ≤ k ∧ k < b ∧ geta l k = x := by
  unfold segSlice at hx
  obtain ⟨idx, hidx, hval⟩ := List.mem_iff_getElem.mp hx
  have hb : idx < b - a ∧ a + idx < l.length := by
    rw [List.length_take, List.length_drop] at hidx
    omega
  refine ⟨a + idx, by omega, by omega, ?_⟩
  rw [List.getElem_take, List.getElem_drop] at hval
  rw [geta_eq_getElem l (a + idx) hb.2]
  exact hval

theorem range_pred_preserved [Inhabited α] (P : α → Prop) (l l2 : List α) (a b : Nat)
    (hp : l.Perm l2) (hf : ∀ k, k < a ∨ b ≤ k → geta l2 k = geta l k)
    (hbl : b ≤ l.length)
    (h : ∀ k, a ≤ k → k < b → P (geta l k)) :
    ∀ k, a ≤ k → k < b → P (geta l2 k) := by
  intro k hak hkb
  have hab : a ≤ b := by omega
  have hmem : geta l2 k ∈ segSlice l2 a b :=
    geta_mem_segSlice l2 a b k hak hkb (by rw [← hp.length_eq]; exact hbl)
  have hperm := segSlice_perm l l2 a b hp hab hf
  have hmem2 : geta l2 k ∈ segSlice l a b := hperm.mem_iff.mpr hmem
  obtain ⟨k0, hk0a, hk0b, hk0⟩ := segSlice_mem_geta l a b _ hmem2
  rw [← hk0]
  exact h k0 hk0a hk0b

theorem insertionSortInner_frame (key : α → Nat) [Inhabited α] (a : Nat) :
    ∀ j (l : List α) k, k < a ∨ j < k →
      geta (insertionSortInner key l a j) k = geta l k := by
  intro j
  induction j using Nat.strong_induction_on with
  | _ j ih =>
    intro l k hk
    rw [insertionSortInner]
    split
    · rename_i hc
      obtain ⟨hc1, hc2⟩ := hc
      rw [ih (j - 1) (by omega) (swapL l j (j - 1)) k (by omega),
        geta_swapL_ne _ _ _ _ (by omega) (by omega)]
    · rfl

theorem insertionSortOuter_frame (key : α → Nat) [Inhabited α] (a b : Nat) :
    ∀ m (l : List α) i k, b - i = m → k < a ∨ b ≤ k →
      geta (insertionSortOuter key l a b i) k = geta l k := by
  intro m
  induction m using Nat.strong_induction_on with
  | _ m ih =>
    intro l i k hm hk
    rw [insertionSortOuter]
    split
    · rename_i hi
      rw [ih (b - (i + 1)) (by omega) (insertionSortInner key l a i) (i + 1) k rfl hk,
        insertionSortInner_frame key a i l k (by omega)]
    · rfl

theorem siftDownGo_frame (key : α → Nat) [Inhabited α] (hi first : Nat) :
    ∀ m root (l : List α) k, hi - root = m → k < first ∨ first + hi ≤ k →
      geta (siftDownGo key l hi first root) k = geta l k := by
  intro m
  induction m using Nat.strong_induction_on with
  | _ m ih =>
    intro root l k hm hk
    rw [siftDownGo]
    split
    · rename_i hroot
      have hc1 := siftChild_gt key l hi first root
      have hc2 := siftChild_lt key l hi first root hroot
      split
      · rw [ih (hi - siftChild key l hi first root) (by omega) _ _ k rfl hk,
          geta_swapL_ne _ _ _ _ (by omega) (by omega)]
      · rfl
    · rfl

theorem heapBuild_frame (key : α → Nat) [Inhabited α] (hi first : Nat) :
    ∀ i (l : List α) k, k < first ∨ first + hi ≤ k →
      geta (heapBuild key l hi first i) k = geta l k := by
  intro i
  induction i using Nat.strong_induction_on with
  | _ i ih =>
    intro l k hk
    rw [heapBuild]
    split
    · exact siftDownGo_frame key hi first (hi - 0) 0 l k rfl hk
    · rename_i h0
      rw [ih (i - 1) (by omega) _ k hk,
        siftDownGo_frame key hi first (hi - i) i l k rfl hk]

theorem heapPop_frame (key : α → Nat) [Inhabited α] (first : Nat) :
    ∀ i (l : List α) k, k < first ∨ first + i + 1 ≤ k →
      geta (heapPop key l first i) k = geta l k := by
  intro i
  induction i using Nat.strong_induction_on with
  | _ i ih =>
    intro l k hk
    rw [heapPop]
    split
    · rename_i h0
      rw [h0] at hk ⊢
      rw [siftDownGo_frame key 0 first (0 - 0) 0 _ k rfl (by omega),
        geta_swapL_ne _ _ _ _ (by omega) (by omega)]
    · rename_i h0
      rw [ih (i - 1) (by omega) _ k (by omega),
        siftDownGo_frame key i first (i - 0) 0 _ k rfl (by omega),
        geta_swapL_ne _ _ _ _ (by omega) (by omega)]

theorem heapSortRange_frame (key : α → Nat) [Inhabited α] (l : List α) (a b : Nat)
    (hab : a < b) : ∀ k, k < a ∨ b ≤ k → geta (heapSortRange key l a b) k = geta l k := by
  intro k hk
  rw [heapSortRange,
    heapPop_frame key a (b - a - 1) _ k (by omega),
    heapBuild_frame key (b - a) a ((b - a - 1) / 2) l k (by omega)]

theorem reverseRangeGo_frame (key : α → Nat) [Inhabited α] :
    ∀ m i j (l : List α) k, j - i = m → k < i ∨ j < k →
      geta (reverseRangeGo key l i j) k = geta l k := by
  intro m
  induction m using Nat.strong_induction_on with
  | _ m ih =>
    intro i j l k hm hk
    rw [reverseRangeGo]
    split
    · rename_i hij
      rw [ih (j - 1 - (i + 1)) (by omega) (i + 1) (j - 1) _ k rfl (by omega),
        geta_swapL_ne _ _ _ _ (by omega) (by omega)]
    · rfl

theorem breakOther_lt (len r : Nat) (hlen : 1 ≤ len) :
    (if len ≤ (r &&& (2 ^ bitsLen len - 1)) then (r &&& (2 ^ bitsLen len - 1)) - len
     else (r &&& (2 ^ bitsLen len - 1))) < len := by
  have h1 : r &&& (2 ^ bitsLen len - 1) ≤ 2 ^ bitsLen len - 1 := Nat.and_le_right
  have h2 : 2 ^ bitsLen len ≤ 2 * len := by
    unfold bitsLen
    rw [if_neg (by omega), pow_succ]
    have h3 : 2 ^ Nat.log2 len ≤ len := Nat.log2_self_le (by omega)
    omega
  split <;> omega

theorem breakOne_frame (key : α → Nat) [Inhabited α] (l : List α)
    (a len idx i random k : Nat) (hlen : 1 ≤ len)
    (hin : a ≤ idx - 1 + i ∧ idx - 1 + i < a + len)
    (hk : k < a ∨ a + len ≤ k) :
    geta (breakOne key l a len idx i random).1 k = geta l k := by
  unfold breakOne
  apply geta_swapL_ne
  · omega
  · have ho := breakOther_lt len (xorshiftNext random) hlen
    omega

theorem breakPatternsK_frame (key : α → Nat) [Inhabited α] (l : List α) (a b : Nat) :
    ∀ k, k < a ∨ b ≤ k → geta (breakPatternsK key l a b) k = geta l k := by
  intro k hk
  unfold breakPatternsK
  dsimp only
  split
  · rename_i hlen
    have hb : a + (b - a) = b := by omega
    have hdiv : 2 ≤ (b - a) / 4 := by omega
    rw [breakOne_frame key _ a (b - a) (a + (b - a) / 4 * 2 - 1) 2 _ k (by omega)
        (by omega) (by omega),
      breakOne_frame key _ a (b - a) (a + (b - a) / 4 * 2 - 1) 1 _ k (by omega)
        (by omega) (by omega),
      breakOne_frame key l a (b - a) (a + (b - a) / 4 * 2 - 1) 0 _ k (by omega)
        (by omega) (by omega)]
  · rfl

theorem partitionLoopK_frame (key : α → Nat) [Inhabited α] (a : Nat) :
    ∀ m (l : List α) i j k, j + 1 - i = m → k < i ∨ j < k →
      geta (partitionLoopK key l a i j).2 k = geta l k := by
  intro m
  induction m using Nat.strong_induction_on with
  | _ m ih =>
    intro l i j k hm hk
    rw [partitionLoopK]
    have h1 := partAdvI_ge key l a (j + 1 - i) i j rfl
    have h2 := partAdvJ_le key l a (partAdvI key l a i j) j
    split
    · rfl
    · rename_i hc
      rw [ih ((partAdvJ key l a (partAdvI key l a i j) j - 1) + 1 -
            (partAdvI key l a i j + 1)) (by omega) _
          (partAdvI key l a i j + 1) (partAdvJ key l a (partAdvI key l a i j) j - 1)
          k rfl (by omega),
        geta_swapL_ne _ _ _ _ (by omega) (by omega)]

theorem partitionK_frame (key : α → Nat) [Inhabited α] (l : List α)
    (a b pivot : Nat) (hab : a + 1 ≤ b) (hp : a ≤ pivot ∧ pivot < b) :
    ∀ k, k < a ∨ b ≤ k → geta (partitionK key l a b pivot).2.2 k = geta l k := by
  intro k hk
  simp only [partitionK]
  have h1 := partAdvI_ge key (swapL l a pivot) a (b - 1 + 1 - (a + 1)) (a + 1) (b - 1) rfl
  have h2 := partAdvJ_le key (swapL l a pivot) a
    (partAdvI key (swapL l a pivot) a (a + 1) (b - 1)) (b - 1)
  have h3 : a ≤ partAdvJ key (swapL l a pivot) a
      (partAdvI key (swapL l a pivot) a (a + 1) (b - 1)) (b - 1) := by
    by_cases hcase : partAdvI key (swapL l a pivot) a (a + 1) (b - 1) ≤ b - 1
    · have := partAdvJ_ge key (swapL l a pivot) a (b - 1)
        (partAdvI key (swapL l a pivot) a (a + 1) (b - 1)) (by omega) (by omega)
      omega
    · rw [partAdvJ, if_neg]
      · omega
      · intro hcon
        exact hcase hcon.1
  split
  · rw [geta_swapL_ne _ _ _ _ (by omega) (by omega),
      geta_swapL_ne _ _ _ _ (by omega) (by omega)]
  · rename_i hc
    have h4 := partitionLoopK_fst_le key
      ((partAdvJ key (swapL l a pivot) a (partAdvI key (swapL l a pivot) a (a + 1) (b - 1)) (b - 1) - 1) + 1 -
        (partAdvI key (swapL l a pivot) a (a + 1) (b - 1) + 1))
      (swapL (swapL l a pivot) (partAdvI key (swapL l a pivot) a (a + 1) (b - 1))
        (partAdvJ key (swapL l a pivot) a (partAdvI key (swapL l a pivot) a (a + 1) (b - 1)) (b - 1)))
      a (partAdvI key (swapL l a pivot) a (a + 1) (b - 1) + 1)
      (partAdvJ key (swapL l a pivot) a (partAdvI key (swapL l a pivot) a (a + 1) (b - 1)) (b - 1) - 1) rfl
    have h5 := partitionLoopK_fst_ge key
      ((partAdvJ key (swapL l a pivot) a (partAdvI key (swapL l a pivot) a (a + 1) (b - 1)) (b - 1) - 1) + 1 -
        (partAdvI key (swapL l a pivot) a (a + 1) (b - 1) + 1))
      (swapL (swapL l a pivot) (partAdvI key (swapL l a pivot) a (a + 1) (b - 1))
        (partAdvJ key (swapL l a pivot) a (partAdvI key (swapL l a pivot) a (a + 1) (b - 1)) (b - 1)))
      a (partAdvI key (swapL l a pivot) a (a + 1) (b - 1) + 1)
      (partAdvJ key (swapL l a pivot) a (partAdvI key (swapL l a pivot) a (a + 1) (b - 1)) (b - 1) - 1)
      rfl (by omega) (by omega)
    rw [geta_swapL_ne _ _ _ _ (by omega) (by omega),
      partitionLoopK_frame key a
        ((partAdvJ key (swapL l a pivot) a (partAdvI key (swapL l a pivot) a (a + 1) (b - 1)) (b - 1) - 1) + 1 -
          (partAdvI key (swapL l a pivot) a (a + 1) (b - 1) + 1)) _
        (partAdvI key (swapL l a pivot) a (a + 1) (b - 1) + 1)
        (partAdvJ key (swapL l a pivot) a (partAdvI key (swapL l a pivot) a (a + 1) (b - 1)) (b - 1) - 1)
        k rfl (by omega),
      geta_swapL_ne _ _ _ _ (by omega) (by omega),
      geta_swapL_ne _ _ _ _ (by omega) (by omega)]

theorem partitionEqualLoopK_frame (key : α → Nat) [Inhabited α] (a : Nat) :
    ∀ m (l : List α) i j k, j + 1 - i = m → k < i ∨ j < k →
      geta (partitionEqualLoopK key l a i j).2 k = geta l k := by
  intro m
  induction m using Nat.strong_induction_on with
  | _ m ih =>
    intro l i j k hm hk
    rw [partitionEqualLoopK]
    have h1 := peqAdvI_ge key l a (j + 1 - i) i j rfl
    have h2 := peqAdvJ_le key l a (peqAdvI key l a i j) j
    split
    · rfl
    · rename_i hc
      rw [ih ((peqAdvJ key l a (peqAdvI key l a i j) j - 1) + 1 -
            (peqAdvI key l a i j + 1)) (by omega) _
          (peqAdvI key l a i j + 1) (peqAdvJ key l a (peqAdvI key l a i j) j - 1)
          k rfl (by omega),
        geta_swapL_ne _ _ _ _ (by omega) (by omega)]

theorem partitionEqualK_frame (key : α → Nat) [Inhabited α] (l : List α)
    (a b pivot : Nat) (hp : a ≤ pivot ∧ pivot < b) :
    ∀ k, k < a ∨ b ≤ k → geta (partitionEqualK key l a b pivot).2 k = geta l k := by
  intro k hk
  unfold partitionEqualK
  rw [partitionEqualLoopK_frame key a ((b - 1) + 1 - (a + 1)) _ (a + 1) (b - 1) k rfl
      (by omega),
    geta_swapL_ne _ _ _ _ (by omega) (by omega)]

theorem pisScan_ge (key : α → Nat) [Inhabited α] (l : List α) (b : Nat) :
    ∀ m i, b - i = m → i ≤ pisScan key l b i := by
  intro m
  induction m using Nat.strong_induction_on with
  | _ m ih =>
    intro i hm
    rw [pisScan]
    split
    · rename_i hc
      have := ih (b - (i + 1)) (by omega) (i + 1) rfl
      omega
    · omega

theorem pisScan_le (key : α → Nat) [Inhabited α] (l : List α) (b : Nat) :
    ∀ m i, b - i = m → i ≤ b → pisScan key l b i ≤ b := by
  intro m
  induction m using Nat.strong_induction_on with
  | _ m ih =>
    intro i hm hi
    rw [pisScan]
    split
    · rename_i hc
      exact ih (b - (i + 1)) (by omega) (i + 1) rfl (by omega)
    · omega

theorem pisScan_pairs (key : α → Nat) [Inhabited α] (l : List α) (b : Nat) :
    ∀ m i, b - i = m → ∀ k, i ≤ k → k < pisScan key l b i →
      lessK key l k (k - 1) = false := by
  intro m
  induction m using Nat.strong_induction_on with
  | _ m ih =>
    intro i hm k hik hk
    rw [pisScan] at hk
    split at hk
    · rename_i hc
      rcases Nat.lt_or_ge k (i + 1) with hki | hki
      · have hkeq : k = i := by omega
        rw [hkeq]
        exact hc.2
      · exact ih (b - (i + 1)) (by omega) (i + 1) rfl k hki hk
    · omega

theorem pisLeftShift_hi_frame (key : α → Nat) [Inhabited α] :
    ∀ j (l : List α) k, j < k → geta (pisLeftShift key l j) k = geta l k := by
  intro j
  induction j using Nat.strong_induction_on with
  | _ j ih =>
    intro l k hk
    rw [pisLeftShift]
    split
    · rename_i hc
      obtain ⟨hc1, hc2⟩ := hc
      rw [ih (j - 1) (by omega) _ k (by omega),
        geta_swapL_ne _ _ _ _ (by omega) (by omega)]
    · rfl

theorem pisLeftShift_low_frame (key : α → Nat) [Inhabited α] (a : Nat) (ha : 0 < a) :
    ∀ j (l : List α), a ≤ j → j < l.length →
      key (geta l (a - 1)) ≤ key (geta l j) →
      ∀ k, k < a → geta (pisLeftShift key l j) k = geta l k := by
  intro j
  induction j using Nat.strong_induction_on with
  | _ j ih =>
    intro l haj hjl hmov k hk
    rw [pisLeftShift]
    split
    · rename_i hc
      obtain ⟨hc1, hc2⟩ := hc
      have hja : j ≠ a := by
        intro hcon
        rw [lessK] at hc2
        simp only [decide_eq_true_eq] at hc2
        rw [hcon] at hc2
        rw [hcon] at hmov
        omega
      have hlen : (swapL l j (j - 1)).length = l.length := length_swapL l j (j - 1)
      rw [ih (j - 1) (by omega) (swapL l j (j - 1)) (by omega) (by omega) ?_ k hk,
        geta_swapL_ne _ _ _ _ (by omega) (by omega)]
      rw [geta_swapL_ne _ _ _ _ (by omega) (by omega),
        geta_swapL_right _ _ _ (by omega) (by omega)]
      exact hmov
    · rfl

theorem pisRightShift_frame (key : α → Nat) [Inhabited α] (b : Nat) :
    ∀ m j (l : List α) k, b - j = m → k < j - 1 ∨ b ≤ k →
      geta (pisRightShift key l b j) k = geta l k := by
  intro m
  induction m using Nat.strong_induction_on with
  | _ m ih =>
    intro j l k hm hk
    rw [pisRightShift]
    split
    · rename_i hc
      obtain ⟨hc1, hc2⟩ := hc
      rw [ih (b - (j + 1)) (by omega) (j + 1) _ k rfl (by omega),
        geta_swapL_ne _ _ _ _ (by omega) (by omega)]
    · rfl

theorem insertionSortInner_sorted (key : α → Nat) [Inhabited α] (a : Nat) :
    ∀ j (l : List α), j < l.length → sortedRange key l a j →
      sortedRange key (insertionSortInner key l a j) a (j + 1) := by
  intro j
  induction j using Nat.strong_induction_on with
  | _ j ih =>
    intro l hjl hs
    rw [insertionSortInner]
    split
    · rename_i hc
      obtain ⟨hc1, hc2⟩ := hc
      rw [lessK] at hc2
      simp only [decide_eq_true_eq] at hc2
      have hlen := length_swapL l j (j - 1)
      have hs1 : sortedRange key (swapL l j (j - 1)) a (j - 1) := by
        intro x y hax hxy hyb
        rw [geta_swapL_ne _ _ _ _ (by omega) (by omega),
          geta_swapL_ne _ _ _ _ (by omega) (by omega)]
        exact hs x y hax hxy (by omega)
      have hres := ih (j - 1) (by omega) (swapL l j (j - 1)) (by omega) hs1
      have hrj : geta (insertionSortInner key (swapL l j (j - 1)) a (j - 1)) j =
          geta l (j - 1) := by
        rw [insertionSortInner_frame key a (j - 1) _ j (by omega),
          geta_swapL_left _ _ _ (by omega) (by omega)]
      have hbound : ∀ k, a ≤ k → k < j →
          key (geta (insertionSortInner key (swapL l j (j - 1)) a (j - 1)) k) ≤
            key (geta l (j - 1)) := by
        apply range_pred_preserved (fun x => key x ≤ key (geta l (j - 1)))
          (swapL l j (j - 1)) _ a j
          (insertionSortInner_perm key a (j - 1) (swapL l j (j - 1))).symm
          (fun k hk => insertionSortInner_frame key a (j - 1) _ k (by omega))
          (by omega)
        intro k hak hkj
        rcases Nat.lt_or_ge k (j - 1) with hk1 | hk1
        · rw [geta_swapL_ne _ _ _ _ (by omega) (by omega)]
          exact hs k (j - 1) hak (by omega) (by omega)
        · have hkeq : k = j - 1 := by omega
          rw [hkeq, geta_swapL_right _ _ _ (by omega) (by omega)]
          omega
      intro x y hax hxy hyb
      rcases Nat.lt_or_ge y j with hyj | hyj
      · exact hres x y hax hxy (by omega)
      · have hyeq : y = j := by omega
        rw [hyeq, hrj]
        rcases Nat.lt_or_ge x j with hxj | hxj
        · exact hbound x hax hxj
        · have hxeq : x = j := by omega
          rw [hxeq, hrj]
    · rename_i hc
      intro x y hax hxy hyb
      rcases Nat.lt_or_ge y j with hyj | hyj
      · exact hs x y hax hxy hyj
      · have hyeq : y = j := by omega
        rcases Nat.lt_or_ge x j with hxj | hxj
        · have haj : a < j := by omega
          have hless : lessK key l j (j - 1) = false := by
            rcases Bool.eq_false_or_eq_true (lessK key l j (j - 1)) with h | h
            · exact absurd ⟨haj, h⟩ hc
            · exact h
          rw [lessK] at hless
          simp only [decide_eq_false_iff_not] at hless
          have h1 := hs x (j - 1) hax (by omega) (by omega)
          rw [hyeq]
          omega
        · have hxeq : x = j := by omega
          rw [hxeq, hyeq]

theorem insertionSortOuter_sorted (key : α → Nat) [Inhabited α] (a b : Nat) :
    ∀ m (l : List α) i, b - i = m → b ≤ l.length → a < i → sortedRange key l a i →
      sortedRange key (insertionSortOuter key l a b i) a b := by
  intro m
  induction m using Nat.strong_induction_on with
  | _ m ih =>
    intro l i hm hbl hai hs
    rw [insertionSortOuter]
    split
    · rename_i hi
      have hperm := insertionSortInner_perm key a i l
      apply ih (b - (i + 1)) (by omega) _ (i + 1) rfl
        (by rw [hperm.length_eq]; exact hbl) (by omega)
      exact insertionSortInner_sorted key a i l (by omega) hs
    · rename_i hi
      exact sortedRange_mono key l a i a b hs (by omega) (by omega)

theorem insertionSortRange_sorted (key : α → Nat) [Inhabited α] (l : List α)
    (a b : Nat) (hbl : b ≤ l.length) :
    sortedRange key (insertionSortRange key l a b) a b := by
  unfold insertionSortRange
  rcases Nat.lt_or_ge (a + 1) b with hab | hab
  · exact insertionSortOuter_sorted key a b (b - (a + 1)) l (a + 1) rfl hbl (by omega)
      (sortedRange_small key l a (a + 1) (by omega))
  · rw [insertionSortOuter, if_neg (by omega)]
    exact sortedRange_small key l a b (by omega)

/-- Membership of d in the binary-heap subtree rooted at r (indices with
parent (d-1)/2, children 2d+1 and 2d+2). -/
def inTree (r d : Nat) : Bool :=
  if d = r then true else if d ≤ r then false else inTree r ((d - 1) / 2)
termination_by d
decreasing_by omega

theorem inTree_self (r : Nat) : inTree r r = true := by
  rw [inTree]
  simp

theorem inTree_ge (r : Nat) : ∀ d, inTree r d = true → r ≤ d := by
  intro d
  induction d using Nat.strong_induction_on with
  | _ d ih =>
    intro h
    rw [inTree] at h
    split at h
    · omega
    · split at h
      · exact absurd h (by simp)
      · rename_i h1 h2
        have := ih ((d - 1) / 2) (by omega) h
        omega

theorem inTree_not_of_lt (r d : Nat) (h : d < r) : inTree r d = false := by
  rcases Bool.eq_false_or_eq_true (inTree r d) with h1 | h1
  · exact absurd (inTree_ge r d h1) (by omega)
  · exact h1

theorem inTree_child1 (r d : Nat) (h : inTree r d = true) :
    inTree r (2 * d + 1) = true := by
  have hge := inTree_ge r d h
  rw [inTree, if_neg (by omega), if_neg (by omega)]
  have he : (2 * d + 1 - 1) / 2 = d := by omega
  rw [he]
  exact h

theorem inTree_child2 (r d : Nat) (h : inTree r d = true) :
    inTree r (2 * d + 2) = true := by
  have hge := inTree_ge r d h
  rw [inTree, if_neg (by omega), if_neg (by omega)]
  have he : (2 * d + 2 - 1) / 2 = d := by omega
  rw [he]
  exact h

theorem inTree_parent (r d : Nat) (h : inTree r d = true) (hne : d ≠ r) :
    inTree r ((d - 1) / 2) = true ∧ r < d := by
  rw [inTree] at h
  rw [if_neg hne] at h
  split at h
  · exact absurd h (by simp)
  · rename_i h2
    exact ⟨h, by omega⟩

theorem inTree_trans (r s : Nat) (hrs : inTree r s = true) :
    ∀ d, inTree s d = true → inTree r d = true := by
  intro d
  induction d using Nat.strong_induction_on with
  | _ d ih =>
    intro h
    rcases eq_or_ne d s with he | hne
    · rw [he]
      exact hrs
    · obtain ⟨hp, hlt⟩ := inTree_parent s d h hne
      have hr := ih ((d - 1) / 2) (by omega) hp
      have hge : r ≤ (d - 1) / 2 := inTree_ge r _ hr
      rw [inTree, if_neg (by omega), if_neg (by omega)]
      exact hr

/-- The max-heap property over data[first:first+hi] for all nodes at or
above index s. -/
def heapAt (key : α → Nat) [Inhabited α] (l : List α) (first hi s : Nat) : Prop :=
  ∀ r, s ≤ r →
    (2 * r + 1 < hi → key (geta l (first + (2 * r + 1))) ≤ key (geta l (first + r))) ∧
    (2 * r + 2 < hi → key (geta l (first + (2 * r + 2))) ≤ key (geta l (first + r)))

theorem subtree_chain (key : α → Nat) [Inhabited α] (l : List α)
    (first hi s q : Nat) (hh : heapAt key l first hi s) (hsq : s ≤ q) :
    ∀ d, inTree q d = true → d < hi → key (geta l (first + d)) ≤ key (geta l (first + q)) := by
  intro d
  induction d using Nat.strong_induction_on with
  | _ d ih =>
    intro hd hdhi
    rcases eq_or_ne d q with he | hne
    · rw [he]
    · obtain ⟨hp, hlt⟩ := inTree_parent q d hd hne
      have hpq := inTree_ge q _ hp
      have hstep : key (geta l (first + d)) ≤ key (geta l (first + (d - 1) / 2)) := by
        have hcase : d = 2 * ((d - 1) / 2) + 1 ∨ d = 2 * ((d - 1) / 2) + 2 := by omega
        have hh2 := hh ((d - 1) / 2) (by omega)
        rcases hcase with hc | hc
        · have := hh2.1 (by omega)
          rw [← hc] at this
          exact this
        · have := hh2.2 (by omega)
          rw [← hc] at this
          exact this
      have := ih ((d - 1) / 2) (by omega) hp (by omega)
      omega

theorem siftDownGo_fine_frame (key : α → Nat) [Inhabited α] (hi first : Nat) :
    ∀ m root (l : List α) k, hi - root = m →
      (∀ d, inTree root d = true → d < hi → k ≠ first + d) →
      geta (siftDownGo key l hi first root) k = geta l k := by
  intro m
  induction m using Nat.strong_induction_on with
  | _ m ih =>
    intro root l k hm hk
    rw [siftDownGo]
    split
    · rename_i hroot
      have hc1 := siftChild_gt key l hi first root
      have hc2 := siftChild_lt key l hi first root hroot
      have hsc : inTree root (siftChild key l hi first root) = true := by
        unfold siftChild
        split
        · exact inTree_child2 root root (inTree_self root)
        · exact inTree_child1 root root (inTree_self root)
      split
      · rw [ih (hi - siftChild key l hi first root) (by omega) _ _ k rfl ?_,
          geta_swapL_ne _ _ _ _ ?_ ?_]
        · exact hk root (inTree_self root) (by omega)
        · exact hk (siftChild key l hi first root) hsc (by omega)
        · intro d hd hdhi
          exact hk d (inTree_trans root _ hsc d hd) hdhi
      · rfl
    · rfl

theorem inTree_sibling_false (root sc c : Nat)
    (hsc : sc = 2 * root + 1 ∨ sc = 2 * root + 2)
    (hc : c = 2 * root + 1 ∨ c = 2 * root + 2) (hne : c ≠ sc) :
    inTree sc c = false := by
  rcases hsc with h1 | h1 <;> rcases hc with h2 | h2
  · exact absurd (by omega) hne
  · rw [inTree, if_neg (by omega), if_neg (by omega)]
    have he : (c - 1) / 2 = root := by omega
    rw [he]
    exact inTree_not_of_lt sc root (by omega)
  · exact inTree_not_of_lt sc c (by omega)
  · exact absurd (by omega) hne

theorem inTree_above_child_false (sc r c : Nat) (hr : r < sc)
    (hc : (c - 1) / 2 = r) (hgt : sc < c) : inTree sc c = false := by
  rw [inTree, if_neg (by omega), if_neg (by omega), hc]
  exact inTree_not_of_lt sc r hr

theorem siftChild_cases (key : α → Nat) [Inhabited α] (l : List α)
    (hi first root : Nat) :
    (siftChild key l hi first root = 2 * root + 1 ∧
      (2 * root + 2 < hi →
        ¬(key (geta l (first + (2 * root + 1))) < key (geta l (first + (2 * root + 2)))))) ∨
    (siftChild key l hi first root = 2 * root + 2 ∧ 2 * root + 2 < hi ∧
      key (geta l (first + (2 * root + 1))) < key (geta l (first + (2 * root + 2)))) := by
  unfold siftChild
  split
  · rename_i h
    obtain ⟨h1, h2⟩ := h
    rw [lessK] at h2
    simp only [decide_eq_true_eq] at h2
    exact Or.inr ⟨rfl, h1, h2⟩
  · rename_i h
    left
    refine ⟨rfl, ?_⟩
    intro hh hcon
    exact h ⟨hh, by rw [lessK]; simp only [decide_eq_true_eq]; exact hcon⟩

theorem siftDownGo_spec (key : α → Nat) [Inhabited α] (hi first : Nat) :
    ∀ m root (l : List α), hi - root = m → first + hi ≤ l.length →
      heapAt key l first hi (root + 1) →
      heapAt key (siftDownGo key l hi first root) first hi root ∧
      (∀ v, root < hi →
        (∀ d, inTree root d = true → d < hi → key (geta l (first + d)) ≤ v) →
        key (geta (siftDownGo key l hi first root) (first + root)) ≤ v) := by
  intro m
  induction m using Nat.strong_induction_on with
  | _ m ih =>
    intro root l hm hlen hh
    rw [siftDownGo]
    split
    · rename_i hroot
      have hcgt := siftChild_gt key l hi first root
      have hclt := siftChild_lt key l hi first root hroot
      have hscin : inTree root (siftChild key l hi first root) = true := by
        rcases siftChild_cases key l hi first root with ⟨h1, _⟩ | ⟨h1, _, _⟩
        · rw [h1]
          exact inTree_child1 root root (inTree_self root)
        · rw [h1]
          exact inTree_child2 root root (inTree_self root)
      split
      · rename_i hless
        rw [lessK] at hless
        simp only [decide_eq_true_eq] at hless
        have hlen1 : (swapL l (first + root)
            (first + siftChild key l hi first root)).length = l.length :=
          length_swapL _ _ _
        have hh1 : heapAt key
            (swapL l (first + root) (first + siftChild key l hi first root))
            first hi (siftChild key l hi first root + 1) := by
          intro r hr
          constructor
          · intro hch
            rw [geta_swapL_ne _ _ _ _ (by omega) (by omega),
              geta_swapL_ne _ _ _ _ (by omega) (by omega)]
            exact (hh r (by omega)).1 hch
          · intro hch
            rw [geta_swapL_ne _ _ _ _ (by omega) (by omega),
              geta_swapL_ne _ _ _ _ (by omega) (by omega)]
            exact (hh r (by omega)).2 hch
        obtain ⟨hh2, hv2⟩ := ih (hi - siftChild key l hi first root) (by omega)
          (siftChild key l hi first root) _ rfl (by rw [hlen1]; exact hlen) hh1
        have hfine : ∀ c, inTree (siftChild key l hi first root) c = false →
            c ≠ root → c ≠ siftChild key l hi first root →
            geta (siftDownGo key
              (swapL l (first + root) (first + siftChild key l hi first root))
              hi first (siftChild key l hi first root)) (first + c) = geta l (first + c) := by
          intro c hcex hc1 hc2
          rw [siftDownGo_fine_frame key hi first (hi - siftChild key l hi first root)
              _ _ _ rfl ?_,
            geta_swapL_ne _ _ _ _ (by omega) (by omega)]
          intro d hd hdhi hcon
          have hcd : c = d := by omega
          rw [← hcd] at hd
          rw [hd] at hcex
          exact Bool.noConfusion hcex
        have hrootval : geta (siftDownGo key
            (swapL l (first + root) (first + siftChild key l hi first root))
            hi first (siftChild key l hi first root)) (first + root) =
            geta l (first + siftChild key l hi first root) := by
          rw [siftDownGo_fine_frame key hi first (hi - siftChild key l hi first root)
              _ _ _ rfl ?_,
            geta_swapL_left _ _ _ (by omega) (by omega)]
          intro d hd hdhi
          have := inTree_ge _ _ hd
          omega
        have hscbound : ∀ d, inTree (siftChild key l hi first root) d = true → d < hi →
            key (geta (swapL l (first + root) (first + siftChild key l hi first root))
              (first + d)) ≤ key (geta l (first + siftChild key l hi first root)) := by
          intro d hd hdhi
          rcases eq_or_ne d (siftChild key l hi first root) with hde | hdne
          · rw [hde, geta_swapL_right _ _ _ (by omega) (by omega)]
            omega
          · have hdgt : siftChild key l hi first root < d := by
              have := inTree_ge _ _ hd
              omega
            rw [geta_swapL_ne _ _ _ _ (by omega) (by omega)]
            exact subtree_chain key l first hi (root + 1)
              (siftChild key l hi first root) hh (by omega) d hd hdhi
        have hscval : key (geta (siftDownGo key
            (swapL l (first + root) (first + siftChild key l hi first root))
            hi first (siftChild key l hi first root))
            (first + siftChild key l hi first root)) ≤
            key (geta l (first + siftChild key l hi first root)) :=
          hv2 _ (by omega) hscbound
        constructor
        · intro r hr
          rcases Nat.lt_or_ge r (siftChild key l hi first root) with hrsc | hrsc
          · rcases eq_or_ne r root with hre | hrne
            · rw [hre]
              rcases siftChild_cases key l hi first root with ⟨h1, h2⟩ | ⟨h1, h2, h3⟩
              · constructor
                · intro hch
                  rw [hrootval]
                  have hgoal : geta (siftDownGo key
                      (swapL l (first + root) (first + siftChild key l hi first root))
                      hi first (siftChild key l hi first root)) (first + (2 * root + 1)) =
                      geta (siftDownGo key
                      (swapL l (first + root) (first + siftChild key l hi first root))
                      hi first (siftChild key l hi first root))
                        (first + siftChild key l hi first root) := by
                    rw [h1]
                  rw [hgoal]
                  exact hscval
                · intro hch
                  rw [hrootval]
                  have hex : inTree (siftChild key l hi first root) (2 * root + 2) = false := by
                    apply inTree_sibling_false root _ _ (Or.inl h1) (Or.inr rfl)
                    omega
                  rw [hfine (2 * root + 2) hex (by omega) (by omega)]
                  have h4 := h2 hch
                  rw [h1]
                  omega
              · constructor
                · intro hch
                  rw [hrootval]
                  have hex : inTree (siftChild key l hi first root) (2 * root + 1) = false := by
                    apply inTree_sibling_false root _ _ (Or.inr h1) (Or.inl rfl)
                    omega
                  rw [hfine (2 * root + 1) hex (by omega) (by omega)]
                  rw [h1]
                  omega
                · intro hch
                  rw [hrootval]
                  have hgoal : geta (siftDownGo key
                      (swapL l (first + root) (first + siftChild key l hi first root))
                      hi first (siftChild key l hi first root)) (first + (2 * root + 2)) =
                      geta (siftDownGo key
                      (swapL l (first + root) (first + siftChild key l hi first root))
                      hi first (siftChild key l hi first root))
                        (first + siftChild key l hi first root) := by
                    rw [h1]
                  rw [hgoal]
                  exact hscval
            · have hscle : siftChild key l hi first root ≤ 2 * root + 2 := by
                rcases siftChild_cases key l hi first root with ⟨h1, _⟩ | ⟨h1, _, _⟩ <;> omega
              have hrex : inTree (siftChild key l hi first root) r = false :=
                inTree_not_of_lt _ _ hrsc
              constructor
              · intro hch
                rw [hfine r hrex (by omega) (by omega),
                  hfine (2 * r + 1) (inTree_above_child_false _ r _ hrsc (by omega) (by omega))
                    (by omega) (by omega)]
                exact (hh r (by omega)).1 hch
              · intro hch
                rw [hfine r hrex (by omega) (by omega),
                  hfine (2 * r + 2) (inTree_above_child_false _ r _ hrsc (by omega) (by omega))
                    (by omega) (by omega)]
                exact (hh r (by omega)).2 hch
          · exact hh2 r hrsc
        · intro v hvhi hv
          rw [hrootval]
          exact hv (siftChild key l hi first root) hscin (by omega)
      · rename_i hless
        have hle : ¬(key (geta l (first + root)) <
            key (geta l (first + siftChild key l hi first root))) := by
          intro hcon
          exact hless (by rw [lessK]; simp only [decide_eq_true_eq]; exact hcon)
        constructor
        · intro r hr
          rcases eq_or_ne r root with hre | hrne
          · rw [hre]
            rcases siftChild_cases key l hi first root with ⟨h1, h2⟩ | ⟨h1, h2, h3⟩
            · rw [h1] at hle
              constructor
              · intro hch
                omega
              · intro hch
                have h4 := h2 hch
                omega
            · rw [h1] at hle
              constructor
              · intro hch
                omega
              · intro hch
                omega
          · exact hh r (by omega)
        · intro v hvhi hv
          exact hv root (inTree_self root) hvhi
    · rename_i hroot
      constructor
      · intro r hr
        rcases eq_or_ne r root with hre | hrne
        · rw [hre]
          exact ⟨fun hch => absurd hch hroot, fun hch => absurd hch (by omega)⟩
        · exact hh r (by omega)
      · intro v hvhi hv
        exact hv root (inTree_self root) hvhi

theorem inTree_zero : ∀ d, inTree 0 d = true := by
  intro d
  induction d using Nat.strong_induction_on with
  | _ d ih =>
    rcases eq_or_ne d 0 with he | hne
    · rw [he]
      exact inTree_self 0
    · rw [inTree, if_neg hne, if_neg (by omega)]
      exact ih ((d - 1) / 2) (by omega)

theorem heapBuild_spec (key : α → Nat) [Inhabited α] (hi first : Nat) :
    ∀ i (l : List α), first + hi ≤ l.length → heapAt key l first hi (i + 1) →
      heapAt key (heapBuild key l hi first i) first hi 0 := by
  intro i
  induction i using Nat.strong_induction_on with
  | _ i ih =>
    intro l hlen hh
    rw [heapBuild]
    split
    · rename_i h0
      rw [h0] at hh
      exact (siftDownGo_spec key hi first (hi - 0) 0 l rfl hlen hh).1
    · rename_i h0
      have hsd := siftDownGo_spec key hi first (hi - i) i l rfl hlen hh
      exact ih (i - 1) (by omega) _
        (by rw [(siftDownGo_perm key hi first (hi - i) i l rfl).length_eq]; exact hlen)
        (fun r hr => hsd.1 r (by omega))

theorem heapPop_spec (key : α → Nat) [Inhabited α] (first bEnd : Nat) :
    ∀ i (l : List α), first + i + 1 ≤ bEnd → bEnd ≤ l.length →
      heapAt key l first (i + 1) 0 →
      (∀ k, first + i < k → k + 1 < bEnd → key (geta l k) ≤ key (geta l (k + 1))) →
      (∀ r s, r ≤ i → first + i < s → s < bEnd →
        key (geta l (first + r)) ≤ key (geta l s)) →
      ∀ k, first ≤ k → k + 1 < bEnd →
        key (geta (heapPop key l first i) k) ≤ key (geta (heapPop key l first i) (k + 1)) := by
  intro i
  induction i using Nat.strong_induction_on with
  | _ i ih =>
    intro l hib hbl hh hp2 hp3
    rw [heapPop]
    split
    · rename_i h0
      have hpoint : ∀ k2, geta (siftDownGo key (swapL l first (first + i)) i first 0) k2 =
          geta l k2 := by
        intro k2
        rw [siftDownGo, dif_neg (by omega)]
        rcases eq_or_ne k2 first with he | hne
        · rw [he]
          have h1 : first + i = first := by omega
          rw [h1, geta_swapL_left _ _ _ (by omega) (by omega)]
        · rw [geta_swapL_ne _ _ _ _ (by omega) (by omega)]
      intro k hk hkb
      rw [hpoint k, hpoint (k + 1)]
      rcases eq_or_ne k first with he | hne
      · rw [he]
        have := hp3 0 (first + 1) (by omega) (by omega) (by omega)
        have h1 : first + 0 = first := rfl
        rw [h1] at this
        exact this
      · exact hp2 k (by omega) hkb
    · rename_i h0
      have hmax : ∀ d, d ≤ i → key (geta l (first + d)) ≤ key (geta l (first + 0)) := by
        intro d hd
        exact subtree_chain key l first (i + 1) 0 0 hh (by omega) d (inTree_zero d)
          (by omega)
      have hlen1 : (swapL l first (first + i)).length = l.length := length_swapL _ _ _
      have hv1l : geta (swapL l first (first + i)) first = geta l (first + i) :=
        geta_swapL_left _ _ _ (by omega) (by omega)
      have hv1r : geta (swapL l first (first + i)) (first + i) = geta l first :=
        geta_swapL_right _ _ _ (by omega) (by omega)
      have hh1 : heapAt key (swapL l first (first + i)) first i 1 := by
        intro r hr
        constructor
        · intro hch
          rw [geta_swapL_ne _ _ _ _ (by omega) (by omega),
            geta_swapL_ne _ _ _ _ (by omega) (by omega)]
          exact (hh r (by omega)).1 (by omega)
        · intro hch
          rw [geta_swapL_ne _ _ _ _ (by omega) (by omega),
            geta_swapL_ne _ _ _ _ (by omega) (by omega)]
          exact (hh r (by omega)).2 (by omega)
      have hsd := siftDownGo_spec key i first (i - 0) 0 (swapL l first (first + i)) rfl
        (by omega) hh1
      have hsframe : ∀ k2, first + i ≤ k2 →
          geta (siftDownGo key (swapL l first (first + i)) i first 0) k2 =
          geta (swapL l first (first + i)) k2 :=
        fun k2 hk2 => siftDownGo_frame key i first (i - 0) 0 _ k2 rfl (by omega)
      have hp2' : ∀ k, first + (i - 1) < k → k + 1 < bEnd →
          key (geta (siftDownGo key (swapL l first (first + i)) i first 0) k) ≤
          key (geta (siftDownGo key (swapL l first (first + i)) i first 0) (k + 1)) := by
        intro k hk hkb
        rw [hsframe k (by omega), hsframe (k + 1) (by omega)]
        rcases eq_or_ne k (first + i) with he | hne
        · rw [he, hv1r, geta_swapL_ne _ _ _ _ (by omega) (by omega)]
          have := hp3 0 (first + i + 1) (by omega) (by omega) (by omega)
          have h1 : first + 0 = first := rfl
          rw [h1] at this
          exact this
        · rw [geta_swapL_ne _ _ _ _ (by omega) (by omega),
            geta_swapL_ne _ _ _ _ (by omega) (by omega)]
          exact hp2 k (by omega) hkb
      have hp3' : ∀ r s, r ≤ i - 1 → first + (i - 1) < s → s < bEnd →
          key (geta (siftDownGo key (swapL l first (first + i)) i first 0) (first + r)) ≤
          key (geta (siftDownGo key (swapL l first (first + i)) i first 0) s) := by
        intro r s hr hs hsb
        have hsval : geta (siftDownGo key (swapL l first (first + i)) i first 0) s =
            geta (swapL l first (first + i)) s := hsframe s (by omega)
        rw [hsval]
        have hbound : ∀ k2, first ≤ k2 → k2 < first + i →
            key (geta (siftDownGo key (swapL l first (first + i)) i first 0) k2) ≤
            key (geta (swapL l first (first + i)) s) := by
          apply range_pred_preserved
            (fun x => key x ≤ key (geta (swapL l first (first + i)) s))
            (swapL l first (first + i)) _ first (first + i)
            (siftDownGo_perm key i first (i - 0) 0 _ rfl).symm
            (fun k2 hk2 => siftDownGo_frame key i first (i - 0) 0 _ k2 rfl (by omega))
            (by omega)
          intro k2 hk2a hk2b
          rcases eq_or_ne s (first + i) with hse | hsne
          · rw [hse, hv1r]
            rcases eq_or_ne k2 first with he2 | hne2
            · rw [he2, hv1l]
              exact hmax i (by omega)
            · rw [geta_swapL_ne _ _ _ _ (by omega) (by omega)]
              have h2 : k2 = first + (k2 - first) := by omega
              rw [h2]
              exact hmax (k2 - first) (by omega)
          · rw [geta_swapL_ne l first (first + i) s (by omega) (by omega)]
            rcases eq_or_ne k2 first with he2 | hne2
            · rw [he2, hv1l]
              exact hp3 i s (by omega) (by omega) hsb
            · rw [geta_swapL_ne _ _ _ _ (by omega) (by omega)]
              have h2 : k2 = first + (k2 - first) := by omega
              rw [h2]
              exact hp3 (k2 - first) s (by omega) (by omega) hsb
        exact hbound (first + r) (by omega) (by omega)
      exact ih (i - 1) (by omega) _ (by omega)
        (by rw [(siftDownGo_perm key i first (i - 0) 0 _ rfl).length_eq, hlen1]; exact hbl)
        (fun r hr => ⟨fun h => (hsd.1 r (by omega)).1 (by omega),
          fun h => (hsd.1 r (by omega)).2 (by omega)⟩)
        hp2' hp3'

theorem heapSortRange_sorted (key : α → Nat) [Inhabited α] (l : List α) (a b : Nat)
    (hab : a < b) (hbl : b ≤ l.length) :
    sortedRange key (heapSortRange key l a b) a b := by
  unfold heapSortRange
  have hbuild : heapAt key (heapBuild key l (b - a) a ((b - a - 1) / 2)) a (b - a) 0 := by
    apply heapBuild_spec key (b - a) a ((b - a - 1) / 2) l (by omega)
    intro r hr
    exact ⟨fun h => absurd h (by omega), fun h => absurd h (by omega)⟩
  have hlen1 := (heapBuild_perm key (b - a) a ((b - a - 1) / 2) l).length_eq
  have hpairs := heapPop_spec key a b (b - a - 1)
    (heapBuild key l (b - a) a ((b - a - 1) / 2)) (by omega) (by omega)
    (fun r hr => ⟨fun h => (hbuild r hr).1 (by omega), fun h => (hbuild r hr).2 (by omega)⟩)
    (fun k hk hkb => absurd hkb (by omega))
    (fun r s hr hs hsb => absurd hsb (by omega))
  apply sortedRange_of_adjacent
  intro k hak hkb
  have := hpairs (k - 1) (by omega) (by omega)
  have he : k - 1 + 1 = k := by omega
  rw [he] at this
  exact this

theorem partAdvI_spec (key : α → Nat) [Inhabited α] (l : List α) (a : Nat) :
    ∀ m i j, j + 1 - i = m →
      (∀ k, i ≤ k → k < partAdvI key l a i j → lessK key l k a = true) ∧
      (partAdvI key l a i j ≤ j → lessK key l (partAdvI key l a i j) a = false) := by
  intro m
  induction m using Nat.strong_induction_on with
  | _ m ih =>
    intro i j hm
    rw [partAdvI]
    split
    · rename_i hc
      obtain ⟨hc1, hc2⟩ := hc
      obtain ⟨ihb, ihc⟩ := ih (j + 1 - (i + 1)) (by omega) (i + 1) j rfl
      constructor
      · intro k hk hklt
        rcases eq_or_ne k i with he | hne
        · rw [he]
          exact hc2
        · exact ihb k (by omega) hklt
      · exact ihc
    · rename_i hc
      constructor
      · intro k hk hklt
        omega
      · intro hij
        rcases Bool.eq_false_or_eq_true (lessK key l i a) with h | h
        · exact absurd ⟨hij, h⟩ hc
        · exact h

theorem partAdvJ_spec (key : α → Nat) [Inhabited α] (l : List α) (a : Nat) :
    ∀ j i,
      (∀ k, partAdvJ key l a i j < k → k ≤ j → lessK key l k a = false) ∧
      (1 ≤ i → i ≤ partAdvJ key l a i j → lessK key l (partAdvJ key l a i j) a = true) := by
  intro j
  induction j using Nat.strong_induction_on with
  | _ j ih =>
    intro i
    rw [partAdvJ]
    split
    · rename_i hc
      obtain ⟨hc1, hc2⟩ := hc
      split
      · rename_i h0
        constructor
        · intro k hk hkj
          omega
        · intro h1 h2
          omega
      · rename_i h0
        obtain ⟨ihb, ihc⟩ := ih (j - 1) (by omega) i
        constructor
        · intro k hk hkj
          rcases eq_or_ne k j with he | hne
          · rw [he]
            exact hc2
          · exact ihb k hk (by omega)
        · exact ihc
    · rename_i hc
      constructor
      · intro k hk hkj
        omega
      · intro h1 h2
        rcases Bool.eq_false_or_eq_true (lessK key l j a) with h | h
        · exact h
        · exact absurd ⟨h2, h⟩ hc

theorem partitionLoopK_spec (key : α → Nat) [Inhabited α] (a B : Nat) :
    ∀ m (l : List α) i j, j + 1 - i = m → a + 1 ≤ i → j ≤ B → B + 1 ≤ l.length →
      (∀ k, a < k → k < i → key (geta l k) < key (geta l a)) →
      (∀ k, j < k → k ≤ B → key (geta l a) ≤ key (geta l k)) →
      (∀ k, a < k → k ≤ (partitionLoopK key l a i j).1 →
        key (geta (partitionLoopK key l a i j).2 k) <
          key (geta (partitionLoopK key l a i j).2 a)) ∧
      (∀ k, (partitionLoopK key l a i j).1 < k → k ≤ B →
        key (geta (partitionLoopK key l a i j).2 a) ≤
          key (geta (partitionLoopK key l a i j).2 k)) ∧
      geta (partitionLoopK key l a i j).2 a = geta l a := by
  intro m
  induction m using Nat.strong_induction_on with
  | _ m ih =>
    intro l i j hm hai hjB hBl hleft hright
    rw [partitionLoopK]
    have hig := partAdvI_ge key l a (j + 1 - i) i j rfl
    have hjle := partAdvJ_le key l a (partAdvI key l a i j) j
    obtain ⟨hIb, hIc⟩ := partAdvI_spec key l a (j + 1 - i) i j rfl
    obtain ⟨hJb, hJc⟩ := partAdvJ_spec key l a j (partAdvI key l a i j)
    have hleft1 : ∀ k, a < k → k < partAdvI key l a i j →
        key (geta l k) < key (geta l a) := by
      intro k hk hklt
      rcases Nat.lt_or_ge k i with hki | hki
      · exact hleft k hk hki
      · have := hIb k hki hklt
        rw [lessK] at this
        simp only [decide_eq_true_eq] at this
        exact this
    have hright1 : ∀ k, partAdvJ key l a (partAdvI key l a i j) j < k → k ≤ B →
        key (geta l a) ≤ key (geta l k) := by
      intro k hk hkB
      rcases Nat.lt_or_ge j k with hjk | hjk
      · exact hright k hjk hkB
      · have := hJb k hk (by omega)
        rw [lessK] at this
        simp only [decide_eq_false_iff_not] at this
        omega
    split
    · rename_i hij
      exact ⟨fun k hk hk1 => hleft1 k hk (by omega),
        fun k hk hkB => hright1 k hk hkB, rfl⟩
    · rename_i hij
      have hi1j : partAdvI key l a i j ≤ j := by omega
      have hIc2 := hIc hi1j
      rw [lessK] at hIc2
      simp only [decide_eq_false_iff_not] at hIc2
      have hJc2 := hJc (by omega) (by omega)
      rw [lessK] at hJc2
      simp only [decide_eq_true_eq] at hJc2
      have hpa : geta (swapL l (partAdvI key l a i j)
          (partAdvJ key l a (partAdvI key l a i j) j)) a = geta l a := by
        rw [geta_swapL_ne _ _ _ _ (by omega) (by omega)]
      have hlefts : ∀ k, a < k → k < partAdvI key l a i j + 1 →
          key (geta (swapL l (partAdvI key l a i j)
            (partAdvJ key l a (partAdvI key l a i j) j)) k) <
          key (geta (swapL l (partAdvI key l a i j)
            (partAdvJ key l a (partAdvI key l a i j) j)) a) := by
        intro k hk hklt
        rw [hpa]
        rcases eq_or_ne k (partAdvI key l a i j) with he | hne
        · rw [he, geta_swapL_left _ _ _ (by omega) (by omega)]
          omega
        · rw [geta_swapL_ne _ _ _ _ (by omega) (by omega)]
          exact hleft1 k hk (by omega)
      have hrights : ∀ k, partAdvJ key l a (partAdvI key l a i j) j - 1 < k → k ≤ B →
          key (geta (swapL l (partAdvI key l a i j)
            (partAdvJ key l a (partAdvI key l a i j) j)) a) ≤
          key (geta (swapL l (partAdvI key l a i j)
            (partAdvJ key l a (partAdvI key l a i j) j)) k) := by
        intro k hk hkB
        rw [hpa]
        rcases eq_or_ne k (partAdvJ key l a (partAdvI key l a i j) j) with he | hne
        · rw [he, geta_swapL_right _ _ _ (by omega) (by omega)]
          omega
        · rw [geta_swapL_ne _ _ _ _ (by omega) (by omega)]
          exact hright1 k (by omega) hkB
      obtain ⟨rl, rr, rp⟩ := ih ((partAdvJ key l a (partAdvI key l a i j) j - 1) + 1 -
          (partAdvI key l a i j + 1)) (by omega)
        (swapL l (partAdvI key l a i j) (partAdvJ key l a (partAdvI key l a i j) j))
        (partAdvI key l a i j + 1) (partAdvJ key l a (partAdvI key l a i j) j - 1)
        rfl (by omega) (by omega) (by rw [length_swapL]; exact hBl)
        hlefts hrights
      refine ⟨rl, rr, ?_⟩
      rw [rp, hpa]

theorem partitionK_spec (key : α → Nat) [Inhabited α] (l : List α) (a b pivot : Nat)
    (hab : a + 1 ≤ b) (hp : a ≤ pivot ∧ pivot < b) (hbl : b ≤ l.length) :
    (∀ k, a ≤ k → k < (partitionK key l a b pivot).1 →
      key (geta (partitionK key l a b pivot).2.2 k) ≤
        key (geta (partitionK key l a b pivot).2.2 (partitionK key l a b pivot).1)) ∧
    (∀ k, (partitionK key l a b pivot).1 < k → k < b →
      key (geta (partitionK key l a b pivot).2.2 (partitionK key l a b pivot).1) ≤
        key (geta (partitionK key l a b pivot).2.2 k)) := by
  simp only [partitionK]
  have hl0 : (swapL l a pivot).length = l.length := length_swapL l a pivot
  have hig := partAdvI_ge key (swapL l a pivot) a (b - 1 + 1 - (a + 1)) (a + 1) (b - 1) rfl
  have hile := partAdvI_le key (swapL l a pivot) a (b - 1 + 1 - (a + 1)) (a + 1) (b - 1)
    rfl (by omega)
  have hjle := partAdvJ_le key (swapL l a pivot) a
    (partAdvI key (swapL l a pivot) a (a + 1) (b - 1)) (b - 1)
  have hjge : a ≤ partAdvJ key (swapL l a pivot) a
      (partAdvI key (swapL l a pivot) a (a + 1) (b - 1)) (b - 1) := by
    by_cases hcase : partAdvI key (swapL l a pivot) a (a + 1) (b - 1) ≤ b - 1
    · have := partAdvJ_ge key (swapL l a pivot) a (b - 1)
        (partAdvI key (swapL l a pivot) a (a + 1) (b - 1)) (by omega) (by omega)
      omega
    · rw [partAdvJ, if_neg]
      · omega
      · intro hcon
        exact hcase hcon.1
  obtain ⟨hIb, hIc⟩ := partAdvI_spec key (swapL l a pivot) a (b - 1 + 1 - (a + 1))
    (a + 1) (b - 1) rfl
  obtain ⟨hJb, hJc⟩ := partAdvJ_spec key (swapL l a pivot) a (b - 1)
    (partAdvI key (swapL l a pivot) a (a + 1) (b - 1))
  have hleft1 : ∀ k, a < k → k < partAdvI key (swapL l a pivot) a (a + 1) (b - 1) →
      key (geta (swapL l a pivot) k) < key (geta (swapL l a pivot) a) := by
    intro k hk hklt
    have := hIb k (by omega) hklt
    rw [lessK] at this
    simp only [decide_eq_true_eq] at this
    exact this
  have hright1 : ∀ k, partAdvJ key (swapL l a pivot) a
      (partAdvI key (swapL l a pivot) a (a + 1) (b - 1)) (b - 1) < k → k ≤ b - 1 →
      key (geta (swapL l a pivot) a) ≤ key (geta (swapL l a pivot) k) := by
    intro k hk hkB
    have := hJb k hk (by omega)
    rw [lessK] at this
    simp only [decide_eq_false_iff_not] at this
    omega
  split
  · rename_i hij
    dsimp only
    constructor
    · intro k hk hklt
      rw [geta_swapL_left _ _ _ (by omega) (by omega)]
      rcases eq_or_ne k a with he | hne
      · rw [he, geta_swapL_right _ _ _ (by omega) (by omega)]
        have := hleft1 (partAdvJ key (swapL l a pivot) a
          (partAdvI key (swapL l a pivot) a (a + 1) (b - 1)) (b - 1)) (by omega) (by omega)
        omega
      · rw [geta_swapL_ne _ _ _ _ (by omega) hne]
        have := hleft1 k (by omega) (by omega)
        omega
    · intro k hk hkb
      rw [geta_swapL_ne (swapL l a pivot)
          (partAdvJ key (swapL l a pivot) a
            (partAdvI key (swapL l a pivot) a (a + 1) (b - 1)) (b - 1)) a k
          (by omega) (by omega),
        geta_swapL_left _ _ _ (by omega) (by omega)]
      exact hright1 k hk (by omega)
  · rename_i hij
    dsimp only
    have hIc2 := hIc (by omega)
    rw [lessK] at hIc2
    simp only [decide_eq_false_iff_not] at hIc2
    have hJc2 := hJc (by omega) (by omega)
    rw [lessK] at hJc2
    simp only [decide_eq_true_eq] at hJc2
    have hpa : geta (swapL (swapL l a pivot)
        (partAdvI key (swapL l a pivot) a (a + 1) (b - 1))
        (partAdvJ key (swapL l a pivot) a
          (partAdvI key (swapL l a pivot) a (a + 1) (b - 1)) (b - 1))) a =
        geta (swapL l a pivot) a := by
      rw [geta_swapL_ne _ _ _ _ (by omega) (by omega)]
    have hlefts : ∀ k, a < k →
        k < partAdvI key (swapL l a pivot) a (a + 1) (b - 1) + 1 →
        key (geta (swapL (swapL l a pivot)
          (partAdvI key (swapL l a pivot) a (a + 1) (b - 1))
          (partAdvJ key (swapL l a pivot) a
            (partAdvI key (swapL l a pivot) a (a + 1) (b - 1)) (b - 1))) k) <
        key (geta (swapL (swapL l a pivot)
          (partAdvI key (swapL l a pivot) a (a + 1) (b - 1))
          (partAdvJ key (swapL l a pivot) a
            (partAdvI key (swapL l a pivot) a (a + 1) (b - 1)) (b - 1))) a) := by
      intro k hk hklt
      rw [hpa]
      rcases eq_or_ne k (partAdvI key (swapL l a pivot) a (a + 1) (b - 1)) with he | hne
      · rw [he, geta_swapL_left _ _ _ (by omega) (by omega)]
        omega
      · rw [geta_swapL_ne _ _ _ _ hne (by omega)]
        exact hleft1 k hk (by omega)
    have hrights : ∀ k, partAdvJ key (swapL l a pivot) a
        (partAdvI key (swapL l a pivot) a (a + 1) (b - 1)) (b - 1) - 1 < k → k ≤ b - 1 →
        key (geta (swapL (swapL l a pivot)
          (partAdvI key (swapL l a pivot) a (a + 1) (b - 1))
          (partAdvJ key (swapL l a pivot) a
            (partAdvI key (swapL l a pivot) a (a + 1) (b - 1)) (b - 1))) a) ≤
        key (geta (swapL (swapL l a pivot)
          (partAdvI key (swapL l a pivot) a (a + 1) (b - 1))
          (partAdvJ key (swapL l a pivot) a
            (partAdvI key (swapL l a pivot) a (a + 1) (b - 1)) (b - 1))) k) := by
      intro k hk hkB
      rw [hpa]
      rcases eq_or_ne k (partAdvJ key (swapL l a pivot) a
          (partAdvI key (swapL l a pivot) a (a + 1) (b - 1)) (b - 1)) with he | hne
      · rw [he, geta_swapL_right _ _ _ (by omega) (by omega)]
        omega
      · rw [geta_swapL_ne _ _ _ _ (by omega) hne]
        exact hright1 k (by omega) hkB
    obtain ⟨rl, rr, rp⟩ := partitionLoopK_spec key a (b - 1)
      ((partAdvJ key (swapL l a pivot) a
          (partAdvI key (swapL l a pivot) a (a + 1) (b - 1)) (b - 1) - 1) + 1 -
        (partAdvI key (swapL l a pivot) a (a + 1) (b - 1) + 1))
      (swapL (swapL l a pivot) (partAdvI key (swapL l a pivot) a (a + 1) (b - 1))
        (partAdvJ key (swapL l a pivot) a
          (partAdvI key (swapL l a pivot) a (a + 1) (b - 1)) (b - 1)))
      (partAdvI key (swapL l a pivot) a (a + 1) (b - 1) + 1)
      (partAdvJ key (swapL l a pivot) a
        (partAdvI key (swapL l a pivot) a (a + 1) (b - 1)) (b - 1) - 1)
      rfl (by omega) (by omega) (by rw [length_swapL, length_swapL]; omega)
      hlefts hrights
    have hplle := partitionLoopK_fst_le key
      ((partAdvJ key (swapL l a pivot) a
          (partAdvI key (swapL l a pivot) a (a + 1) (b - 1)) (b - 1) - 1) + 1 -
        (partAdvI key (swapL l a pivot) a (a + 1) (b - 1) + 1))
      (swapL (swapL l a pivot) (partAdvI key (swapL l a pivot) a (a + 1) (b - 1))
        (partAdvJ key (swapL l a pivot) a
          (partAdvI key (swapL l a pivot) a (a + 1) (b - 1)) (b - 1)))
      a (partAdvI key (swapL l a pivot) a (a + 1) (b - 1) + 1)
      (partAdvJ key (swapL l a pivot) a
        (partAdvI key (swapL l a pivot) a (a + 1) (b - 1)) (b - 1) - 1) rfl
    have hplge := partitionLoopK_fst_ge key
      ((partAdvJ key (swapL l a pivot) a
          (partAdvI key (swapL l a pivot) a (a + 1) (b - 1)) (b - 1) - 1) + 1 -
        (partAdvI key (swapL l a pivot) a (a + 1) (b - 1) + 1))
      (swapL (swapL l a pivot) (partAdvI key (swapL l a pivot) a (a + 1) (b - 1))
        (partAdvJ key (swapL l a pivot) a
          (partAdvI key (swapL l a pivot) a (a + 1) (b - 1)) (b - 1)))
      a (partAdvI key (swapL l a pivot) a (a + 1) (b - 1) + 1)
      (partAdvJ key (swapL l a pivot) a
        (partAdvI key (swapL l a pivot) a (a + 1) (b - 1)) (b - 1) - 1)
      rfl (by omega) (by omega)
    have hlength : (partitionLoopK key
        (swapL (swapL l a pivot) (partAdvI key (swapL l a pivot) a (a + 1) (b - 1))
          (partAdvJ key (swapL l a pivot) a
            (partAdvI key (swapL l a pivot) a (a + 1) (b - 1)) (b - 1)))
        a (partAdvI key (swapL l a pivot) a (a + 1) (b - 1) + 1)
        (partAdvJ key (swapL l a pivot) a
          (partAdvI key (swapL l a pivot) a (a + 1) (b - 1)) (b - 1) - 1)).2.length =
        l.length := by
      rw [(partitionLoopK_snd_perm key a
        ((partAdvJ key (swapL l a pivot) a
            (partAdvI key (swapL l a pivot) a (a + 1) (b - 1)) (b - 1) - 1) + 1 -
          (partAdvI key (swapL l a pivot) a (a + 1) (b - 1) + 1)) _ _ _ rfl).length_eq,
        length_swapL, length_swapL]
    constructor
    · intro k hk hklt
      rw [geta_swapL_left _ _ _ (by omega) (by omega)]
      rcases eq_or_ne k a with he | hne
      · rw [he, geta_swapL_right _ _ _ (by omega) (by omega)]
        have := rl (partitionLoopK key
          (swapL (swapL l a pivot) (partAdvI key (swapL l a pivot) a (a + 1) (b - 1))
            (partAdvJ key (swapL l a pivot) a
              (partAdvI key (swapL l a pivot) a (a + 1) (b - 1)) (b - 1)))
          a (partAdvI key (swapL l a pivot) a (a + 1) (b - 1) + 1)
          (partAdvJ key (swapL l a pivot) a
            (partAdvI key (swapL l a pivot) a (a + 1) (b - 1)) (b - 1) - 1)).1
          (by omega) (by omega)
        omega
      · rw [geta_swapL_ne _ _ _ _ (by omega) hne]
        have := rl k (by omega) (by omega)
        omega
    · intro k hk hkb
      rw [geta_swapL_left _ _ _ (by omega) (by omega),
        geta_swapL_ne _ _ _ _ (by omega) (by omega)]
      have := rr k hk (by omega)
      omega

theorem peqAdvI_spec (key : α → Nat) [Inhabited α] (l : List α) (a : Nat) :
    ∀ m i j, j + 1 - i = m →
      (∀ k, i ≤ k → k < peqAdvI key l a i j → lessK key l a k = false) ∧
      (peqAdvI key l a i j ≤ j → lessK key l a (peqAdvI key l a i j) = true) := by
  intro m
  induction m using Nat.strong_induction_on with
  | _ m ih =>
    intro i j hm
    rw [peqAdvI]
    split
    · rename_i hc
      obtain ⟨hc1, hc2⟩ := hc
      obtain ⟨ihb, ihc⟩ := ih (j + 1 - (i + 1)) (by omega) (i + 1) j rfl
      constructor
      · intro k hk hklt
        rcases eq_or_ne k i with he | hne
        · rw [he]
          exact hc2
        · exact ihb k (by omega) hklt
      · exact ihc
    · rename_i hc
      constructor
      · intro k hk hklt
        omega
      · intro hij
        rcases Bool.eq_false_or_eq_true (lessK key l a i) with h | h
        · exact h
        · exact absurd ⟨hij, h⟩ hc

theorem peqAdvJ_spec (key : α → Nat) [Inhabited α] (l : List α) (a : Nat) :
    ∀ j i,
      (∀ k, peqAdvJ key l a i j < k → k ≤ j → lessK key l a k = true) ∧
      (1 ≤ i → i ≤ peqAdvJ key l a i j → lessK key l a (peqAdvJ key l a i j) = false) := by
  intro j
  induction j using Nat.strong_induction_on with
  | _ j ih =>
    intro i
    rw [peqAdvJ]
    split
    · rename_i hc
      obtain ⟨hc1, hc2⟩ := hc
      split
      · rename_i h0
        constructor
        · intro k hk hkj
          omega
        · intro h1 h2
          omega
      · rename_i h0
        obtain ⟨ihb, ihc⟩ := ih (j - 1) (by omega) i
        constructor
        · intro k hk hkj
          rcases eq_or_ne k j with he | hne
          · rw [he]
            exact hc2
          · exact ihb k hk (by omega)
        · exact ihc
    · rename_i hc
      constructor
      · intro k hk hkj
        omega
      · intro h1 h2
        rcases Bool.eq_false_or_eq_true (lessK key l a j) with h | h
        · exact absurd ⟨h2, h⟩ hc
        · exact h

theorem partitionEqualLoopK_spec (key : α → Nat) [Inhabited α] (a B : Nat) :
    ∀ m (l : List α) i j, j + 1 - i = m → a + 1 ≤ i → j ≤ B → B + 1 ≤ l.length →
      (∀ k, a < k → k < i → key (geta l k) ≤ key (geta l a)) →
      (∀ k, j < k → k ≤ B → key (geta l a) < key (geta l k)) →
      (∀ k, a < k → k < (partitionEqualLoopK key l a i j).1 →
        key (geta (partitionEqualLoopK key l a i j).2 k) ≤
          key (geta (partitionEqualLoopK key l a i j).2 a)) ∧
      (∀ k, (partitionEqualLoopK key l a i j).1 ≤ k → k ≤ B →
        key (geta (partitionEqualLoopK key l a i j).2 a) <
          key (geta (partitionEqualLoopK key l a i j).2 k)) ∧
      geta (partitionEqualLoopK key l a i j).2 a = geta l a := by
  intro m
  induction m using Nat.strong_induction_on with
  | _ m ih =>
    intro l i j hm hai hjB hBl hleft hright
    rw [partitionEqualLoopK]
    have hig := peqAdvI_ge key l a (j + 1 - i) i j rfl
    have hjle := peqAdvJ_le key l a (peqAdvI key l a i j) j
    obtain ⟨hIb, hIc⟩ := peqAdvI_spec key l a (j + 1 - i) i j rfl
    obtain ⟨hJb, hJc⟩ := peqAdvJ_spec key l a j (peqAdvI key l a i j)
    have hleft1 : ∀ k, a < k → k < peqAdvI key l a i j →
        key (geta l k) ≤ key (geta l a) := by
      intro k hk hklt
      rcases Nat.lt_or_ge k i with hki | hki
      · exact hleft k hk hki
      · have := hIb k hki hklt
        rw [lessK] at this
        simp only [decide_eq_false_iff_not] at this
        omega
    have hright1 : ∀ k, peqAdvJ key l a (peqAdvI key l a i j) j < k → k ≤ B →
        key (geta l a) < key (geta l k) := by
      intro k hk hkB
      rcases Nat.lt_or_ge j k with hjk | hjk
      · exact hright k hjk hkB
      · have := hJb k hk (by omega)
        rw [lessK] at this
        simp only [decide_eq_true_eq] at this
        exact this
    split
    · rename_i hij
      refine ⟨fun k hk hk1 => hleft1 k hk hk1, ?_, rfl⟩
      intro k hk hkB
      exact hright1 k (by omega) hkB
    · rename_i hij
      have hIc2 := hIc (by omega)
      rw [lessK] at hIc2
      simp only [decide_eq_true_eq] at hIc2
      have hJc2 := hJc (by omega) (by omega)
      rw [lessK] at hJc2
      simp only [decide_eq_false_iff_not] at hJc2
      have hpa : geta (swapL l (peqAdvI key l a i j)
          (peqAdvJ key l a (peqAdvI key l a i j) j)) a = geta l a := by
        rw [geta_swapL_ne _ _ _ _ (by omega) (by omega)]
      have hlefts : ∀ k, a < k → k < peqAdvI key l a i j + 1 →
          key (geta (swapL l (peqAdvI key l a i j)
            (peqAdvJ key l a (peqAdvI key l a i j) j)) k) ≤
          key (geta (swapL l (peqAdvI key l a i j)
            (peqAdvJ key l a (peqAdvI key l a i j) j)) a) := by
        intro k hk hklt
        rw [hpa]
        rcases eq_or_ne k (peqAdvI key l a i j) with he | hne
        · rw [he, geta_swapL_left _ _ _ (by omega) (by omega)]
          omega
        · rw [geta_swapL_ne _ _ _ _ hne (by omega)]
          exact hleft1 k hk (by omega)
      have hrights : ∀ k, peqAdvJ key l a (peqAdvI key l a i j) j - 1 < k → k ≤ B →
          key (geta (swapL l (peqAdvI key l a i j)
            (peqAdvJ key l a (peqAdvI key l a i j) j)) a) <
          key (geta (swapL l (peqAdvI key l a i j)
            (peqAdvJ key l a (peqAdvI key l a i j) j)) k) := by
        intro k hk hkB
        rw [hpa]
        rcases eq_or_ne k (peqAdvJ key l a (peqAdvI key l a i j) j) with he | hne
        · rw [he, geta_swapL_right _ _ _ (by omega) (by omega)]
          omega
        · rw [geta_swapL_ne _ _ _ _ (by omega) hne]
          exact hright1 k (by omega) hkB
      obtain ⟨rl, rr, rp⟩ := ih ((peqAdvJ key l a (peqAdvI key l a i j) j - 1) + 1 -
          (peqAdvI key l a i j + 1)) (by omega)
        (swapL l (peqAdvI key l a i j) (peqAdvJ key l a (peqAdvI key l a i j) j))
        (peqAdvI key l a i j + 1) (peqAdvJ key l a (peqAdvI key l a i j) j - 1)
        rfl (by omega) (by omega) (by rw [length_swapL]; exact hBl)
        hlefts hrights
      refine ⟨rl, rr, ?_⟩
      rw [rp, hpa]

theorem partitionEqualK_spec (key : α → Nat) [Inhabited α] (l : List α)
    (a b pivot : Nat) (hab : a + 1 ≤ b) (hp : a ≤ pivot ∧ pivot < b)
    (hbl : b ≤ l.length) :
    (∀ k, a < k → k < (partitionEqualK key l a b pivot).1 →
      key (geta (partitionEqualK key l a b pivot).2 k) ≤
        key (geta (partitionEqualK key l a b pivot).2 a)) ∧
    (∀ k, (partitionEqualK key l a b pivot).1 ≤ k → k < b →
      key (geta (partitionEqualK key l a b pivot).2 a) <
        key (geta (partitionEqualK key l a b pivot).2 k)) ∧
    geta (partitionEqualK key l a b pivot).2 a = geta (swapL l a pivot) a := by
  unfold partitionEqualK
  obtain ⟨rl, rr, rp⟩ := partitionEqualLoopK_spec key a (b - 1)
    ((b - 1) + 1 - (a + 1)) (swapL l a pivot) (a + 1) (b - 1) rfl (by omega)
    (by omega) (by rw [length_swapL]; omega)
    (fun k hk hki => absurd hki (by omega))
    (fun k hk hkB => absurd hk (by omega))
  exact ⟨rl, fun k hk hkb => rr k hk (by omega), rp⟩

theorem pisScan_stop (key : α → Nat) [Inhabited α] (l : List α) (b : Nat) :
    ∀ m i, b - i = m → pisScan key l b i < b →
      lessK key l (pisScan key l b i) (pisScan key l b i - 1) = true := by
  intro m
  induction m using Nat.strong_induction_on with
  | _ m ih =>
    intro i hm hlt
    by_cases hc : i < b ∧ lessK key l i (i - 1) = false
    · have hstep : pisScan key l b i = pisScan key l b (i + 1) := by
        conv_lhs => rw [pisScan]
        rw [if_pos hc]
      rw [hstep] at hlt ⊢
      exact ih (b - (i + 1)) (by omega) (i + 1) rfl hlt
    · have hstop : pisScan key l b i = i := by
        conv_lhs => rw [pisScan]
        rw [if_neg hc]
      rw [hstop] at hlt ⊢
      rcases Bool.eq_false_or_eq_true (lessK key l i (i - 1)) with h | h
      · exact h
      · exact absurd ⟨hlt, h⟩ hc

theorem pisLeftShift_sorted (key : α → Nat) [Inhabited α] (a : Nat) :
    ∀ j (l : List α), a ≤ j → j < l.length →
      (0 < a → key (geta l (a - 1)) ≤ key (geta l j)) →
      (∀ k, a < k → k < j → key (geta l (k - 1)) ≤ key (geta l k)) →
      ∀ k, a < k → k < j + 1 →
        key (geta (pisLeftShift key l j) (k - 1)) ≤ key (geta (pisLeftShift key l j) k) := by
  intro j
  induction j using Nat.strong_induction_on with
  | _ j ih =>
    intro l haj hjl hpred hadj
    rw [pisLeftShift]
    split
    · rename_i hc
      obtain ⟨hc1, hc2⟩ := hc
      rw [lessK] at hc2
      simp only [decide_eq_true_eq] at hc2
      rcases eq_or_ne j a with hja | hja
      · exfalso
        have hp := hpred (by omega)
        rw [hja] at hc2
        rw [hja] at hp
        omega
      · have hlen1 := length_swapL l j (j - 1)
        have hAm1 : 0 < a → geta (swapL l j (j - 1)) (a - 1) = geta l (a - 1) := by
          intro ha0
          rw [geta_swapL_ne _ _ _ _ (by omega) (by omega)]
        have hJm1 : geta (swapL l j (j - 1)) (j - 1) = geta l j :=
          geta_swapL_right _ _ _ (by omega) (by omega)
        have hres := ih (j - 1) (by omega) (swapL l j (j - 1)) (by omega) (by omega)
          (by intro ha0; rw [hAm1 ha0, hJm1]; exact hpred ha0)
          (by
            intro k hk hkj
            rw [geta_swapL_ne _ _ _ _ (by omega) (by omega),
              geta_swapL_ne _ _ _ _ (by omega) (by omega)]
            exact hadj k hk (by omega))
        intro k hk hkj
        rcases Nat.lt_or_ge k j with hkj2 | hkj2
        · exact hres k hk (by omega)
        · have hke : k = j := by omega
          have hrj : geta (pisLeftShift key (swapL l j (j - 1)) (j - 1)) j =
              geta l (j - 1) := by
            rw [pisLeftShift_hi_frame key (j - 1) _ j (by omega),
              geta_swapL_left _ _ _ (by omega) (by omega)]
          have hbound : ∀ k2, a ≤ k2 → k2 < j →
              key (geta (pisLeftShift key (swapL l j (j - 1)) (j - 1)) k2) ≤
                key (geta l (j - 1)) := by
            apply range_pred_preserved (fun x => key x ≤ key (geta l (j - 1)))
              (swapL l j (j - 1)) _ a j
              (pisLeftShift_perm key (j - 1) (swapL l j (j - 1))).symm
              ?_ (by omega)
            · intro k2 hk2a hk2b
              rcases eq_or_ne k2 (j - 1) with he2 | hne2
              · rw [he2, hJm1]
                omega
              · rw [geta_swapL_ne _ _ _ _ (by omega) (by omega)]
                have hsr : sortedRange key l a j := by
                  apply sortedRange_of_adjacent
                  intro k3 hk3a hk3b
                  exact hadj k3 hk3a hk3b
                have := hsr k2 (j - 1) hk2a (by omega) (by omega)
                exact this
            · intro k2 hk2
              rcases hk2 with hk2 | hk2
              · rcases Nat.eq_zero_or_pos a with ha0 | ha0
                · omega
                · exact pisLeftShift_low_frame key a ha0 (j - 1) _ (by omega) (by omega)
                    (by rw [hAm1 ha0, hJm1]; exact hpred ha0) k2 hk2
              · exact pisLeftShift_hi_frame key (j - 1) _ k2 (by omega)
          rw [hke, hrj]
          exact hbound (j - 1) (by omega) (by omega)
    · rename_i hc
      intro k hk hkj
      rcases Nat.lt_or_ge k j with hkj2 | hkj2
      · exact hadj k hk hkj2
      · have hke : k = j := by omega
        have hj1 : 1 ≤ j := by omega
        have hless : lessK key l j (j - 1) = false := by
          rcases Bool.eq_false_or_eq_true (lessK key l j (j - 1)) with h | h
          · exact absurd ⟨hj1, h⟩ hc
          · exact h
        rw [lessK] at hless
        simp only [decide_eq_false_iff_not] at hless
        rw [hke]
        omega

theorem pisLoop_spec (key : α → Nat) [Inhabited α] (a b : Nat) :
    ∀ steps (l : List α) i, a + 1 ≤ i → i ≤ b → b ≤ l.length →
      (0 < a → ∀ k, a ≤ k → k < b → key (geta l (a - 1)) ≤ key (geta l k)) →
      (∀ k, a < k → k < i → key (geta l (k - 1)) ≤ key (geta l k)) →
      (∀ k, k < a ∨ b ≤ k → geta (pisLoop key l a b i steps).2 k = geta l k) ∧
      ((pisLoop key l a b i steps).1 = true →
        sortedRange key (pisLoop key l a b i steps).2 a b) := by
  intro steps
  induction steps using Nat.strong_induction_on with
  | _ steps ih =>
    intro l i hai hib hbl hinv hadj
    rw [pisLoop]
    split
    · dsimp only
      exact ⟨fun k hk => rfl, fun h => Bool.noConfusion h⟩
    · rename_i h0
      split
      · rename_i hscan
        dsimp only
        refine ⟨fun k hk => rfl, ?_⟩
        intro _
        apply sortedRange_of_adjacent
        intro k hka hkb
        rcases Nat.lt_or_ge k i with hki | hki
        · exact hadj k hka hki
        · have := pisScan_pairs key l b (b - i) i rfl k hki (by omega)
          rw [lessK] at this
          simp only [decide_eq_false_iff_not] at this
          omega
      · rename_i hscan
        split
        · dsimp only
          exact ⟨fun k hk => rfl, fun h => Bool.noConfusion h⟩
        · rename_i hshort
          have hsge : i ≤ pisScan key l b i := pisScan_ge key l b (b - i) i rfl
          have hsle : pisScan key l b i ≤ b := pisScan_le key l b (b - i) i rfl hib
          have hslt : pisScan key l b i < b := by
            rcases Nat.lt_or_ge (pisScan key l b i) b with h | h
            · exact h
            · exact absurd (by omega) hscan
          have hstop := pisScan_stop key l b (b - i) i rfl hslt
          rw [lessK] at hstop
          simp only [decide_eq_true_eq] at hstop
          have hlen1 : (swapL l (pisScan key l b i) (pisScan key l b i - 1)).length =
              l.length := length_swapL _ _ _
          have hl1am : 0 < a →
              geta (swapL l (pisScan key l b i) (pisScan key l b i - 1)) (a - 1) =
              geta l (a - 1) := by
            intro ha0
            rw [geta_swapL_ne _ _ _ _ (by omega) (by omega)]
          have hl1s1 : geta (swapL l (pisScan key l b i) (pisScan key l b i - 1))
              (pisScan key l b i - 1) = geta l (pisScan key l b i) :=
            geta_swapL_right _ _ _ (by omega) (by omega)
          have hmov : 0 < a →
              key (geta (swapL l (pisScan key l b i) (pisScan key l b i - 1)) (a - 1)) ≤
              key (geta (swapL l (pisScan key l b i) (pisScan key l b i - 1))
                (pisScan key l b i - 1)) := by
            intro ha0
            rw [hl1am ha0, hl1s1]
            exact hinv ha0 (pisScan key l b i) (by omega) (by omega)
          have hframe1 : ∀ k, k < a ∨ b ≤ k →
              geta (swapL l (pisScan key l b i) (pisScan key l b i - 1)) k = geta l k := by
            intro k hk
            rw [geta_swapL_ne _ _ _ _ (by omega) (by omega)]
          have hframe2 : ∀ k, k < a ∨ b ≤ k →
              geta (pisLeftShiftIf key
                (swapL l (pisScan key l b i) (pisScan key l b i - 1)) a
                (pisScan key l b i)) k =
              geta (swapL l (pisScan key l b i) (pisScan key l b i - 1)) k := by
            intro k hk
            unfold pisLeftShiftIf
            split
            · rename_i hif
              rcases hk with hk | hk
              · rcases Nat.eq_zero_or_pos a with ha0 | ha0
                · omega
                · exact pisLeftShift_low_frame key a ha0 (pisScan key l b i - 1) _
                    (by omega) (by omega) (hmov ha0) k hk
              · exact pisLeftShift_hi_frame key (pisScan key l b i - 1) _ k (by omega)
            · rfl
          have hframe3 : ∀ k, k < a ∨ b ≤ k →
              geta (pisRightShiftIf key
                (pisLeftShiftIf key
                  (swapL l (pisScan key l b i) (pisScan key l b i - 1)) a
                  (pisScan key l b i)) b (pisScan key l b i)) k =
              geta (pisLeftShiftIf key
                (swapL l (pisScan key l b i) (pisScan key l b i - 1)) a
                (pisScan key l b i)) k := by
            intro k hk
            unfold pisRightShiftIf
            split
            · exact pisRightShift_frame key b (b - (pisScan key l b i + 1))
                (pisScan key l b i + 1) _ k rfl (by omega)
            · rfl
          have hframe : ∀ k, k < a ∨ b ≤ k →
              geta (pisRightShiftIf key
                (pisLeftShiftIf key
                  (swapL l (pisScan key l b i) (pisScan key l b i - 1)) a
                  (pisScan key l b i)) b (pisScan key l b i)) k = geta l k := by
            intro k hk
            rw [hframe3 k hk, hframe2 k hk, hframe1 k hk]
          have hlperm : (pisRightShiftIf key
              (pisLeftShiftIf key
                (swapL l (pisScan key l b i) (pisScan key l b i - 1)) a
                (pisScan key l b i)) b (pisScan key l b i)).Perm l :=
            (pisRightShiftIf_perm key _ b _).trans
              ((pisLeftShiftIf_perm key _ a _).trans
                (swapL_perm l (pisScan key l b i) (pisScan key l b i - 1)))
          have hinv3 : 0 < a → ∀ k, a ≤ k → k < b →
              key (geta (pisRightShiftIf key
                (pisLeftShiftIf key
                  (swapL l (pisScan key l b i) (pisScan key l b i - 1)) a
                  (pisScan key l b i)) b (pisScan key l b i)) (a - 1)) ≤
              key (geta (pisRightShiftIf key
                (pisLeftShiftIf key
                  (swapL l (pisScan key l b i) (pisScan key l b i - 1)) a
                  (pisScan key l b i)) b (pisScan key l b i)) k) := by
            intro ha0
            have hpa := hframe (a - 1) (Or.inl (by omega))
            rw [hpa]
            exact range_pred_preserved (fun x => key (geta l (a - 1)) ≤ key x) l _ a b
              hlperm.symm hframe hbl (hinv ha0)
          have hadjl : ∀ k, a < k → k < pisScan key l b i →
              key (geta l (k - 1)) ≤ key (geta l k) := by
            intro k hka hks
            rcases Nat.lt_or_ge k i with hki | hki
            · exact hadj k hka hki
            · have := pisScan_pairs key l b (b - i) i rfl k hki hks
              rw [lessK] at this
              simp only [decide_eq_false_iff_not] at this
              omega
          have hadj1 : ∀ k, a < k → k < pisScan key l b i - 1 →
              key (geta (swapL l (pisScan key l b i) (pisScan key l b i - 1)) (k - 1)) ≤
              key (geta (swapL l (pisScan key l b i) (pisScan key l b i - 1)) k) := by
            intro k hka hks
            rw [geta_swapL_ne _ _ _ _ (by omega) (by omega),
              geta_swapL_ne _ _ _ _ (by omega) (by omega)]
            exact hadjl k hka (by omega)
          have hadj2 : ∀ k, a < k → k < pisScan key l b i →
              key (geta (pisLeftShiftIf key
                (swapL l (pisScan key l b i) (pisScan key l b i - 1)) a
                (pisScan key l b i)) (k - 1)) ≤
              key (geta (pisLeftShiftIf key
                (swapL l (pisScan key l b i) (pisScan key l b i - 1)) a
                (pisScan key l b i)) k) := by
            unfold pisLeftShiftIf
            split
            · rename_i hif
              intro k hka hks
              have hres := pisLeftShift_sorted key a (pisScan key l b i - 1)
                (swapL l (pisScan key l b i) (pisScan key l b i - 1))
                (by omega) (by omega) hmov hadj1
              exact hres k hka (by omega)
            · rename_i hif
              intro k hka hks
              omega
          have hadj3 : ∀ k, a < k → k < pisScan key l b i →
              key (geta (pisRightShiftIf key
                (pisLeftShiftIf key
                  (swapL l (pisScan key l b i) (pisScan key l b i - 1)) a
                  (pisScan key l b i)) b (pisScan key l b i)) (k - 1)) ≤
              key (geta (pisRightShiftIf key
                (pisLeftShiftIf key
                  (swapL l (pisScan key l b i) (pisScan key l b i - 1)) a
                  (pisScan key l b i)) b (pisScan key l b i)) k) := by
            intro k hka hks
            have hf : ∀ k2, k2 < pisScan key l b i →
                geta (pisRightShiftIf key
                  (pisLeftShiftIf key
                    (swapL l (pisScan key l b i) (pisScan key l b i - 1)) a
                    (pisScan key l b i)) b (pisScan key l b i)) k2 =
                geta (pisLeftShiftIf key
                  (swapL l (pisScan key l b i) (pisScan key l b i - 1)) a
                  (pisScan key l b i)) k2 := by
              intro k2 hk2
              unfold pisRightShiftIf
              split
              · exact pisRightShift_frame key b (b - (pisScan key l b i + 1))
                  (pisScan key l b i + 1) _ k2 rfl (by omega)
              · rfl
            rw [hf k hks, hf (k - 1) (by omega)]
            exact hadj2 k hka hks
          obtain ⟨rframe, rsort⟩ := ih (steps - 1) (by omega)
            (pisRightShiftIf key
              (pisLeftShiftIf key
                (swapL l (pisScan key l b i) (pisScan key l b i - 1)) a
                (pisScan key l b i)) b (pisScan key l b i))
            (pisScan key l b i) (by omega) hsle
            (by rw [hlperm.length_eq]; exact hbl) hinv3 hadj3
          exact ⟨fun k hk => (rframe k hk).trans (hframe k hk), rsort⟩

theorem partialInsertionSortK_spec (key : α → Nat) [Inhabited α] (l : List α)
    (a b : Nat) (hab : a + 1 ≤ b) (hbl : b ≤ l.length)
    (hinv : 0 < a → ∀ k, a ≤ k → k < b → key (geta l (a - 1)) ≤ key (geta l k)) :
    (∀ k, k < a ∨ b ≤ k → geta (partialInsertionSortK key l a b).2 k = geta l k) ∧
    ((partialInsertionSortK key l a b).1 = true →
      sortedRange key (partialInsertionSortK key l a b).2 a b) :=
  pisLoop_spec key a b 5 l (a + 1) (by omega) hab hbl hinv
    (fun k hka hkb => absurd (And.intro hka hkb) (by omega))

theorem order2K_mem (key : α → Nat) [Inhabited α] (l : List α) (a b swaps : Nat) :
    ((order2K key l a b swaps).1 = a ∨ (order2K key l a b swaps).1 = b) ∧
    ((order2K key l a b swaps).2.1 = a ∨ (order2K key l a b swaps).2.1 = b) := by
  unfold order2K
  split
  · exact ⟨Or.inr rfl, Or.inl rfl⟩
  · exact ⟨Or.inl rfl, Or.inr rfl⟩

theorem medianK_mem (key : α → Nat) [Inhabited α] (l : List α) (a b c swaps : Nat) :
    (medianK key l a b c swaps).1 = a ∨ (medianK key l a b c swaps).1 = b ∨
      (medianK key l a b c swaps).1 = c := by
  simp only [medianK]
  have h1 := order2K_mem key l a b swaps
  have h2 := order2K_mem key l (order2K key l a b swaps).2.1 c
    (order2K key l a b swaps).2.2
  have h3 := order2K_mem key l (order2K key l a b swaps).1
    (order2K key l (order2K key l a b swaps).2.1 c (order2K key l a b swaps).2.2).1
    (order2K key l (order2K key l a b swaps).2.1 c (order2K key l a b swaps).2.2).2.2
  rcases h3.2 with h | h <;> rcases h1.1 with h1a | h1a <;> rcases h2.1 with h2a | h2a <;>
    rcases h1.2 with h1b | h1b <;> omega

theorem medianAdjacentK_mem (key : α → Nat) [Inhabited α] (l : List α) (a swaps : Nat) :
    (medianAdjacentK key l a swaps).1 = a - 1 ∨ (medianAdjacentK key l a swaps).1 = a ∨
      (medianAdjacentK key l a swaps).1 = a + 1 := by
  unfold medianAdjacentK
  exact medianK_mem key l (a - 1) a (a + 1) swaps

theorem choosePivotK_mem (key : α → Nat) [Inhabited α] (l : List α) (a b : Nat)
    (hab : a + 1 ≤ b) :
    a ≤ (choosePivotK key l a b).1 ∧ (choosePivotK key l a b).1 < b := by
  simp only [choosePivotK]
  split
  · rename_i h8
    split
    · rename_i h50
      dsimp only
      have hm1 := medianAdjacentK_mem key l (a + (b - a) / 4 * 1) 0
      have hm2 := medianAdjacentK_mem key l (a + (b - a) / 4 * 2)
        (medianAdjacentK key l (a + (b - a) / 4 * 1) 0).2
      have hm3 := medianAdjacentK_mem key l (a + (b - a) / 4 * 3)
        (medianAdjacentK key l (a + (b - a) / 4 * 2)
          (medianAdjacentK key l (a + (b - a) / 4 * 1) 0).2).2
      have hmf := medianK_mem key l
        (medianAdjacentK key l (a + (b - a) / 4 * 1) 0).1
        (medianAdjacentK key l (a + (b - a) / 4 * 2)
          (medianAdjacentK key l (a + (b - a) / 4 * 1) 0).2).1
        (medianAdjacentK key l (a + (b - a) / 4 * 3)
          (medianAdjacentK key l (a + (b - a) / 4 * 2)
            (medianAdjacentK key l (a + (b - a) / 4 * 1) 0).2).2).1
        (medianAdjacentK key l (a + (b - a) / 4 * 3)
          (medianAdjacentK key l (a + (b - a) / 4 * 2)
            (medianAdjacentK key l (a + (b - a) / 4 * 1) 0).2).2).2
      rcases hmf with h | h | h <;>
        rcases hm1 with h1 | h1 | h1 <;>
        rcases hm2 with h2 | h2 | h2 <;>
        rcases hm3 with h3 | h3 | h3 <;>
        omega
    · rename_i h50
      dsimp only
      have hmf := medianK_mem key l (a + (b - a) / 4 * 1) (a + (b - a) / 4 * 2)
        (a + (b - a) / 4 * 3) 0
      rcases hmf with h | h | h <;> omega
  · rename_i h8
    dsimp only
    omega

theorem prep_chain (key : α → Nat) [Inhabited α] (l l1 : List α) (a b : Nat)
    (hperm : l1.Perm l) (hframe : ∀ k, k < a ∨ b ≤ k → geta l1 k = geta l k)
    (hbl : b ≤ l.length)
    (hinv : 0 < a → ∀ k, a ≤ k → k < b → key (geta l (a - 1)) ≤ key (geta l k)) :
    0 < a → ∀ k, a ≤ k → k < b → key (geta l1 (a - 1)) ≤ key (geta l1 k) := by
  intro ha0
  have hpa := hframe (a - 1) (Or.inl (by omega))
  rw [hpa]
  exact range_pred_preserved (fun x => key (geta l (a - 1)) ≤ key x) l l1 a b
    hperm.symm hframe hbl (hinv ha0)

theorem pis_step_spec (key : α → Nat) [Inhabited α] (l l1 : List α) (a b : Nat)
    (hab : a + 1 ≤ b) (hbl : b ≤ l.length)
    (hperm : l1.Perm l) (hframe : ∀ k, k < a ∨ b ≤ k → geta l1 k = geta l k)
    (hinv : 0 < a → ∀ k, a ≤ k → k < b → key (geta l (a - 1)) ≤ key (geta l k)) :
    (∀ k, k < a ∨ b ≤ k → geta (partialInsertionSortK key l1 a b).2 k = geta l k) ∧
    ((partialInsertionSortK key l1 a b).1 = true →
      sortedRange key (partialInsertionSortK key l1 a b).2 a b) := by
  have hinv1 := prep_chain key l l1 a b hperm hframe hbl hinv
  have hspec := partialInsertionSortK_spec key l1 a b hab
    (by rw [hperm.length_eq]; exact hbl) hinv1
  exact ⟨fun k hk => (hspec.1 k hk).trans (hframe k hk), hspec.2⟩

theorem pdqPrep_spec (key : α → Nat) [Inhabited α] (l : List α) (a b limit : Nat)
    (wb wp : Bool) (hab : a + 1 ≤ b) (hbl : b ≤ l.length)
    (hinv : 0 < a → ∀ k, a ≤ k → k < b → key (geta l (a - 1)) ≤ key (geta l k)) :
    (∀ k, k < a ∨ b ≤ k → geta (pdqPrep key l a b limit wb wp).2.1 k = geta l k) ∧
    ((pdqPrep key l a b limit wb wp).1 = true →
      sortedRange key (pdqPrep key l a b limit wb wp).2.1 a b) := by
  cases wb <;> cases wp
  case false.false =>
    simp only [pdqPrep, Bool.false_eq_true, false_and, if_false, ite_false]
    split
    · constructor
      · intro k hk
        rw [reverseRangeGo_frame key (b - 1 - a) a (b - 1) _ k rfl (by omega),
          breakPatternsK_frame key l a b k hk]
      · intro h
        exact absurd h (by simp)
    · constructor
      · intro k hk
        rw [breakPatternsK_frame key l a b k hk]
      · intro h
        exact absurd h (by simp)
  case false.true =>
    simp only [pdqPrep, Bool.false_eq_true, false_and, if_false, ite_false]
    split
    · constructor
      · intro k hk
        rw [reverseRangeGo_frame key (b - 1 - a) a (b - 1) _ k rfl (by omega),
          breakPatternsK_frame key l a b k hk]
      · intro h
        exact absurd h (by simp)
    · constructor
      · intro k hk
        rw [breakPatternsK_frame key l a b k hk]
      · intro h
        exact absurd h (by simp)
  case true.false =>
    simp only [pdqPrep, Bool.false_eq_true, false_and, and_false, if_false,
      ite_false, ite_true, if_true]
    split
    · constructor
      · intro k hk
        rw [reverseRangeGo_frame key (b - 1 - a) a (b - 1) l k rfl (by omega)]
      · intro h
        exact absurd h (by simp)
    · exact ⟨fun k hk => rfl, fun h => absurd h (by simp)⟩
  case true.true =>
    simp only [pdqPrep, ite_true, if_true, true_and]
    repeat' split
    all_goals
      first
      | exact ⟨fun k hk => rfl, fun h => absurd h (by simp)⟩
      | exact ⟨fun k hk => by
          rw [reverseRangeGo_frame key (b - 1 - a) a (b - 1) l k rfl (by omega)],
          fun h => absurd h (by simp)⟩
      | exact pis_step_spec key l l a b hab hbl (List.Perm.refl l)
          (fun k hk => rfl) hinv
      | exact pis_step_spec key l (reverseRangeGo key l a (b - 1)) a b hab hbl
          (reverseRangeGo_perm key (b - 1 - a) a (b - 1) l rfl)
          (fun k hk => by
            rw [reverseRangeGo_frame key (b - 1 - a) a (b - 1) l k rfl (by omega)])
          hinv

theorem pdqPrep_pivot_mem (key : α → Nat) [Inhabited α] (l : List α)
    (a b limit : Nat) (wb wp : Bool) (hab : a + 1 ≤ b) :
    a ≤ (pdqPrep key l a b limit wb wp).2.2.2 ∧
      (pdqPrep key l a b limit wb wp).2.2.2 < b := by
  cases wb <;> cases wp <;>
    simp only [pdqPrep, Bool.false_eq_true, false_and, and_false, if_false,
      ite_false, ite_true, if_true, true_and] <;>
    repeat' split
  all_goals
    first
    | (have hcp := choosePivotK_mem key l a b hab; omega)
    | (have hcp := choosePivotK_mem key (breakPatternsK key l a b) a b hab; omega)

theorem sorted_glue (key : α → Nat) [Inhabited α] (l : List α) (a mid b : Nat)
    (hm1 : a ≤ mid) (hm2 : mid < b)
    (h1 : sortedRange key l a mid) (h2 : sortedRange key l (mid + 1) b)
    (hl : ∀ k, a ≤ k → k < mid → key (geta l k) ≤ key (geta l mid))
    (hr : ∀ k, mid < k → k < b → key (geta l mid) ≤ key (geta l k)) :
    sortedRange key l a b := by
  intro i j hai hij hjb
  rcases Nat.lt_trichotomy j mid with hj | hj | hj
  · exact h1 i j hai hij hj
  · rcases Nat.lt_or_ge i mid with hi | hi
    · rw [hj]
      exact hl i hai hi
    · have hie : i = j := by omega
      rw [hie]
  · rcases Nat.lt_trichotomy i mid with hi | hi | hi
    · exact le_trans (hl i hai hi) (hr j (by omega) hjb)
    · rw [hi]
      exact hr j (by omega) hjb
    · exact h2 i j (by omega) hij hjb

theorem peqAdvI_le (key : α → Nat) [Inhabited α] (l : List α) (a : Nat) :
    ∀ m i j, j + 1 - i = m → peqAdvI key l a i j ≤ max i (j + 1) := by
  intro m
  induction m using Nat.strong_induction_on with
  | _ m ih =>
    intro i j hm
    rw [peqAdvI]
    split
    · rename_i hc
      have := ih (j + 1 - (i + 1)) (by omega) (i + 1) j rfl
      omega
    · omega

theorem partitionEqualLoopK_fst_le (key : α → Nat) [Inhabited α] :
    ∀ m (l : List α) a i j, j + 1 - i = m →
      (partitionEqualLoopK key l a i j).1 ≤ max i (j + 1) := by
  intro m
  induction m using Nat.strong_induction_on with
  | _ m ih =>
    intro l a i j hm
    rw [partitionEqualLoopK]
    have h1 := peqAdvI_ge key l a (j + 1 - i) i j rfl
    have h2 := peqAdvJ_le key l a (peqAdvI key l a i j) j
    have h3 := peqAdvI_le key l a (j + 1 - i) i j rfl
    split
    · simpa using h3
    · rename_i hc
      have hcc : peqAdvI key l a i j ≤ peqAdvJ key l a (peqAdvI key l a i j) j :=
        Nat.le_of_not_lt hc
      have h4 := ih ((peqAdvJ key l a (peqAdvI key l a i j) j - 1) + 1 -
          (peqAdvI key l a i j + 1)) (by omega)
        (swapL l (peqAdvI key l a i j) (peqAdvJ key l a (peqAdvI key l a i j) j))
        a (peqAdvI key l a i j + 1) (peqAdvJ key l a (peqAdvI key l a i j) j - 1)
        rfl
      omega

theorem partitionEqualK_fst_le (key : α → Nat) [Inhabited α] (l : List α)
    (a b pivot : Nat) (hab : a + 1 ≤ b) : (partitionEqualK key l a b pivot).1 ≤ b := by
  unfold partitionEqualK
  have := partitionEqualLoopK_fst_le key ((b - 1) + 1 - (a + 1)) (swapL l a pivot)
    a (a + 1) (b - 1) rfl
  omega

/-- The main pdqsort recursion sorts the range it is given and leaves
everything outside the range untouched, provided the predecessor invariant
holds on entry. -/
theorem pdqsortLoop_spec (key : α → Nat) [Inhabited α] :
    ∀ m (l : List α) a b limit wb wp, b - a = m → b ≤ l.length →
      (0 < a → ∀ k, a ≤ k → k < b → key (geta l (a - 1)) ≤ key (geta l k)) →
      (∀ k, k < a ∨ b ≤ k → geta (pdqsortLoop key l a b limit wb wp) k = geta l k) ∧
      sortedRange key (pdqsortLoop key l a b limit wb wp) a b := by
  intro m
  induction m using Nat.strong_induction_on with
  | _ m ih =>
    intro l a b limit wb wp hm hbl hinv
    rw [pdqsortLoop]
    split
    · constructor
      · intro k hk
        unfold insertionSortRange
        exact insertionSortOuter_frame key a b (b - (a + 1)) l (a + 1) k rfl hk
      · exact insertionSortRange_sorted key l a b hbl
    · rename_i hlen
      split
      · exact ⟨heapSortRange_frame key l a b (by omega),
          heapSortRange_sorted key l a b (by omega) hbl⟩
      · rename_i hlim
        have hprep := pdqPrep_spec key l a b limit wb wp (by omega) hbl hinv
        have hpmem := pdqPrep_pivot_mem key l a b limit wb wp (by omega)
        have hpperm := pdqPrep_snd_perm key l a b limit wb wp
        have hplen : ((pdqPrep key l a b limit wb wp).2.1).length = l.length := hpperm.length_eq
        have hpinv := prep_chain key l (pdqPrep key l a b limit wb wp).2.1 a b hpperm hprep.1 hbl hinv
        split
        · rename_i hflag
          exact ⟨hprep.1, hprep.2 hflag⟩
        · rename_i hflag
          split
          · rename_i hpeq
            obtain ⟨ha0, hless0⟩ := hpeq
            rw [lessK] at hless0
            simp only [decide_eq_false_iff_not, not_lt] at hless0
            have hPRE : ∀ k, a ≤ k → k < b →
                key (geta (pdqPrep key l a b limit wb wp).2.1 (pdqPrep key l a b limit wb wp).2.2.2) ≤ key (geta (pdqPrep key l a b limit wb wp).2.1 k) := by
              intro k hka hkb
              exact le_trans hless0 (hpinv ha0 k hka hkb)
            obtain ⟨el, er, ep⟩ := partitionEqualK_spec key (pdqPrep key l a b limit wb wp).2.1 a b (pdqPrep key l a b limit wb wp).2.2.2
              (by omega) ⟨hpmem.1, hpmem.2⟩ (by rw [hplen]; exact hbl)
            have hmidge := partitionEqualK_fst_ge key (pdqPrep key l a b limit wb wp).2.1 a b (pdqPrep key l a b limit wb wp).2.2.2
            have hmidle := partitionEqualK_fst_le key (pdqPrep key l a b limit wb wp).2.1 a b (pdqPrep key l a b limit wb wp).2.2.2 (by omega)
            have hpeperm := partitionEqualK_snd_perm key (pdqPrep key l a b limit wb wp).2.1 a b (pdqPrep key l a b limit wb wp).2.2.2
            have hpelen : (partitionEqualK key (pdqPrep key l a b limit wb wp).2.1 a b (pdqPrep key l a b limit wb wp).2.2.2).2.length = l.length := by
              rw [hpeperm.length_eq, hplen]
            have hframePE := partitionEqualK_frame key (pdqPrep key l a b limit wb wp).2.1 a b (pdqPrep key l a b limit wb wp).2.2.2 ⟨hpmem.1, hpmem.2⟩
            have hpivv : geta (partitionEqualK key (pdqPrep key l a b limit wb wp).2.1 a b (pdqPrep key l a b limit wb wp).2.2.2).2 a = geta (pdqPrep key l a b limit wb wp).2.1 (pdqPrep key l a b limit wb wp).2.2.2 := by
              rw [ep, geta_swapL_left (pdqPrep key l a b limit wb wp).2.1 a (pdqPrep key l a b limit wb wp).2.2.2 (by rw [hplen]; omega)
                (by rw [hplen]; omega)]
            have hPRE2 : ∀ k, a ≤ k → k < b →
                key (geta (pdqPrep key l a b limit wb wp).2.1 (pdqPrep key l a b limit wb wp).2.2.2) ≤ key (geta (partitionEqualK key (pdqPrep key l a b limit wb wp).2.1 a b (pdqPrep key l a b limit wb wp).2.2.2).2 k) :=
              range_pred_preserved (fun x => key (geta (pdqPrep key l a b limit wb wp).2.1 (pdqPrep key l a b limit wb wp).2.2.2) ≤ key x)
                (pdqPrep key l a b limit wb wp).2.1 (partitionEqualK key (pdqPrep key l a b limit wb wp).2.1 a b (pdqPrep key l a b limit wb wp).2.2.2).2 a b hpeperm.symm hframePE
                (by rw [hplen]; exact hbl) hPRE
            have hinvPE : 0 < (partitionEqualK key (pdqPrep key l a b limit wb wp).2.1 a b (pdqPrep key l a b limit wb wp).2.2.2).1 → ∀ k, (partitionEqualK key (pdqPrep key l a b limit wb wp).2.1 a b (pdqPrep key l a b limit wb wp).2.2.2).1 ≤ k → k < b →
                key (geta (partitionEqualK key (pdqPrep key l a b limit wb wp).2.1 a b (pdqPrep key l a b limit wb wp).2.2.2).2 ((partitionEqualK key (pdqPrep key l a b limit wb wp).2.1 a b (pdqPrep key l a b limit wb wp).2.2.2).1 - 1)) ≤ key (geta (partitionEqualK key (pdqPrep key l a b limit wb wp).2.1 a b (pdqPrep key l a b limit wb wp).2.2.2).2 k) := by
              intro h0 k hk1 hk2
              have hub : key (geta (partitionEqualK key (pdqPrep key l a b limit wb wp).2.1 a b (pdqPrep key l a b limit wb wp).2.2.2).2 ((partitionEqualK key (pdqPrep key l a b limit wb wp).2.1 a b (pdqPrep key l a b limit wb wp).2.2.2).1 - 1)) ≤ key (geta (pdqPrep key l a b limit wb wp).2.1 (pdqPrep key l a b limit wb wp).2.2.2) := by
                rcases eq_or_ne ((partitionEqualK key (pdqPrep key l a b limit wb wp).2.1 a b (pdqPrep key l a b limit wb wp).2.2.2).1 - 1) a with he | hne
                · exact le_of_eq (by rw [he, hpivv])
                · have h3 := el ((partitionEqualK key (pdqPrep key l a b limit wb wp).2.1 a b (pdqPrep key l a b limit wb wp).2.2.2).1 - 1) (by omega) (by omega)
                  rw [hpivv] at h3
                  exact h3
              have hlow := er k hk1 hk2
              rw [hpivv] at hlow
              omega
            obtain ⟨rframe, rsort⟩ := ih (b - (partitionEqualK key (pdqPrep key l a b limit wb wp).2.1 a b (pdqPrep key l a b limit wb wp).2.2.2).1) (by omega) (partitionEqualK key (pdqPrep key l a b limit wb wp).2.1 a b (pdqPrep key l a b limit wb wp).2.2.2).2 (partitionEqualK key (pdqPrep key l a b limit wb wp).2.1 a b (pdqPrep key l a b limit wb wp).2.2.2).1 b
              (pdqPrep key l a b limit wb wp).2.2.1 wb wp rfl (by rw [hpelen]; exact hbl) hinvPE
            constructor
            · intro k hk
              rw [rframe k (by omega), hframePE k hk, hprep.1 k hk]
            · have hEQfin : ∀ idx, a ≤ idx → idx < (partitionEqualK key (pdqPrep key l a b limit wb wp).2.1 a b (pdqPrep key l a b limit wb wp).2.2.2).1 →
                  key (geta (pdqsortLoop key (partitionEqualK key (pdqPrep key l a b limit wb wp).2.1 a b (pdqPrep key l a b limit wb wp).2.2.2).2 (partitionEqualK key (pdqPrep key l a b limit wb wp).2.1 a b (pdqPrep key l a b limit wb wp).2.2.2).1 b (pdqPrep key l a b limit wb wp).2.2.1 wb wp) idx) = key (geta (pdqPrep key l a b limit wb wp).2.1 (pdqPrep key l a b limit wb wp).2.2.2) := by
                intro idx h1 h2
                rw [rframe idx (Or.inl (by omega))]
                rcases eq_or_ne idx a with he | hne
                · rw [he, hpivv]
                · have h3 := el idx (by omega) h2
                  rw [hpivv] at h3
                  have h4 := hPRE2 idx h1 (by omega)
                  omega
              have hGEfin : ∀ idx, (partitionEqualK key (pdqPrep key l a b limit wb wp).2.1 a b (pdqPrep key l a b limit wb wp).2.2.2).1 ≤ idx → idx < b →
                  key (geta (pdqPrep key l a b limit wb wp).2.1 (pdqPrep key l a b limit wb wp).2.2.2) ≤ key (geta (pdqsortLoop key (partitionEqualK key (pdqPrep key l a b limit wb wp).2.1 a b (pdqPrep key l a b limit wb wp).2.2.2).2 (partitionEqualK key (pdqPrep key l a b limit wb wp).2.1 a b (pdqPrep key l a b limit wb wp).2.2.2).1 b (pdqPrep key l a b limit wb wp).2.2.1 wb wp) idx) :=
                range_pred_preserved (fun x => key (geta (pdqPrep key l a b limit wb wp).2.1 (pdqPrep key l a b limit wb wp).2.2.2) ≤ key x)
                  (partitionEqualK key (pdqPrep key l a b limit wb wp).2.1 a b (pdqPrep key l a b limit wb wp).2.2.2).2 (pdqsortLoop key (partitionEqualK key (pdqPrep key l a b limit wb wp).2.1 a b (pdqPrep key l a b limit wb wp).2.2.2).2 (partitionEqualK key (pdqPrep key l a b limit wb wp).2.1 a b (pdqPrep key l a b limit wb wp).2.2.2).1 b (pdqPrep key l a b limit wb wp).2.2.1 wb wp) (partitionEqualK key (pdqPrep key l a b limit wb wp).2.1 a b (pdqPrep key l a b limit wb wp).2.2.2).1 b
                  (pdqsortLoop_perm key (b - (partitionEqualK key (pdqPrep key l a b limit wb wp).2.1 a b (pdqPrep key l a b limit wb wp).2.2.2).1) (partitionEqualK key (pdqPrep key l a b limit wb wp).2.1 a b (pdqPrep key l a b limit wb wp).2.2.2).2 (partitionEqualK key (pdqPrep key l a b limit wb wp).2.1 a b (pdqPrep key l a b limit wb wp).2.2.2).1 b
                    (pdqPrep key l a b limit wb wp).2.2.1 wb wp rfl).symm
                  rframe (by rw [hpelen]; exact hbl)
                  (fun k hk1 hk2 => hPRE2 k (by omega) hk2)
              intro i j hai hij hjb
              rcases Nat.lt_or_ge j (partitionEqualK key (pdqPrep key l a b limit wb wp).2.1 a b (pdqPrep key l a b limit wb wp).2.2.2).1 with hj | hj
              · have e1 := hEQfin i hai (by omega)
                have e2 := hEQfin j (by omega) hj
                omega
              · rcases Nat.lt_or_ge i (partitionEqualK key (pdqPrep key l a b limit wb wp).2.1 a b (pdqPrep key l a b limit wb wp).2.2.2).1 with hi | hi
                · have e1 := hEQfin i hai hi
                  have e2 := hGEfin j hj hjb
                  omega
                · exact rsort i j hi hij hjb
          · rename_i hpeq
            have hab2 : a + 1 ≤ b := by omega
            have hK := partitionK_spec key (pdqPrep key l a b limit wb wp).2.1 a b (pdqPrep key l a b limit wb wp).2.2.2 hab2 ⟨hpmem.1, hpmem.2⟩
              (by rw [hplen]; exact hbl)
            have hmid1 := partitionK_fst_ge key (pdqPrep key l a b limit wb wp).2.1 a b (pdqPrep key l a b limit wb wp).2.2.2 hab2
            have hmid2 := partitionK_fst_le key (pdqPrep key l a b limit wb wp).2.1 a b (pdqPrep key l a b limit wb wp).2.2.2 hab2
            have hKperm := partitionK_snd_perm key (pdqPrep key l a b limit wb wp).2.1 a b (pdqPrep key l a b limit wb wp).2.2.2
            have hKframe := partitionK_frame key (pdqPrep key l a b limit wb wp).2.1 a b (pdqPrep key l a b limit wb wp).2.2.2 hab2 ⟨hpmem.1, hpmem.2⟩
            have hlflen : (partitionK key (pdqPrep key l a b limit wb wp).2.1 a b (pdqPrep key l a b limit wb wp).2.2.2).2.2.length = l.length := by
              rw [hKperm.length_eq, hplen]
            have hinvlf : 0 < a → ∀ k, a ≤ k → k < b →
                key (geta (partitionK key (pdqPrep key l a b limit wb wp).2.1 a b (pdqPrep key l a b limit wb wp).2.2.2).2.2 (a - 1)) ≤ key (geta (partitionK key (pdqPrep key l a b limit wb wp).2.1 a b (pdqPrep key l a b limit wb wp).2.2.2).2.2 k) :=
              prep_chain key l (partitionK key (pdqPrep key l a b limit wb wp).2.1 a b (pdqPrep key l a b limit wb wp).2.2.2).2.2 a b (hKperm.trans hpperm)
                (fun k hk => (hKframe k hk).trans (hprep.1 k hk)) hbl hinv
            split
            · rename_i hshort
              obtain ⟨f1, s1⟩ := ih ((partitionK key (pdqPrep key l a b limit wb wp).2.1 a b (pdqPrep key l a b limit wb wp).2.2.2).1 - a) (by omega) (partitionK key (pdqPrep key l a b limit wb wp).2.1 a b (pdqPrep key l a b limit wb wp).2.2.2).2.2 a (partitionK key (pdqPrep key l a b limit wb wp).2.1 a b (pdqPrep key l a b limit wb wp).2.2.2).1
                (pdqPrep key l a b limit wb wp).2.2.1 true true rfl (by rw [hlflen]; omega)
                (fun h0 k hk1 hk2 => hinvlf h0 k hk1 (by omega))
              have hinperm := pdqsortLoop_perm key ((partitionK key (pdqPrep key l a b limit wb wp).2.1 a b (pdqPrep key l a b limit wb wp).2.2.2).1 - a) (partitionK key (pdqPrep key l a b limit wb wp).2.1 a b (pdqPrep key l a b limit wb wp).2.2.2).2.2 a (partitionK key (pdqPrep key l a b limit wb wp).2.1 a b (pdqPrep key l a b limit wb wp).2.2.2).1
                (pdqPrep key l a b limit wb wp).2.2.1 true true rfl
              have hinlen : ((pdqsortLoop key (partitionK key (pdqPrep key l a b limit wb wp).2.1 a b (pdqPrep key l a b limit wb wp).2.2.2).2.2 a (partitionK key (pdqPrep key l a b limit wb wp).2.1 a b (pdqPrep key l a b limit wb wp).2.2.2).1 (pdqPrep key l a b limit wb wp).2.2.1 true true)).length = l.length := by
                rw [hinperm.length_eq, hlflen]
              have hmidval : geta (pdqsortLoop key (partitionK key (pdqPrep key l a b limit wb wp).2.1 a b (pdqPrep key l a b limit wb wp).2.2.2).2.2 a (partitionK key (pdqPrep key l a b limit wb wp).2.1 a b (pdqPrep key l a b limit wb wp).2.2.2).1 (pdqPrep key l a b limit wb wp).2.2.1 true true) (partitionK key (pdqPrep key l a b limit wb wp).2.1 a b (pdqPrep key l a b limit wb wp).2.2.2).1 = geta (partitionK key (pdqPrep key l a b limit wb wp).2.1 a b (pdqPrep key l a b limit wb wp).2.2.2).2.2 (partitionK key (pdqPrep key l a b limit wb wp).2.1 a b (pdqPrep key l a b limit wb wp).2.2.2).1 :=
                f1 (partitionK key (pdqPrep key l a b limit wb wp).2.1 a b (pdqPrep key l a b limit wb wp).2.2.2).1 (Or.inr (Nat.le_refl (partitionK key (pdqPrep key l a b limit wb wp).2.1 a b (pdqPrep key l a b limit wb wp).2.2.2).1))
              have hinv2 : 0 < (partitionK key (pdqPrep key l a b limit wb wp).2.1 a b (pdqPrep key l a b limit wb wp).2.2.2).1 + 1 → ∀ k, (partitionK key (pdqPrep key l a b limit wb wp).2.1 a b (pdqPrep key l a b limit wb wp).2.2.2).1 + 1 ≤ k → k < b →
                  key (geta (pdqsortLoop key (partitionK key (pdqPrep key l a b limit wb wp).2.1 a b (pdqPrep key l a b limit wb wp).2.2.2).2.2 a (partitionK key (pdqPrep key l a b limit wb wp).2.1 a b (pdqPrep key l a b limit wb wp).2.2.2).1 (pdqPrep key l a b limit wb wp).2.2.1 true true) ((partitionK key (pdqPrep key l a b limit wb wp).2.1 a b (pdqPrep key l a b limit wb wp).2.2.2).1 + 1 - 1)) ≤ key (geta (pdqsortLoop key (partitionK key (pdqPrep key l a b limit wb wp).2.1 a b (pdqPrep key l a b limit wb wp).2.2.2).2.2 a (partitionK key (pdqPrep key l a b limit wb wp).2.1 a b (pdqPrep key l a b limit wb wp).2.2.2).1 (pdqPrep key l a b limit wb wp).2.2.1 true true) k) := by
                intro h0 k hk1 hk2
                have hx : (partitionK key (pdqPrep key l a b limit wb wp).2.1 a b (pdqPrep key l a b limit wb wp).2.2.2).1 + 1 - 1 = (partitionK key (pdqPrep key l a b limit wb wp).2.1 a b (pdqPrep key l a b limit wb wp).2.2.2).1 := by omega
                rw [hx, hmidval, f1 k (Or.inr (by omega))]
                exact hK.2 k (by omega) hk2
              obtain ⟨f2, s2⟩ := ih (b - ((partitionK key (pdqPrep key l a b limit wb wp).2.1 a b (pdqPrep key l a b limit wb wp).2.2.2).1 + 1)) (by omega) (pdqsortLoop key (partitionK key (pdqPrep key l a b limit wb wp).2.1 a b (pdqPrep key l a b limit wb wp).2.2.2).2.2 a (partitionK key (pdqPrep key l a b limit wb wp).2.1 a b (pdqPrep key l a b limit wb wp).2.2.2).1 (pdqPrep key l a b limit wb wp).2.2.1 true true) ((partitionK key (pdqPrep key l a b limit wb wp).2.1 a b (pdqPrep key l a b limit wb wp).2.2.2).1 + 1) b
                (pdqPrep key l a b limit wb wp).2.2.1 (decide ((b - a) / 8 ≤ min ((partitionK key (pdqPrep key l a b limit wb wp).2.1 a b (pdqPrep key l a b limit wb wp).2.2.2).1 - a) (b - (partitionK key (pdqPrep key l a b limit wb wp).2.1 a b (pdqPrep key l a b limit wb wp).2.2.2).1))) (partitionK key (pdqPrep key l a b limit wb wp).2.1 a b (pdqPrep key l a b limit wb wp).2.2.2).2.1 rfl (by rw [hinlen]; exact hbl) hinv2
              constructor
              · intro k hk
                rw [f2 k (by omega), f1 k (by omega), hKframe k hk, hprep.1 k hk]
              · refine sorted_glue key (pdqsortLoop key (pdqsortLoop key (partitionK key (pdqPrep key l a b limit wb wp).2.1 a b (pdqPrep key l a b limit wb wp).2.2.2).2.2 a (partitionK key (pdqPrep key l a b limit wb wp).2.1 a b (pdqPrep key l a b limit wb wp).2.2.2).1 (pdqPrep key l a b limit wb wp).2.2.1 true true) ((partitionK key (pdqPrep key l a b limit wb wp).2.1 a b (pdqPrep key l a b limit wb wp).2.2.2).1 + 1) b (pdqPrep key l a b limit wb wp).2.2.1 (decide ((b - a) / 8 ≤ min ((partitionK key (pdqPrep key l a b limit wb wp).2.1 a b (pdqPrep key l a b limit wb wp).2.2.2).1 - a) (b - (partitionK key (pdqPrep key l a b limit wb wp).2.1 a b (pdqPrep key l a b limit wb wp).2.2.2).1))) (partitionK key (pdqPrep key l a b limit wb wp).2.1 a b (pdqPrep key l a b limit wb wp).2.2.2).2.1) a (partitionK key (pdqPrep key l a b limit wb wp).2.1 a b (pdqPrep key l a b limit wb wp).2.2.2).1 b hmid1 (by omega) ?_ s2 ?_ ?_
                · intro i j hai hij hjb
                  rw [f2 i (Or.inl (by omega)), f2 j (Or.inl (by omega))]
                  exact s1 i j hai hij hjb
                · intro k hk1 hk2
                  rw [f2 (partitionK key (pdqPrep key l a b limit wb wp).2.1 a b (pdqPrep key l a b limit wb wp).2.2.2).1 (Or.inl (by omega)), hmidval, f2 k (Or.inl (by omega))]
                  exact range_pred_preserved
                    (fun x => key x ≤ key (geta (partitionK key (pdqPrep key l a b limit wb wp).2.1 a b (pdqPrep key l a b limit wb wp).2.2.2).2.2 (partitionK key (pdqPrep key l a b limit wb wp).2.1 a b (pdqPrep key l a b limit wb wp).2.2.2).1))
                    (partitionK key (pdqPrep key l a b limit wb wp).2.1 a b (pdqPrep key l a b limit wb wp).2.2.2).2.2 (pdqsortLoop key (partitionK key (pdqPrep key l a b limit wb wp).2.1 a b (pdqPrep key l a b limit wb wp).2.2.2).2.2 a (partitionK key (pdqPrep key l a b limit wb wp).2.1 a b (pdqPrep key l a b limit wb wp).2.2.2).1 (pdqPrep key l a b limit wb wp).2.2.1 true true) a (partitionK key (pdqPrep key l a b limit wb wp).2.1 a b (pdqPrep key l a b limit wb wp).2.2.2).1 hinperm.symm f1
                    (by rw [hlflen]; omega) hK.1 k hk1 hk2
                · intro k hk1 hk2
                  rw [f2 (partitionK key (pdqPrep key l a b limit wb wp).2.1 a b (pdqPrep key l a b limit wb wp).2.2.2).1 (Or.inl (by omega)), hmidval]
                  have hbase : ∀ k2, (partitionK key (pdqPrep key l a b limit wb wp).2.1 a b (pdqPrep key l a b limit wb wp).2.2.2).1 + 1 ≤ k2 → k2 < b →
                      key (geta (partitionK key (pdqPrep key l a b limit wb wp).2.1 a b (pdqPrep key l a b limit wb wp).2.2.2).2.2 (partitionK key (pdqPrep key l a b limit wb wp).2.1 a b (pdqPrep key l a b limit wb wp).2.2.2).1) ≤ key (geta (pdqsortLoop key (partitionK key (pdqPrep key l a b limit wb wp).2.1 a b (pdqPrep key l a b limit wb wp).2.2.2).2.2 a (partitionK key (pdqPrep key l a b limit wb wp).2.1 a b (pdqPrep key l a b limit wb wp).2.2.2).1 (pdqPrep key l a b limit wb wp).2.2.1 true true) k2) := by
                    intro k2 h1 h2
                    rw [f1 k2 (Or.inr (by omega))]
                    exact hK.2 k2 (by omega) h2
                  exact range_pred_preserved
                    (fun x => key (geta (partitionK key (pdqPrep key l a b limit wb wp).2.1 a b (pdqPrep key l a b limit wb wp).2.2.2).2.2 (partitionK key (pdqPrep key l a b limit wb wp).2.1 a b (pdqPrep key l a b limit wb wp).2.2.2).1) ≤ key x)
                    (pdqsortLoop key (partitionK key (pdqPrep key l a b limit wb wp).2.1 a b (pdqPrep key l a b limit wb wp).2.2.2).2.2 a (partitionK key (pdqPrep key l a b limit wb wp).2.1 a b (pdqPrep key l a b limit wb wp).2.2.2).1 (pdqPrep key l a b limit wb wp).2.2.1 true true) (pdqsortLoop key (pdqsortLoop key (partitionK key (pdqPrep key l a b limit wb wp).2.1 a b (pdqPrep key l a b limit wb wp).2.2.2).2.2 a (partitionK key (pdqPrep key l a b limit wb wp).2.1 a b (pdqPrep key l a b limit wb wp).2.2.2).1 (pdqPrep key l a b limit wb wp).2.2.1 true true) ((partitionK key (pdqPrep key l a b limit wb wp).2.1 a b (pdqPrep key l a b limit wb wp).2.2.2).1 + 1) b (pdqPrep key l a b limit wb wp).2.2.1 (decide ((b - a) / 8 ≤ min ((partitionK key (pdqPrep key l a b limit wb wp).2.1 a b (pdqPrep key l a b limit wb wp).2.2.2).1 - a) (b - (partitionK key (pdqPrep key l a b limit wb wp).2.1 a b (pdqPrep key l a b limit wb wp).2.2.2).1))) (partitionK key (pdqPrep key l a b limit wb wp).2.1 a b (pdqPrep key l a b limit wb wp).2.2.2).2.1) ((partitionK key (pdqPrep key l a b limit wb wp).2.1 a b (pdqPrep key l a b limit wb wp).2.2.2).1 + 1) b
                    (pdqsortLoop_perm key (b - ((partitionK key (pdqPrep key l a b limit wb wp).2.1 a b (pdqPrep key l a b limit wb wp).2.2.2).1 + 1)) (pdqsortLoop key (partitionK key (pdqPrep key l a b limit wb wp).2.1 a b (pdqPrep key l a b limit wb wp).2.2.2).2.2 a (partitionK key (pdqPrep key l a b limit wb wp).2.1 a b (pdqPrep key l a b limit wb wp).2.2.2).1 (pdqPrep key l a b limit wb wp).2.2.1 true true) ((partitionK key (pdqPrep key l a b limit wb wp).2.1 a b (pdqPrep key l a b limit wb wp).2.2.2).1 + 1) b
                      (pdqPrep key l a b limit wb wp).2.2.1 (decide ((b - a) / 8 ≤ min ((partitionK key (pdqPrep key l a b limit wb wp).2.1 a b (pdqPrep key l a b limit wb wp).2.2.2).1 - a) (b - (partitionK key (pdqPrep key l a b limit wb wp).2.1 a b (pdqPrep key l a b limit wb wp).2.2.2).1))) (partitionK key (pdqPrep key l a b limit wb wp).2.1 a b (pdqPrep key l a b limit wb wp).2.2.2).2.1 rfl).symm
                    f2 (by rw [hinlen]; exact hbl) hbase k (by omega) hk2
            · rename_i hshort
              obtain ⟨f1, s1⟩ := ih (b - ((partitionK key (pdqPrep key l a b limit wb wp).2.1 a b (pdqPrep key l a b limit wb wp).2.2.2).1 + 1)) (by omega) (partitionK key (pdqPrep key l a b limit wb wp).2.1 a b (pdqPrep key l a b limit wb wp).2.2.2).2.2
                ((partitionK key (pdqPrep key l a b limit wb wp).2.1 a b (pdqPrep key l a b limit wb wp).2.2.2).1 + 1) b (pdqPrep key l a b limit wb wp).2.2.1 true true rfl (by rw [hlflen]; exact hbl)
                (fun h0 k hk1 hk2 => by
                  have hx : (partitionK key (pdqPrep key l a b limit wb wp).2.1 a b (pdqPrep key l a b limit wb wp).2.2.2).1 + 1 - 1 = (partitionK key (pdqPrep key l a b limit wb wp).2.1 a b (pdqPrep key l a b limit wb wp).2.2.2).1 := by omega
                  rw [hx]
                  exact hK.2 k (by omega) hk2)
              have hinperm := pdqsortLoop_perm key (b - ((partitionK key (pdqPrep key l a b limit wb wp).2.1 a b (pdqPrep key l a b limit wb wp).2.2.2).1 + 1)) (partitionK key (pdqPrep key l a b limit wb wp).2.1 a b (pdqPrep key l a b limit wb wp).2.2.2).2.2
                ((partitionK key (pdqPrep key l a b limit wb wp).2.1 a b (pdqPrep key l a b limit wb wp).2.2.2).1 + 1) b (pdqPrep key l a b limit wb wp).2.2.1 true true rfl
              have hinlen : ((pdqsortLoop key (partitionK key (pdqPrep key l a b limit wb wp).2.1 a b (pdqPrep key l a b limit wb wp).2.2.2).2.2 ((partitionK key (pdqPrep key l a b limit wb wp).2.1 a b (pdqPrep key l a b limit wb wp).2.2.2).1 + 1) b (pdqPrep key l a b limit wb wp).2.2.1 true true)).length = l.length := by
                rw [hinperm.length_eq, hlflen]
              have hinv2 : 0 < a → ∀ k, a ≤ k → k < (partitionK key (pdqPrep key l a b limit wb wp).2.1 a b (pdqPrep key l a b limit wb wp).2.2.2).1 →
                  key (geta (pdqsortLoop key (partitionK key (pdqPrep key l a b limit wb wp).2.1 a b (pdqPrep key l a b limit wb wp).2.2.2).2.2 ((partitionK key (pdqPrep key l a b limit wb wp).2.1 a b (pdqPrep key l a b limit wb wp).2.2.2).1 + 1) b (pdqPrep key l a b limit wb wp).2.2.1 true true) (a - 1)) ≤ key (geta (pdqsortLoop key (partitionK key (pdqPrep key l a b limit wb wp).2.1 a b (pdqPrep key l a b limit wb wp).2.2.2).2.2 ((partitionK key (pdqPrep key l a b limit wb wp).2.1 a b (pdqPrep key l a b limit wb wp).2.2.2).1 + 1) b (pdqPrep key l a b limit wb wp).2.2.1 true true) k) := by
                intro h0 k hk1 hk2
                rw [f1 (a - 1) (Or.inl (by omega)), f1 k (Or.inl (by omega))]
                exact hinvlf h0 k hk1 (by omega)
              obtain ⟨f2, s2⟩ := ih ((partitionK key (pdqPrep key l a b limit wb wp).2.1 a b (pdqPrep key l a b limit wb wp).2.2.2).1 - a) (by omega) (pdqsortLoop key (partitionK key (pdqPrep key l a b limit wb wp).2.1 a b (pdqPrep key l a b limit wb wp).2.2.2).2.2 ((partitionK key (pdqPrep key l a b limit wb wp).2.1 a b (pdqPrep key l a b limit wb wp).2.2.2).1 + 1) b (pdqPrep key l a b limit wb wp).2.2.1 true true) a (partitionK key (pdqPrep key l a b limit wb wp).2.1 a b (pdqPrep key l a b limit wb wp).2.2.2).1
                (pdqPrep key l a b limit wb wp).2.2.1 (decide ((b - a) / 8 ≤ min ((partitionK key (pdqPrep key l a b limit wb wp).2.1 a b (pdqPrep key l a b limit wb wp).2.2.2).1 - a) (b - (partitionK key (pdqPrep key l a b limit wb wp).2.1 a b (pdqPrep key l a b limit wb wp).2.2.2).1))) (partitionK key (pdqPrep key l a b limit wb wp).2.1 a b (pdqPrep key l a b limit wb wp).2.2.2).2.1 rfl (by rw [hinlen]; omega) hinv2
              constructor
              · intro k hk
                rw [f2 k (by omega), f1 k (by omega), hKframe k hk, hprep.1 k hk]
              · refine sorted_glue key (pdqsortLoop key (pdqsortLoop key (partitionK key (pdqPrep key l a b limit wb wp).2.1 a b (pdqPrep key l a b limit wb wp).2.2.2).2.2 ((partitionK key (pdqPrep key l a b limit wb wp).2.1 a b (pdqPrep key l a b limit wb wp).2.2.2).1 + 1) b (pdqPrep key l a b limit wb wp).2.2.1 true true) a (partitionK key (pdqPrep key l a b limit wb wp).2.1 a b (pdqPrep key l a b limit wb wp).2.2.2).1 (pdqPrep key l a b limit wb wp).2.2.1 (decide ((b - a) / 8 ≤ min ((partitionK key (pdqPrep key l a b limit wb wp).2.1 a b (pdqPrep key l a b limit wb wp).2.2.2).1 - a) (b - (partitionK key (pdqPrep key l a b limit wb wp).2.1 a b (pdqPrep key l a b limit wb wp).2.2.2).1))) (partitionK key (pdqPrep key l a b limit wb wp).2.1 a b (pdqPrep key l a b limit wb wp).2.2.2).2.1) a (partitionK key (pdqPrep key l a b limit wb wp).2.1 a b (pdqPrep key l a b limit wb wp).2.2.2).1 b hmid1 (by omega) s2 ?_ ?_ ?_
                · intro i j hai hij hjb
                  rw [f2 i (Or.inr (by omega)), f2 j (Or.inr (by omega))]
                  exact s1 i j hai hij hjb
                · intro k hk1 hk2
                  rw [f2 (partitionK key (pdqPrep key l a b limit wb wp).2.1 a b (pdqPrep key l a b limit wb wp).2.2.2).1 (Or.inr (Nat.le_refl (partitionK key (pdqPrep key l a b limit wb wp).2.1 a b (pdqPrep key l a b limit wb wp).2.2.2).1)),
                    f1 (partitionK key (pdqPrep key l a b limit wb wp).2.1 a b (pdqPrep key l a b limit wb wp).2.2.2).1 (Or.inl (by omega))]
                  have hbase : ∀ k2, a ≤ k2 → k2 < (partitionK key (pdqPrep key l a b limit wb wp).2.1 a b (pdqPrep key l a b limit wb wp).2.2.2).1 →
                      key (geta (pdqsortLoop key (partitionK key (pdqPrep key l a b limit wb wp).2.1 a b (pdqPrep key l a b limit wb wp).2.2.2).2.2 ((partitionK key (pdqPrep key l a b limit wb wp).2.1 a b (pdqPrep key l a b limit wb wp).2.2.2).1 + 1) b (pdqPrep key l a b limit wb wp).2.2.1 true true) k2) ≤ key (geta (partitionK key (pdqPrep key l a b limit wb wp).2.1 a b (pdqPrep key l a b limit wb wp).2.2.2).2.2 (partitionK key (pdqPrep key l a b limit wb wp).2.1 a b (pdqPrep key l a b limit wb wp).2.2.2).1) := by
                    intro k2 h1 h2
                    rw [f1 k2 (Or.inl (by omega))]
                    exact hK.1 k2 h1 h2
                  exact range_pred_preserved
                    (fun x => key x ≤ key (geta (partitionK key (pdqPrep key l a b limit wb wp).2.1 a b (pdqPrep key l a b limit wb wp).2.2.2).2.2 (partitionK key (pdqPrep key l a b limit wb wp).2.1 a b (pdqPrep key l a b limit wb wp).2.2.2).1))
                    (pdqsortLoop key (partitionK key (pdqPrep key l a b limit wb wp).2.1 a b (pdqPrep key l a b limit wb wp).2.2.2).2.2 ((partitionK key (pdqPrep key l a b limit wb wp).2.1 a b (pdqPrep key l a b limit wb wp).2.2.2).1 + 1) b (pdqPrep key l a b limit wb wp).2.2.1 true true) (pdqsortLoop key (pdqsortLoop key (partitionK key (pdqPrep key l a b limit wb wp).2.1 a b (pdqPrep key l a b limit wb wp).2.2.2).2.2 ((partitionK key (pdqPrep key l a b limit wb wp).2.1 a b (pdqPrep key l a b limit wb wp).2.2.2).1 + 1) b (pdqPrep key l a b limit wb wp).2.2.1 true true) a (partitionK key (pdqPrep key l a b limit wb wp).2.1 a b (pdqPrep key l a b limit wb wp).2.2.2).1 (pdqPrep key l a b limit wb wp).2.2.1 (decide ((b - a) / 8 ≤ min ((partitionK key (pdqPrep key l a b limit wb wp).2.1 a b (pdqPrep key l a b limit wb wp).2.2.2).1 - a) (b - (partitionK key (pdqPrep key l a b limit wb wp).2.1 a b (pdqPrep key l a b limit wb wp).2.2.2).1))) (partitionK key (pdqPrep key l a b limit wb wp).2.1 a b (pdqPrep key l a b limit wb wp).2.2.2).2.1) a (partitionK key (pdqPrep key l a b limit wb wp).2.1 a b (pdqPrep key l a b limit wb wp).2.2.2).1
                    (pdqsortLoop_perm key ((partitionK key (pdqPrep key l a b limit wb wp).2.1 a b (pdqPrep key l a b limit wb wp).2.2.2).1 - a) (pdqsortLoop key (partitionK key (pdqPrep key l a b limit wb wp).2.1 a b (pdqPrep key l a b limit wb wp).2.2.2).2.2 ((partitionK key (pdqPrep key l a b limit wb wp).2.1 a b (pdqPrep key l a b limit wb wp).2.2.2).1 + 1) b (pdqPrep key l a b limit wb wp).2.2.1 true true) a (partitionK key (pdqPrep key l a b limit wb wp).2.1 a b (pdqPrep key l a b limit wb wp).2.2.2).1
                      (pdqPrep key l a b limit wb wp).2.2.1 (decide ((b - a) / 8 ≤ min ((partitionK key (pdqPrep key l a b limit wb wp).2.1 a b (pdqPrep key l a b limit wb wp).2.2.2).1 - a) (b - (partitionK key (pdqPrep key l a b limit wb wp).2.1 a b (pdqPrep key l a b limit wb wp).2.2.2).1))) (partitionK key (pdqPrep key l a b limit wb wp).2.1 a b (pdqPrep key l a b limit wb wp).2.2.2).2.1 rfl).symm
                    f2 (by rw [hinlen]; omega) hbase k hk1 hk2
                · intro k hk1 hk2
                  rw [f2 (partitionK key (pdqPrep key l a b limit wb wp).2.1 a b (pdqPrep key l a b limit wb wp).2.2.2).1 (Or.inr (Nat.le_refl (partitionK key (pdqPrep key l a b limit wb wp).2.1 a b (pdqPrep key l a b limit wb wp).2.2.2).1)),
                    f1 (partitionK key (pdqPrep key l a b limit wb wp).2.1 a b (pdqPrep key l a b limit wb wp).2.2.2).1 (Or.inl (by omega)), f2 k (Or.inr (by omega))]
                  exact range_pred_preserved
                    (fun x => key (geta (partitionK key (pdqPrep key l a b limit wb wp).2.1 a b (pdqPrep key l a b limit wb wp).2.2.2).2.2 (partitionK key (pdqPrep key l a b limit wb wp).2.1 a b (pdqPrep key l a b limit wb wp).2.2.2).1) ≤ key x)
                    (partitionK key (pdqPrep key l a b limit wb wp).2.1 a b (pdqPrep key l a b limit wb wp).2.2.2).2.2 (pdqsortLoop key (partitionK key (pdqPrep key l a b limit wb wp).2.1 a b (pdqPrep key l a b limit wb wp).2.2.2).2.2 ((partitionK key (pdqPrep key l a b limit wb wp).2.1 a b (pdqPrep key l a b limit wb wp).2.2.2).1 + 1) b (pdqPrep key l a b limit wb wp).2.2.1 true true) ((partitionK key (pdqPrep key l a b limit wb wp).2.1 a b (pdqPrep key l a b limit wb wp).2.2.2).1 + 1) b hinperm.symm f1
                    (by rw [hlflen]; exact hbl)
                    (fun k2 h1 h2 => hK.2 k2 (by omega) h2) k (by omega) hk2

/-- sort.Slice as called by extractStrings sorts the whole slice by the key. -/
theorem sortSliceK_sorted (key : α → Nat) [Inhabited α] (l : List α) :
    sortedRange key (sortSliceK key l) 0 l.length := by
  unfold sortSliceK
  exact (pdqsortLoop_spec key l.length l 0 l.length (bitsLen l.length) true true
    rfl (Nat.le_refl l.length) (fun h => absurd h (Nat.lt_irrefl 0))).2

/-- C2: in the result of extractStrings, the strings are sorted by ascending
address: each entry's Address is at most the next entry's Address. -/
theorem extractStrings_sorted (file : ObjFile) (n i : Nat)
    (h : i + 1 < (extractStrings file n).1.Strings.length) :
    ((extractStrings file n).1.Strings.getD i default).Address ≤
      ((extractStrings file n).1.Strings.getD (i + 1) default).Address := by
  have hperm := sortSliceK_perm StringInfo.Address (deduplicateStrings (pull (pull (pull []
    sectText file.Text n) sectRodata file.RData n) sectDataRelRo file.RelRData n))
  have hs := sortSliceK_sorted StringInfo.Address (deduplicateStrings (pull (pull (pull []
    sectText file.Text n) sectRodata file.RData n) sectDataRelRo file.RelRData n))
  simp only [extractStrings] at h ⊢
  exact hs i (i + 1) (Nat.zero_le i) (Nat.le_succ i) (by rw [← hperm.length_eq]; exact h)

unseal utf8Decode stringsTrimLeftSpace stringsTrimRightSpace lastStartScan asciiLoop
  scanAsciiLoop utf8RunEnd utf8Loop insertionSortInner insertionSortOuter pdqsortLoop in
/-- Witness for C2: a single text section holding the runs s01 and s02 yields
two entries, and the first entry's address is at most the second's. -/
theorem extractStrings_sorted_witness :
    0 + 1 < (extractStrings (ObjFile.mk (some (4096, [115, 48, 49, 0, 115, 48, 50, 0]))
        none none) 3).1.Strings.length ∧
    ((extractStrings (ObjFile.mk (some (4096, [115, 48, 49, 0, 115, 48, 50, 0]))
        none none) 3).1.Strings.getD 0 default).Address ≤
      ((extractStrings (ObjFile.mk (some (4096, [115, 48, 49, 0, 115, 48, 50, 0]))
        none none) 3).1.Strings.getD (0 + 1) default).Address :=
  ⟨by decide, extractStrings_sorted
    (ObjFile.mk (some (4096, [115, 48, 49, 0, 115, 48, 50, 0])) none none) 3 0 (by decide)⟩

/-- The text section bytes of the tie-order input: twelve NUL-terminated runs
s01 through s12 at offsets 0, 4, ..., 44. -/
def stabText : List Nat :=
  [115, 48, 49, 0, 115, 48, 50, 0, 115, 48, 51, 0, 115, 48, 52, 0,
   115, 48, 53, 0, 115, 48, 54, 0, 115, 48, 55, 0, 115, 48, 56, 0,
   115, 48, 57, 0, 115, 49, 48, 0, 115, 49, 49, 0, 115, 49, 50, 0]

/-- The tie-order input: a text section at base 0 with the twelve runs and a
rodata section at base 0 holding the single run r01, so that the r01 entry and
the s01 entry share address 0. -/
def stabFile : ObjFile := ObjFile.mk (some (0, stabText)) (some (0, [114, 48, 49])) none

unseal utf8Decode stringsTrimLeftSpace stringsTrimRightSpace lastStartScan asciiLoop
  scanAsciiLoop utf8RunEnd utf8Loop insertionSortInner insertionSortOuter pdqsortLoop
  partAdvI partAdvJ partitionLoopK peqAdvI peqAdvJ partitionEqualLoopK pisScan
  pisLeftShift pisRightShift pisLoop siftDownGo heapBuild heapPop reverseRangeGo in
/-- Counterexample for C2's tie-order clause: in the post-deduplication
discovery order the s01 entry (address 0, section .text) comes first and the
r01 entry (address 0, section .rodata) comes last, yet in the sorted output of
extractStrings the r01 entry precedes the s01 entry, so entries with equal
address do not keep their discovery order. -/
theorem extractStrings_tie_order :
    (deduplicateStrings (pull (pull (pull [] sectText stabFile.Text 3) sectRodata
        stabFile.RData 3) sectDataRelRo stabFile.RelRData 3)).getD 0 default =
      StringInfo.mk [115, 48, 49] 0 sectText ∧
    (deduplicateStrings (pull (pull (pull [] sectText stabFile.Text 3) sectRodata
        stabFile.RData 3) sectDataRelRo stabFile.RelRData 3)).getD 12 default =
      StringInfo.mk [114, 48, 49] 0 sectRodata ∧
    (extractStrings stabFile 3).1.Strings.getD 0 default =
      StringInfo.mk [114, 48, 49] 0 sectRodata ∧
    (extractStrings stabFile 3).1.Strings.getD 1 default =
      StringInfo.mk [115, 48, 49] 0 sectText :=
  ⟨rfl, rfl, rfl, rfl⟩
